import Mathlib

/-!
# Command-line airfoil plotter: verification of `src/main.c`

A shallow embedding of the three stages of the program

* `sanitize_file`  : tokenizing the raw text and re-pairing the numeric tokens,
* `points_array`   : loading the pairs, scaling them to the canvas width and rounding,
* `main`           : rasterizing the grid points into the canvas and printing it,

followed by the theorems about them.

Conventions of the embedding.

* A C string is a `List Char` without the terminating NUL; a text file is the
  `List Char` of its content.
* `int` variables are `Nat` or `Int`; no loop of the program counts past the size
  of its input, so no wrap-around is modelled.
* A `double` in the arithmetic of the scaling stage is a value of `Double`: a
  finite number that a binary64 format holds, an infinity or a NaN; every
  operation rounds to the nearest such number, ties to even. The reading loop
  keeps the decimal value of each number read; the `double` the code holds for
  it is `to_double` of that value, and the comparison of line 201 on the
  `double`s leaves in `greatest_x` the `double` of the greatest number read,
  since rounding keeps the order (`greatest_double_eq`).
* A run that reaches behaviour the C standard leaves undefined (a store or a
  load outside an array, the use of an uninitialised value, the conversion to
  `int` of a `double` that no `int` holds) ends in `Outcome.undefined`; a loop
  that has not stopped after the given number of iterations ends in
  `Outcome.timeout`.
* `fscanf` reads decimal numbers only; on other forms of `%lf` input the run ends
  in `Outcome.unmodelled`.
-/

namespace Airfoil

/-! ## Outcomes of a run -/

/-- The result of running a piece of the program. -/
inductive Outcome (α : Type) where
  /-- the code ran to its end and produced `a` -/
  | returns (a : α)
  /-- the code reached behaviour that C leaves undefined -/
  | undefined
  /-- the loop was still running when the iteration budget was used up -/
  | timeout
  /-- the input left the part of the C library that is modelled -/
  | unmodelled
  deriving DecidableEq

/-- Sequencing of outcomes. -/
def Outcome.bind {α β : Type} (o : Outcome α) (f : α → Outcome β) : Outcome β :=
  match o with
  | .returns a => f a
  | .undefined => .undefined
  | .timeout => .timeout
  | .unmodelled => .unmodelled

/-! ## `sanitize_file`: the output path (lines 119-138) -/

/-- First loop of `sanitize_file` (lines 122-125), started at index `i` with the
current value of `pos`: `pos` becomes the index of the last `'/'` seen, and keeps
its value when there is none. -/
def last_slash_from : List Char → Nat → Nat → Nat
  | [], _, pos => pos
  | c :: cs, i, pos => last_slash_from cs (i + 1) (if c = '/' then i else pos)

/-- Value of `pos` after the first loop: it starts as `0`. -/
def last_slash (f_in_name : List Char) : Nat :=
  last_slash_from f_in_name 0 0

/-- Second loop (lines 127-131): the characters `pos + 1 .. len - 1` of the
input path are copied to `f_out_name`. -/
def f_out_name (f_in_name : List Char) : List Char :=
  f_in_name.drop (last_slash f_in_name + 1)

/-- The folder name of line 134. -/
def f_out_folder : List Char := "DAT_files_sanitized".toList

/-- The characters that `sprintf(f_out_path, "%s/%s", f_out_folder, f_out_name)`
(line 137) writes before the closing NUL. The code stores no NUL after the
characters copied to `f_out_name`: `junk` stands for the bytes that follow them in
memory up to the first NUL, which `%s` reads as well. -/
def formatted_path (f_in_name junk : List Char) : List Char :=
  f_out_folder ++ '/' :: (f_out_name f_in_name ++ junk)

/-- The path that lines 137-138 leave in the caller's `output_path`. The run is
undefined when no NUL lies inside the `len` bytes of `f_out_name` (line 126), when
`sprintf` writes more than the `len + 1` bytes of `f_out_path` (line 135:
`sizeof(*f_out_folder)` is 1), and when `strcpy` writes more than the 100 bytes of
`output_path` (line 47). -/
def output_path (f_in_name junk : List Char) : Outcome (List Char) :=
  if f_in_name.length ≤ (f_out_name f_in_name ++ junk).length then .undefined
  else if 1 + f_in_name.length < (formatted_path f_in_name junk).length + 1 then .undefined
  else if 100 < (formatted_path f_in_name junk).length + 1 then .undefined
  else .returns (formatted_path f_in_name junk)

/-- The base name in the usual sense: the part of the path after its last `'/'`,
the whole path when it has no `'/'`. -/
def base_name (p : List Char) : List Char :=
  (p.splitOn '/').getLast?.getD []

/-! ## `sanitize_file`: tokenizing and re-pairing (lines 158-167) -/

/-- The delimiter set `" \t\n"` handed to `strtok`. -/
def is_delim (c : Char) : Bool :=
  c == ' ' || c == '\t' || c == '\n'

/-- One call of `strtok` on the not yet consumed part of the buffer: the leading
delimiters are skipped; when nothing is left the call returns `NULL` (`none`);
otherwise the token runs up to the next delimiter, which is overwritten by NUL,
and the scan of the next call starts after it. -/
def strtok (s : List Char) : Option (List Char × List Char) :=
  match s.dropWhile is_delim with
  | [] => none
  | c :: cs =>
    some ((c :: cs).takeWhile (fun d => !is_delim d),
          ((c :: cs).dropWhile (fun d => !is_delim d)).drop 1)

/-- The test `isdigit(word[0])` of line 162. -/
def starts_with_digit (word : List Char) : Bool :=
  match word with
  | [] => false
  | c :: _ => c.isDigit

/-- What `fprintf(f_out, num_words % 2 == 0 ? "%s " : "%s\n", word)` writes. -/
def emit_word (num_words : Nat) (word : List Char) : List Char :=
  word ++ [if num_words % 2 = 0 then ' ' else '\n']

/-- The `while` loop of lines 161-167, run for at most `fuel` iterations on the
unread part `ptr` of the buffer, with the current `num_words` and the text `out`
written to the output file so far. `none` when the budget is used up. -/
def sanitize_loop : Nat → List Char → Nat → List Char → Option (List Char)
  | 0, _, _, _ => none
  | fuel + 1, ptr, num_words, out =>
    match strtok ptr with
    | none => some out
    | some (word, rest) =>
      if starts_with_digit word then
        sanitize_loop fuel rest (num_words + 1) (out ++ emit_word num_words word)
      else
        sanitize_loop fuel rest num_words out

/-- The sanitized stream written by `sanitize_file` for the content `buffer` of
the input file. Every iteration consumes at least one character, so
`buffer.length + 1` iterations are enough (see `sanitize_loop_eq`). -/
def sanitize (buffer : List Char) : Option (List Char) :=
  sanitize_loop (buffer.length + 1) buffer 0 []

/-! ### The sanitized stream, as the specification words it -/

/-- The tokens of the input: the pieces obtained by splitting it on space, tab
and newline. -/
def split_tokens (s : List Char) : List (List Char) :=
  s.splitOnP is_delim

/-- The kept tokens: those whose first character is an ASCII digit. -/
def kept_tokens (s : List Char) : List (List Char) :=
  (split_tokens s).filter starts_with_digit

/-- The separator after the kept token at position `i`: a space at the even
positions, a newline at the odd ones. -/
def separator (i : Nat) : Char :=
  if i % 2 = 0 then ' ' else '\n'

/-- The tokens `toks`, taken to stand at the positions `i, i + 1, ...`, each
followed by its separator, concatenated in order. -/
def repair_from (i : Nat) (toks : List (List Char)) : List Char :=
  ((toks.enumFrom i).map (fun it => it.2 ++ [separator it.1])).flatten

/-- The re-paired stream of a list of kept tokens. -/
def repair (toks : List (List Char)) : List Char :=
  repair_from 0 toks

/-! ### Lines and fields of a stream -/

/-- The newline-terminated lines of a text: the pieces before each `'\n'`. -/
def terminated_lines (out : List Char) : List (List Char) :=
  (out.splitOnP (fun c => c == '\n')).dropLast

/-- What follows the last `'\n'` of a text (the whole text when it has none). -/
def unterminated_tail (out : List Char) : List Char :=
  ((out.splitOnP (fun c => c == '\n')).getLast?).getD []

/-- The lines of a text: the newline-terminated ones, and the unterminated tail
when it is not empty. -/
def stream_lines (out : List Char) : List (List Char) :=
  terminated_lines out ++
    (if (unterminated_tail out).isEmpty then [] else [unterminated_tail out])

/-- The fields of a line: its maximal runs of non-blank characters. -/
def fields (l : List Char) : List (List Char) :=
  (l.splitOnP is_delim).filter (fun f => !f.isEmpty)

/-- A line with exactly two fields, both starting with an ASCII digit. -/
def two_numeric_fields (l : List Char) : Bool :=
  (fields l).length == 2 && (fields l).all starts_with_digit

/-- The lines made of the complete pairs of a token list. -/
def pair_lines : List (List Char) → List (List Char)
  | a :: b :: rest => (a ++ ' ' :: b) :: pair_lines rest
  | _ => []

/-- The text written for the token left over when the list has odd length. -/
def odd_tail : List (List Char) → List Char
  | _ :: _ :: rest => odd_tail rest
  | [a] => a ++ [' ']
  | [] => []

/-- A token as `sanitize_file` keeps them: it starts with a digit and holds no
delimiter. -/
def KeptToken (t : List Char) : Prop :=
  starts_with_digit t = true ∧ ∀ c ∈ t, is_delim c = false

/-! ## `points_array`: reading the sanitized file (lines 180-206) -/

/-- The counting loop of lines 184-188: `lines_in_file` is the number of `'\n'`
characters of the file. -/
def count_newlines (file : List Char) : Nat :=
  file.foldl (fun lines_in_file c => if c = '\n' then lines_in_file + 1 else lines_in_file) 0

/-- The white space that `fscanf` skips (`isspace` in the "C" locale). -/
def isspace (c : Char) : Bool :=
  c == ' ' || c == '\t' || c == '\n' || c == '\x0b' || c == '\x0c' || c == '\r'

/-- The number written by a string of decimal digits. -/
def digits_value (ds : List Char) : Nat :=
  ds.foldl (fun n c => 10 * n + (c.toNat - '0'.toNat)) 0

/-- What one `%lf` directive does with the text in front of it. -/
inductive Conversion where
  /-- a number was read; `rest` is the text after it -/
  | value (x : ℚ) (rest : List Char)
  /-- the text does not start with a number (matching failure) -/
  | no_match (rest : List Char)
  /-- the end of the file came before any character of a number (input failure) -/
  | input_failure
  /-- forms whose reading is not modelled: hexadecimal numbers, `inf`, `nan`, and
  an exponent letter that no exponent follows -/
  | unmodelled
  deriving DecidableEq

/-- The optional sign of a number. -/
def read_sign : List Char → Bool × List Char
  | '-' :: r => (true, r)
  | '+' :: r => (false, r)
  | s => (false, s)

/-- The forms of `%lf` input left out of the model, recognised by their start. -/
def unmodelled_start : List Char → Bool
  | '0' :: 'x' :: _ => true
  | '0' :: 'X' :: _ => true
  | 'i' :: _ => true
  | 'I' :: _ => true
  | 'n' :: _ => true
  | 'N' :: _ => true
  | _ => false

/-- The optional exponent part after the digits of a number: `some (e, rest)` for
a complete exponent or for none at all, `none` for a dangling exponent letter. -/
def read_exponent : List Char → Option (Int × List Char)
  | c :: r =>
    if c = 'e' ∨ c = 'E' then
      let sr := read_sign r
      let ds := sr.2.takeWhile Char.isDigit
      if ds.isEmpty then none
      else some ((if sr.1 then -(digits_value ds : Int) else digits_value ds),
                 sr.2.dropWhile Char.isDigit)
    else some (0, c :: r)
  | [] => some (0, [])

/-- One `%lf` directive of `fscanf`: white space is skipped, then the longest
decimal number `[sign] digits [. digits] [e [sign] digits]` is read and converted
exactly. -/
def scan_lf (s : List Char) : Conversion :=
  match s.dropWhile isspace with
  | [] => .input_failure
  | c :: cs =>
    let sr := read_sign (c :: cs)
    if unmodelled_start sr.2 then .unmodelled
    else
      let ip := sr.2.takeWhile Char.isDigit
      let s3 := sr.2.dropWhile Char.isDigit
      let fp := match s3 with
        | '.' :: r => r.takeWhile Char.isDigit
        | _ => []
      let s4 := match s3 with
        | '.' :: r => r.dropWhile Char.isDigit
        | _ => s3
      if ip.isEmpty && fp.isEmpty then .no_match s3
      else
        match read_exponent s4 with
        | none => .unmodelled
        | some (e, rest) =>
          let m : ℚ := (digits_value (ip ++ fp) : ℚ) * (10 : ℚ) ^ (e - (fp.length : Int))
          .value (if sr.1 then -m else m) rest

/-- The state of the reading loop of `points_array`: the unread text of the file,
the locals `x_coord`, `y_coord` (`none` while uninitialised), `greatest_x`, `line`,
and the two arrays (a cell is `none` until it is written). -/
structure LoadState where
  rest : List Char
  x_coord : Option ℚ
  y_coord : Option ℚ
  greatest_x : ℚ
  line : Nat
  x_coords : List (Option ℚ)
  y_coords : List (Option ℚ)
  deriving DecidableEq

/-- The state before the loop (lines 191-196): arrays of `lines_in_file` cells. -/
def LoadState.init (file : List Char) (lines_in_file : Nat) : LoadState :=
  { rest := file, x_coord := none, y_coord := none, greatest_x := 0, line := 0,
    x_coords := List.replicate lines_in_file none,
    y_coords := List.replicate lines_in_file none }

/-- The result of one call `fscanf(f, "%lf %lf", &x_coord, &y_coord)`. -/
inductive Scanned where
  /-- the call returned `EOF` -/
  | eof
  /-- the call returned the number of items assigned (0, 1 or 2) and left the
  state `st` -/
  | items (n : Nat) (st : LoadState)
  /-- the text is outside the modelled forms -/
  | unmodelled
  deriving DecidableEq

/-- One call of `fscanf` with the format `"%lf %lf"` in the state `st`. -/
def fscanf_lf_lf (st : LoadState) : Scanned :=
  match scan_lf st.rest with
  | .unmodelled => .unmodelled
  | .input_failure => .eof
  | .no_match r => .items 0 { st with rest := r }
  | .value x r =>
    match scan_lf r with
    | .unmodelled => .unmodelled
    | .input_failure => .items 1 { st with rest := [], x_coord := some x }
    | .no_match r2 => .items 1 { st with rest := r2, x_coord := some x }
    | .value y r2 => .items 2 { st with rest := r2, x_coord := some x, y_coord := some y }

/-- The body of the reading loop (lines 201-204). Comparing an uninitialised
`x_coord` and storing past the end of the arrays are undefined. -/
def store_pair (st : LoadState) : Outcome LoadState :=
  match st.x_coord with
  | none => .undefined
  | some x =>
    if st.line < st.x_coords.length then
      .returns { st with
        greatest_x := if x > st.greatest_x then x else st.greatest_x
        x_coords := st.x_coords.set st.line (some x)
        y_coords := st.y_coords.set st.line st.y_coord
        line := st.line + 1 }
    else .undefined

/-- The reading loop of lines 200-205, for at most `fuel` iterations: it runs the
body after every call of `fscanf` that does not return `EOF`. The call names the
handle `f`, closed at line 189, and not `fp`, opened at line 197 on the same file;
the loop is taken to read that file from its start. -/
def read_loop : Nat → LoadState → Outcome LoadState
  | 0, _ => .timeout
  | fuel + 1, st =>
    match fscanf_lf_lf st with
    | .unmodelled => .unmodelled
    | .eof => .returns st
    | .items _ st1 => (store_pair st1).bind (read_loop fuel)

/-- The reading loop on the values that successive calls of `fscanf` deliver when
every call assigns both items: the body runs once for each pair. -/
def load_pairs : List (ℚ × ℚ) → LoadState → Outcome LoadState
  | [], st => .returns st
  | (x, y) :: ps, st =>
    (store_pair { st with x_coord := some x, y_coord := some y }).bind (load_pairs ps)

/-! ## The arithmetic of `double` -/

/-- A value of the type `double`: a finite number (the sign of a zero is not
kept), an infinity with its sign, or a NaN. -/
inductive Double where
  /-- a finite number -/
  | finite (v : ℚ)
  /-- plus or minus infinity -/
  | inf (negative : Bool)
  /-- not a number -/
  | nan
  deriving DecidableEq

/-- The power `2 ^ e` as a rational number. -/
def pow2 (e : ℤ) : ℚ :=
  if 0 ≤ e then ((2 ^ e.toNat : ℕ) : ℚ) else 1 / ((2 ^ (-e).toNat : ℕ) : ℚ)

/-- The number of binary digits of `n`, found in at most `fuel` halvings. -/
def bit_length_aux : Nat → Nat → Nat
  | 0, _ => 0
  | fuel + 1, n => if n = 0 then 0 else bit_length_aux fuel (n / 2) + 1

/-- The number of binary digits of `n`. -/
def bit_length (n : Nat) : Nat :=
  bit_length_aux n n

/-- The binary exponent of a positive number `q`: the `e` with
`2 ^ e ≤ q < 2 ^ (e + 1)`. -/
def binary_exponent (q : ℚ) : ℤ :=
  if pow2 ((bit_length q.num.natAbs : ℤ) - (bit_length q.den : ℤ)) ≤ q then
    (bit_length q.num.natAbs : ℤ) - (bit_length q.den : ℤ)
  else (bit_length q.num.natAbs : ℤ) - (bit_length q.den : ℤ) - 1

/-- The integer nearest to `m`, the even one of the two in a halfway case. -/
def round_half_even (m : ℚ) : ℤ :=
  if m - ⌊m⌋ < 1 / 2 then ⌊m⌋
  else if 1 / 2 < m - ⌊m⌋ then ⌊m⌋ + 1
  else if ⌊m⌋ % 2 = 0 then ⌊m⌋ else ⌊m⌋ + 1

/-- The spacing of the binary64 numbers around the number `q ≠ 0`: 53 binary
digits from the binary exponent of `|q|`, which is taken as `-1022` at least (the
subnormal numbers). -/
def quantum (q : ℚ) : ℚ :=
  pow2 (max (binary_exponent |q|) (-1022) - 52)

/-- The magnitude of the binary64 number nearest to `q ≠ 0`, ties to even. -/
def nearest_magnitude (q : ℚ) : ℚ :=
  (round_half_even (|q| / quantum q) : ℚ) * quantum q

/-- The `double` nearest to the number `q`, ties to even: the result of a
correctly rounded operation whose exact value is `q`. A magnitude that rounds to
`2 ^ 1024` or more gives an infinity. -/
def to_double (q : ℚ) : Double :=
  if q = 0 then .finite 0
  else if pow2 1024 ≤ nearest_magnitude q then .inf (decide (q < 0))
  else if q < 0 then .finite (-nearest_magnitude q)
  else .finite (nearest_magnitude q)

/-- The product of two `double`s. -/
def Double.mul : Double → Double → Double
  | .finite a, .finite b => to_double (a * b)
  | .finite a, .inf s => if a = 0 then .nan else .inf (xor (decide (a < 0)) s)
  | .inf s, .finite b => if b = 0 then .nan else .inf (xor s (decide (b < 0)))
  | .inf s, .inf t => .inf (xor s t)
  | _, _ => .nan

/-- The quotient of two `double`s; a zero divisor is the positive zero (the only
zero that `greatest_x` can hold). -/
def Double.div : Double → Double → Double
  | .finite a, .finite b =>
    if b = 0 then (if a = 0 then .nan else .inf (decide (a < 0))) else to_double (a / b)
  | .finite _, .inf _ => .finite 0
  | .inf s, .finite b => .inf (xor s (decide (b < 0)))
  | _, _ => .nan

/-- The comparison `a > b` of two `double`s; false when one of them is a NaN. -/
def Double.gt : Double → Double → Bool
  | .finite a, .finite b => decide (b < a)
  | .finite _, .inf s => s
  | .inf s, .finite _ => !s
  | .inf s, .inf t => !s && t
  | _, _ => false

/-- The `double` that `greatest_x` holds when line 201,
`if (x_coord > greatest_x) greatest_x = x_coord;`, has run on the `double`s of the
numbers `xs`, from the `double` `g`. -/
def greatest_double (g : Double) (xs : List ℚ) : Double :=
  xs.foldl (fun g x => if Double.gt (to_double x) g then to_double x else g) g

/-! ## `points_array`: scaling and rounding (lines 208-223) -/

/-- The function `round` of `math.h` on an exact value: the nearest integer,
halfway cases away from zero. -/
def c_round (v : ℚ) : ℤ :=
  if 0 ≤ v then ⌊v + 1 / 2⌋ else -⌊-v + 1 / 2⌋

/-- The conversion `(int)round(d)` of lines 217-218: `round` gives the nearest
integer, halfway cases away from zero, and the conversion to a 32-bit `int` is
undefined for an infinity, a NaN and an integer outside the range of `int`. -/
def to_int : Double → Outcome ℤ
  | .finite v =>
    if -2147483648 ≤ c_round v ∧ c_round v ≤ 2147483647 then .returns (c_round v)
    else .undefined
  | _ => .undefined

/-- The quotient `max_width / greatest_x` of line 209, in `double`: the `int` is
converted to `double` and divided by the `double` that `greatest_x` holds, the
`double` of the greatest number read. -/
def scale_factor (max_width : Nat) (greatest_x : ℚ) : Double :=
  Double.div (to_double max_width) (to_double greatest_x)

/-- The value that lines 214-215 leave in a cell that held the number `v`: the
`double` of `v` times the factor. -/
def scaled (factor : Double) (v : ℚ) : Double :=
  Double.mul (to_double v) factor

/-- Lines 214-218 for one cell: the cell is multiplied by the factor, rounded and
converted to `int`. Undefined for an unwritten cell. -/
def scale_cell (factor : Double) (cell : Option ℚ) : Outcome ℤ :=
  match cell with
  | some v => to_int (scaled factor v)
  | none => .undefined

/-- The scaling loop of lines 213-219 over the cells `i, i + 1, ...` of the two
arrays; the grid point `(out_x[i], out_y[i])` is kept as a pair. -/
def scale_loop (factor : Double) : List (Option ℚ) → List (Option ℚ) → Outcome (List (ℤ × ℤ))
  | xc :: xs, yc :: ys =>
    (scale_cell factor xc).bind fun ox =>
    (scale_cell factor yc).bind fun oy =>
    (scale_loop factor xs ys).bind fun out => .returns ((ox, oy) :: out)
  | _, _ => .returns []

/-- The number of a finite `double`, `0` for the others. -/
def Double.value : Double → ℚ
  | .finite v => v
  | _ => 0

/-- The grid coordinate computed from the number `v` of a cell: the rounding of
the scaled `double`. -/
def grid_coordinate (factor : Double) (v : ℚ) : ℤ :=
  c_round (scaled factor v).value

/-- The conversion to `int` of the scaled value of `v` is defined. -/
def fits_int (factor : Double) (v : ℚ) : Prop :=
  to_int (scaled factor v) = .returns (grid_coordinate factor v)

instance (factor : Double) (v : ℚ) : Decidable (fits_int factor v) := by
  unfold fits_int
  infer_instance

/-- What `points_array` hands back: its return value and, when that is `0`, the
grid points `(x_coordinates_out[i], y_coordinates_out[i])` and `*length`. -/
structure Points where
  ret : ℤ
  out : List (ℤ × ℤ)
  length : Nat
  deriving DecidableEq

/-- Lines 208-225: scaling the arrays left by the reading loop. -/
def scale_stage (max_width lines_in_file : Nat) (st : LoadState) : Outcome Points :=
  (scale_loop (scale_factor max_width st.greatest_x) st.x_coords st.y_coords).bind fun out =>
    .returns { ret := 0, out := out, length := lines_in_file }

/-- The function `points_array` on the file at `input_file_path` (`none` when it
cannot be opened), with at most `fuel` iterations of the reading loop. -/
def points_array (fuel : Nat) (file : Option (List Char)) (max_width : Nat) : Outcome Points :=
  match file with
  | none => .returns { ret := 1, out := [], length := 0 }
  | some text =>
    (read_loop fuel (LoadState.init text (count_newlines text))).bind
      (scale_stage max_width (count_newlines text))

/-- The grid points computed from the pairs `pairs` read from a file of
`pairs.length` lines: the reading loop body on each pair, then the scaling. -/
def grid_points (max_width : Nat) (pairs : List (ℚ × ℚ)) : Outcome (List (ℤ × ℤ)) :=
  ((load_pairs pairs (LoadState.init [] pairs.length)).bind
    (scale_stage max_width pairs.length)).bind fun p => .returns p.out

/-- The text `s` is read by the successive calls of `fscanf` as the pairs `ps`
and nothing else: every call assigns both items, and the call after the last pair
meets the end of the file. -/
def reads : List Char → List (ℚ × ℚ) → Prop
  | s, [] => scan_lf s = .input_failure
  | s, (x, y) :: ps =>
    ∃ r r2, scan_lf s = .value x r ∧ scan_lf r = .value y r2 ∧ reads r2 ps

/-- The greatest `x` of a list of pairs, `0` for the empty list. -/
def max_x : List (ℚ × ℚ) → ℚ
  | [] => 0
  | [p] => p.1
  | p :: q :: ps => max p.1 (max_x (q :: ps))

/-- The greatest of `0` and the rows of a list of grid points. -/
def max_row (points : List (ℤ × ℤ)) : ℤ :=
  (points.map fun p => p.2).foldr max 0

/-! ## `main`: the canvas (lines 64-78) -/

/-- The array `char graph[max_width][max_width]`: `graph[c]` is the column `c`,
`graph[c][r]` its cell in row `r`. -/
abbrev Canvas := List (List Char)

/-- The canvas after the filling loops of lines 67-71: every cell is a space. -/
def blank_canvas (max_width : Nat) : Canvas :=
  List.replicate max_width (List.replicate max_width ' ')

/-- The cell `graph[c][r]`, `none` outside the array. -/
def cell (graph : Canvas) (c r : Nat) : Option Char :=
  graph[c]?.bind fun col => col[r]?

/-- A canvas of `max_width` columns of `max_width` cells. -/
def square (graph : Canvas) (max_width : Nat) : Prop :=
  graph.length = max_width ∧ ∀ col ∈ graph, col.length = max_width

/-- A grid point inside the canvas. -/
def in_canvas (max_width : Nat) (p : ℤ × ℤ) : Prop :=
  0 ≤ p.1 ∧ p.1 < max_width ∧ 0 ≤ p.2 ∧ p.2 < max_width

instance (max_width : Nat) (p : ℤ × ℤ) : Decidable (in_canvas max_width p) := by
  unfold in_canvas; infer_instance

/-- The store `graph[x][y] = '*'` of line 76; undefined outside the array. -/
def plot (max_width : Nat) (graph : Canvas) (p : ℤ × ℤ) : Outcome Canvas :=
  if in_canvas max_width p then
    .returns (graph.set p.1.toNat ((graph.getD p.1.toNat []).set p.2.toNat '*'))
  else .undefined

/-- The plotting loop of lines 75-78 over the remaining points, with the current
canvas and `greatest_y`. -/
def rasterize_loop (max_width : Nat) : List (ℤ × ℤ) → Canvas → ℤ → Outcome (Canvas × ℤ)
  | [], graph, greatest_y => .returns (graph, greatest_y)
  | p :: ps, graph, greatest_y =>
    (plot max_width graph p).bind fun g =>
      rasterize_loop max_width ps g (if p.2 > greatest_y then p.2 else greatest_y)

/-- Lines 64-78: the blank canvas, `greatest_y = 0`, then the plotting loop. -/
def rasterize (max_width : Nat) (points : List (ℤ × ℤ)) : Outcome (Canvas × ℤ) :=
  rasterize_loop max_width points (blank_canvas max_width) 0

/-! ## `main`: printing (lines 82-89) -/

/-- The cells `graph[j][i]` for the columns `j` of the list, as line 85 prints
them; reading outside the array is undefined. -/
def read_cells (graph : Canvas) (i : Nat) : List Nat → Outcome (List Char)
  | [] => .returns []
  | j :: js =>
    match cell graph j i with
    | none => .undefined
    | some ch => (read_cells graph i js).bind fun l => .returns (ch :: l)

/-- The characters printed by the inner loop (lines 84-86) for the row `i`. -/
def render_row (graph : Canvas) (max_width i : Nat) : Outcome (List Char) :=
  read_cells graph i (List.range max_width)

/-- The row lines printed by the outer loop while `i` runs from `n - 1` down to `0`. -/
def render_rows (graph : Canvas) (max_width : Nat) : Nat → Outcome (List (List Char))
  | 0 => .returns []
  | n + 1 =>
    (render_row graph max_width n).bind fun l =>
      (render_rows graph max_width n).bind fun ls => .returns (l :: ls)

/-- The row lines printed by the loop of lines 83-88: `i` runs from
`greatest_y + 2` down to `0`. -/
def render (graph : Canvas) (max_width : Nat) (greatest_y : ℤ) : Outcome (List (List Char)) :=
  render_rows graph max_width (greatest_y + 3).toNat

/-- The text on standard output: each row line with its `'\n'` (line 87), then the
two newlines of line 89. -/
def print_lines (ls : List (List Char)) : List Char :=
  (ls.map fun l => l ++ ['\n']).flatten ++ ['\n', '\n']

/-! ## `main`: the whole run -/

/-- The end of a run of `main`: the exit status and the text printed. -/
structure Exit where
  status : ℤ
  stdout : List Char
  deriving DecidableEq

/-- The function `is_file` (lines 92-104) on the result of `stat`: `none` stands
for the failure `-1`. -/
def is_file (st : Option (List Char)) : ℤ :=
  match st with
  | none => 0
  | some _ => 1

/-- The function `sanitize_file` on the content of the input file (`none` when it
cannot be opened); `out_ok` tells whether the output file can be created. It gives
the return value and the content of the file written. The buffer of line 153 is
taken to hold the content of the file when the loop of line 161 starts (the block
returned by `malloc` is taken to start with a NUL, as `strcat` needs). For an empty
file the loop of line 155 calls `fgets` with the size 1, which C libraries answer
without reading, so that the loop does not meet the end of the file: that case is
left out of the model. -/
def sanitize_file (input : Option (List Char)) (out_ok : Bool) : Outcome (ℤ × List Char) :=
  match input with
  | none => .returns (1, [])
  | some buffer =>
    if out_ok then
      if buffer.isEmpty then .unmodelled
      else
        match sanitize buffer with
        | none => .timeout
        | some out => .returns (0, out)
    else .returns (1, [])

/-- The function `main` with the canvas width `max_width`, on `argc` arguments,
where `input` is the content of the file `argv[1]` (`none` when there is no such
file) and the sanitized file is another file than the input. -/
def main_with (max_width fuel argc : Nat) (input : Option (List Char)) (out_ok : Bool) :
    Outcome Exit :=
  if argc < 2 then .returns ⟨1, "Error. Too few arguments.\n".toList⟩
  else if argc > 2 then .returns ⟨1, "Error. Too many arguments.\n".toList⟩
  else if is_file input = 0 then .returns ⟨1, "File does not exist.\n".toList⟩
  else
    (sanitize_file input out_ok).bind fun r =>
      if r.1 = 1 then .returns ⟨1, "There was an error processing the file.\n".toList⟩
      else
        (points_array fuel (some r.2) max_width).bind fun p =>
          if p.ret = 1 then .returns ⟨1, "Error graphing airfoil.".toList⟩
          else
            (rasterize max_width (p.out.take p.length)).bind fun g =>
              (render g.1 max_width g.2).bind fun ls => .returns ⟨0, print_lines ls⟩

/-- The function `main`: the width is fixed to 200 (line 58). -/
def main (fuel argc : Nat) (input : Option (List Char)) (out_ok : Bool) : Outcome Exit :=
  main_with 200 fuel argc input out_ok

/-! ## Tokens that are decimal numbers -/

/-- The value of a token that `%lf` reads wholly as a decimal number; `none` for
a token that is not one. -/
def token_value (t : List Char) : Option ℚ :=
  match scan_lf t with
  | .value v [] => some v
  | _ => none

/-- The pairs `(x, y)` made of a list of values taken two by two; a value left
over at the end is in no pair. -/
def pair_up : List ℚ → List (ℚ × ℚ)
  | x :: y :: rest => (x, y) :: pair_up rest
  | _ => []

/-- The conversion `c` when the text `tail` follows the text scanned. -/
def Conversion.extend (c : Conversion) (tail : List Char) : Conversion :=
  match c with
  | .value x r => .value x (r ++ tail)
  | .no_match r => .no_match (r ++ tail)
  | .input_failure => .input_failure
  | .unmodelled => .unmodelled

/-! # Theorems -/

/-! ## The sanitizer -/

theorem repair_from_nil (i : Nat) : repair_from i [] = [] := by
  simp [repair_from]

theorem repair_from_cons (i : Nat) (t : List Char) (ts : List (List Char)) :
    repair_from i (t :: ts) = t ++ separator i :: repair_from (i + 1) ts := by
  simp [repair_from, List.enumFrom_cons]

theorem repair_from_append (i : Nat) (xs ys : List (List Char)) :
    repair_from i (xs ++ ys) = repair_from i xs ++ repair_from (i + xs.length) ys := by
  simp [repair_from, List.enumFrom_append]

theorem splitOnP_takeWhile (p : Char → Bool) (xs : List Char) :
    xs.splitOnP p = xs.takeWhile (fun d => !p d) ::
      (match xs.dropWhile (fun d => !p d) with
        | [] => []
        | _ :: r => r.splitOnP p) := by
  induction xs with
  | nil => simp
  | cons x xs ih =>
    rw [List.splitOnP_cons]
    by_cases hx : p x = true
    · simp [hx]
    · simp only [hx]
      rw [ih]
      simp [hx]

theorem kept_tokens_delim (x : Char) (xs : List Char) (hx : is_delim x = true) :
    kept_tokens (x :: xs) = kept_tokens xs := by
  simp [kept_tokens, split_tokens, List.splitOnP_cons, hx, starts_with_digit]

theorem strtok_delim (x : Char) (xs : List Char) (hx : is_delim x = true) :
    strtok (x :: xs) = strtok xs := by
  simp [strtok, List.dropWhile_cons, hx]

/-- The kept tokens of a text, unfolded along one call of `strtok`. -/
theorem kept_tokens_strtok (s : List Char) :
    kept_tokens s =
      match strtok s with
      | none => []
      | some (w, r) => (if starts_with_digit w then [w] else []) ++ kept_tokens r := by
  induction s with
  | nil => simp [kept_tokens, split_tokens, strtok, starts_with_digit]
  | cons x xs ih =>
    by_cases hx : is_delim x = true
    · rw [kept_tokens_delim x xs hx, strtok_delim x xs hx]; exact ih
    · have hs : strtok (x :: xs) = some ((x :: xs).takeWhile (fun d => !is_delim d),
          ((x :: xs).dropWhile (fun d => !is_delim d)).drop 1) := by
        simp [strtok, List.dropWhile_cons, hx]
      rw [hs]
      simp only []
      conv_lhs => rw [kept_tokens, split_tokens, splitOnP_takeWhile]
      rw [List.filter_cons]
      cases hd : (x :: xs).dropWhile (fun d => !is_delim d) with
      | nil =>
        simp [kept_tokens, split_tokens, starts_with_digit]
      | cons d r =>
        simp [kept_tokens, split_tokens]
        split <;> simp

/-- Every call of `strtok` that returns a token consumes at least one character. -/
theorem strtok_length (s w r : List Char) (h : strtok s = some (w, r)) :
    r.length < s.length := by
  unfold strtok at h
  split at h
  · simp at h
  · rename_i c cs hc
    simp only [Option.some.injEq, Prod.mk.injEq] at h
    have h1 : (c :: cs).length ≤ s.length := by
      rw [← hc]; exact (List.dropWhile_sublist _).length_le
    have h2 : ((c :: cs).dropWhile (fun d => !is_delim d)).length ≤ (c :: cs).length :=
      (List.dropWhile_sublist _).length_le
    rw [← h.2, List.length_drop]
    simp only [List.length_cons] at h1 h2 ⊢
    omega

/-- With more iterations allowed than the buffer has characters, the loop of
`sanitize_file` stops and has appended the re-paired kept tokens. -/
theorem sanitize_loop_eq (fuel : Nat) :
    ∀ (s : List Char) (n : Nat) (out : List Char), s.length < fuel →
      sanitize_loop fuel s n out = some (out ++ repair_from n (kept_tokens s)) := by
  induction fuel with
  | zero => intro s n out h; omega
  | succ fuel ih =>
    intro s n out h
    rw [sanitize_loop, kept_tokens_strtok s]
    cases hs : strtok s with
    | none => simp [repair_from_nil]
    | some wr =>
      obtain ⟨w, r⟩ := wr
      have hr := strtok_length s w r hs
      simp only []
      by_cases hw : starts_with_digit w = true
      · simp only [hw, if_true]
        rw [ih r (n + 1) _ (by omega)]
        simp [repair_from_cons, emit_word, separator]
      · simp only [hw]
        rw [ih r n out (by omega)]
        simp

theorem sanitize_eq (s : List Char) : sanitize s = some (repair (kept_tokens s)) := by
  rw [sanitize, sanitize_loop_eq _ s 0 [] (by omega)]
  simp [repair]

/-- C1: for every input text the stream written by `sanitize_file` is the
concatenation, in source order, of the tokens of the input (split on space, tab,
newline) that start with an ASCII digit, the token at kept position `i` followed
by a space when `i` is even and by a newline when `i` is odd; when the number of
kept tokens is odd, the stream ends with the last kept token followed by a space. -/
theorem sanitize_file_stream (s : List Char) :
    sanitize s
        = some (((kept_tokens s).enum.map
            (fun it => it.2 ++ [if it.1 % 2 = 0 then ' ' else '\n'])).flatten) ∧
    ((kept_tokens s).length % 2 = 1 →
      ∃ front last, kept_tokens s = front ++ [last] ∧
        sanitize s = some (repair front ++ (last ++ [' ']))) := by
  refine ⟨?_, ?_⟩
  · rw [sanitize_eq]
    simp [repair, repair_from, separator, List.enum]
  · intro hodd
    have hne : kept_tokens s ≠ [] := by
      intro h; rw [h] at hodd; simp at hodd
    refine ⟨(kept_tokens s).dropLast, (kept_tokens s).getLast hne, ?_, ?_⟩
    · exact (List.dropLast_append_getLast hne).symm
    · rw [sanitize_eq]
      conv_lhs => rw [← List.dropLast_append_getLast hne]
      have hlen : ((kept_tokens s).length - 1) % 2 = 0 := by omega
      simp [repair, repair_from_append, repair_from_cons, repair_from_nil, separator, hlen]

/-- The claim C1 at the input `a 1 2 3`, whose number of kept tokens is odd. -/
theorem sanitize_file_stream_witness :
    (kept_tokens "a 1 2 3".toList).length % 2 = 1 ∧
    ∃ front last, kept_tokens "a 1 2 3".toList = front ++ [last] ∧
      sanitize "a 1 2 3".toList = some (repair front ++ (last ++ [' '])) :=
  ⟨by decide, (sanitize_file_stream "a 1 2 3".toList).2 (by decide)⟩

/-! ### Lines of the sanitized stream -/

theorem splitOnP_no_sep (p : Char → Bool) (s : List Char) :
    ∀ t ∈ s.splitOnP p, ∀ c ∈ t, p c = false := by
  induction s with
  | nil => simp
  | cons x xs ih =>
    rw [List.splitOnP_cons]
    by_cases hx : p x = true
    · simp only [hx, if_true]
      intro t ht
      rcases List.mem_cons.1 ht with h | h
      · subst h; simp
      · exact ih t h
    · rw [if_neg hx]
      cases hsp : xs.splitOnP p with
      | nil => exact absurd hsp (List.splitOnP_ne_nil p xs)
      | cons h tl =>
        rw [hsp] at ih
        intro t ht
        simp only [List.modifyHead_cons, List.mem_cons] at ht
        rcases ht with h1 | h1
        · subst h1
          intro c hc
          rcases List.mem_cons.1 hc with h2 | h2
          · subst h2; simpa using hx
          · exact ih h (List.mem_cons_self _ _) c h2
        · exact ih t (List.mem_cons_of_mem _ h1)

theorem kept_tokens_kept (s : List Char) : ∀ t ∈ kept_tokens s, KeptToken t := by
  intro t ht
  simp only [kept_tokens, split_tokens, List.mem_filter] at ht
  exact ⟨ht.2, splitOnP_no_sep is_delim s t ht.1⟩

theorem KeptToken.ne_nil {t : List Char} (h : KeptToken t) : t ≠ [] := by
  intro ht; subst ht; simp [KeptToken, starts_with_digit] at h

theorem KeptToken.no_newline {t : List Char} (h : KeptToken t) :
    ∀ c ∈ t, ¬ ((fun c => c == '\n') c = true) := by
  intro c hc hnl
  have := h.2 c hc
  simp only [beq_iff_eq] at hnl
  subst hnl
  simp [is_delim] at this

theorem splitOnP_single (p : Char → Bool) (t : List Char) (h : ∀ c ∈ t, p c = false) :
    t.splitOnP p = [t] := by
  rw [splitOnP_takeWhile]
  have h1 : t.takeWhile (fun d => !p d) = t := by
    rw [List.takeWhile_eq_self_iff]; intro c hc; simp [h c hc]
  have h2 : t.dropWhile (fun d => !p d) = [] := by
    rw [List.dropWhile_eq_nil_iff]; intro c hc; simp [h c hc]
  rw [h1, h2]

theorem fields_pair (a b : List Char) (ha : KeptToken a) (hb : KeptToken b) :
    fields (a ++ ' ' :: b) = [a, b] := by
  have h1 : (a ++ ' ' :: b).splitOnP is_delim = a :: b.splitOnP is_delim :=
    List.splitOnP_first is_delim a (fun c hc => by simp [ha.2 c hc]) ' ' (by decide) b
  rw [fields, h1, splitOnP_single is_delim b hb.2]
  have := ha.ne_nil
  have := hb.ne_nil
  simp [List.filter_cons, *]

theorem fields_single (a : List Char) (ha : KeptToken a) :
    fields (a ++ [' ']) = [a] := by
  have h1 : (a ++ [' ']).splitOnP is_delim = a :: ([] : List Char).splitOnP is_delim :=
    List.splitOnP_first is_delim a (fun c hc => by simp [ha.2 c hc]) ' ' (by decide) []
  rw [fields, h1]
  have := ha.ne_nil
  simp [List.filter_cons, *]

theorem split_lines_repair :
    ∀ (toks : List (List Char)) (n : Nat), n % 2 = 0 → (∀ t ∈ toks, KeptToken t) →
      (repair_from n toks).splitOnP (fun c => c == '\n') = pair_lines toks ++ [odd_tail toks]
  | [], n, _, _ => by simp [repair_from_nil, pair_lines, odd_tail]
  | [a], n, hn, h => by
    have ha : KeptToken a := h a (by simp)
    rw [repair_from_cons, repair_from_nil]
    simp only [separator, hn, if_true, pair_lines, odd_tail, List.nil_append]
    apply splitOnP_single
    intro c hc
    rcases List.mem_append.1 hc with h1 | h1
    · simpa using ha.no_newline c h1
    · simp at h1; subst h1; decide
  | a :: b :: rest, n, hn, h => by
    have ha : KeptToken a := h a (by simp)
    have hb : KeptToken b := h b (by simp)
    have hn1 : ¬ ((n + 1) % 2 = 0) := by omega
    rw [repair_from_cons, repair_from_cons]
    simp only [separator, hn, hn1, if_true, if_false, pair_lines, odd_tail]
    have hrest := split_lines_repair rest (n + 1 + 1) (by omega)
      (fun t ht => h t (by simp [ht]))
    have : a ++ ' ' :: (b ++ '\n' :: repair_from (n + 1 + 1) rest)
        = (a ++ ' ' :: b) ++ '\n' :: repair_from (n + 1 + 1) rest := by simp
    rw [this, List.splitOnP_first _ (a ++ ' ' :: b) _ '\n' (by simp), hrest]
    · simp
    · intro c hc
      rcases List.mem_append.1 hc with h1 | h1
      · exact ha.no_newline c h1
      · rcases List.mem_cons.1 h1 with h2 | h2
        · subst h2; decide
        · exact hb.no_newline c h2

theorem pair_lines_two_fields :
    ∀ (toks : List (List Char)), (∀ t ∈ toks, KeptToken t) →
      ∀ l ∈ pair_lines toks, two_numeric_fields l = true
  | [], _ => by simp [pair_lines]
  | [_], _ => by simp [pair_lines]
  | a :: b :: rest, h => by
    have ha : KeptToken a := h a (by simp)
    have hb : KeptToken b := h b (by simp)
    intro l hl
    simp only [pair_lines, List.mem_cons] at hl
    rcases hl with h1 | h1
    · subst h1
      simp [two_numeric_fields, fields_pair a b ha hb, ha.1, hb.1]
    · exact pair_lines_two_fields rest (fun t ht => h t (by simp [ht])) l h1

theorem fields_flatten :
    ∀ (toks : List (List Char)), (∀ t ∈ toks, KeptToken t) →
      ((pair_lines toks ++
          (if (odd_tail toks).isEmpty then [] else [odd_tail toks])).map fields).flatten = toks
  | [], _ => by simp [pair_lines, odd_tail]
  | [a], h => by
    have ha : KeptToken a := h a (by simp)
    simp [pair_lines, odd_tail, fields_single a ha]
  | a :: b :: rest, h => by
    have ha : KeptToken a := h a (by simp)
    have hb : KeptToken b := h b (by simp)
    have ih := fields_flatten rest (fun t ht => h t (by simp [ht]))
    simp only [pair_lines, odd_tail, List.cons_append, List.map_cons, List.flatten_cons,
      fields_pair a b ha hb, ih]
    simp

theorem pair_lines_length : ∀ (toks : List (List Char)),
    (pair_lines toks).length = toks.length / 2
  | [] => by simp [pair_lines]
  | [_] => by simp [pair_lines]
  | _ :: _ :: rest => by
    simp only [pair_lines, List.length_cons, pair_lines_length rest]
    omega

theorem odd_tail_even : ∀ (toks : List (List Char)), toks.length % 2 = 0 → odd_tail toks = []
  | [], _ => by simp [odd_tail]
  | [_], h => by simp at h
  | _ :: _ :: rest, h => by
    simp only [odd_tail]
    exact odd_tail_even rest (by simp only [List.length_cons] at h; omega)

theorem odd_tail_odd : ∀ (toks : List (List Char)), toks.length % 2 = 1 →
    ∃ t, toks.getLast? = some t ∧ odd_tail toks = t ++ [' ']
  | [], h => by simp at h
  | [a], _ => ⟨a, by simp [odd_tail]⟩
  | a :: b :: rest, h => by
    obtain ⟨t, h1, h2⟩ := odd_tail_odd rest (by simp only [List.length_cons] at h; omega)
    refine ⟨t, ?_, by simpa only [odd_tail] using h2⟩
    cases rest with
    | nil => simp at h1
    | cons c r => simpa [List.getLast?_cons_cons] using h1

/-- The claim C2 as it is worded fails at the input `1 2 3`: the stream written is
`1 2`, newline, `3 `, and its last line `3 ` has one field, not two. -/
theorem sanitize_file_odd_line :
    sanitize "1 2 3".toList = some "1 2\n3 ".toList ∧
    "3 ".toList ∈ stream_lines "1 2\n3 ".toList ∧
    fields "3 ".toList = ["3".toList] ∧
    two_numeric_fields "3 ".toList = false := by
  decide

/-- C2 (amended): every newline-terminated line of the stream written by
`sanitize_file` has exactly two fields, both starting with a digit; the fields of
the lines of the stream, read in order, are the kept tokens of the input; there are
`N / 2` terminated lines for `N` kept tokens; nothing follows the last newline when
`N` is even, and when `N` is odd the last kept token and a space follow it. -/
theorem sanitize_file_lines (s : List Char) :
    ∃ out, sanitize s = some out ∧
      (∀ l ∈ terminated_lines out, two_numeric_fields l = true) ∧
      ((stream_lines out).map fields).flatten = kept_tokens s ∧
      (terminated_lines out).length = (kept_tokens s).length / 2 ∧
      ((kept_tokens s).length % 2 = 0 → unterminated_tail out = []) ∧
      ((kept_tokens s).length % 2 = 1 →
        ∃ t, (kept_tokens s).getLast? = some t ∧ unterminated_tail out = t ++ [' ']) := by
  have hk := kept_tokens_kept s
  have hsplit := split_lines_repair (kept_tokens s) 0 (by decide) hk
  have hterm : terminated_lines (repair (kept_tokens s)) = pair_lines (kept_tokens s) := by
    simp [terminated_lines, repair, hsplit]
  have htail : unterminated_tail (repair (kept_tokens s)) = odd_tail (kept_tokens s) := by
    simp [unterminated_tail, repair, hsplit]
  refine ⟨repair (kept_tokens s), sanitize_eq s, ?_, ?_, ?_, ?_, ?_⟩
  · rw [hterm]; exact pair_lines_two_fields _ hk
  · rw [stream_lines, hterm, htail]; exact fields_flatten _ hk
  · rw [hterm]; exact pair_lines_length _
  · intro h; rw [htail]; exact odd_tail_even _ h
  · intro h; rw [htail]; exact odd_tail_odd _ h

/-- The amended C2 at the input `1 2 3`, whose number of kept tokens is odd. -/
theorem sanitize_file_lines_witness :
    (kept_tokens "1 2 3".toList).length % 2 = 1 ∧
    ∃ out, sanitize "1 2 3".toList = some out ∧
      ∃ t, (kept_tokens "1 2 3".toList).getLast? = some t ∧
        unterminated_tail out = t ++ [' '] := by
  obtain ⟨out, h1, _, _, _, _, h6⟩ := sanitize_file_lines "1 2 3".toList
  exact ⟨by decide, out, h1, h6 (by decide)⟩

/-! ## The output path -/

theorem last_slash_from_none : ∀ (cs : List Char) (i pos : Nat), '/' ∉ cs →
    last_slash_from cs i pos = pos := by
  intro cs
  induction cs with
  | nil => intro i pos _; rfl
  | cons c cs ih =>
    intro i pos h
    simp only [List.mem_cons, not_or] at h
    have hc : ¬ c = '/' := fun e => h.1 e.symm
    rw [last_slash_from, if_neg hc]
    exact ih _ _ h.2

theorem last_slash_from_split : ∀ (front back : List Char) (i pos : Nat), '/' ∉ back →
    last_slash_from (front ++ '/' :: back) i pos = i + front.length := by
  intro front
  induction front with
  | nil =>
    intro back i pos h
    simp [last_slash_from, last_slash_from_none back _ _ h]
  | cons c cs ih =>
    intro back i pos h
    rw [List.cons_append, last_slash_from, ih back _ _ h]
    simp only [List.length_cons]
    omega

theorem splitOn_last : ∀ (front back : List Char), '/' ∉ back →
    ∃ pieces, pieces ≠ [] ∧ (front ++ '/' :: back).splitOn '/' = pieces ++ [back] := by
  intro front
  induction front with
  | nil =>
    intro back h
    refine ⟨[[]], by simp, ?_⟩
    have hb : back.splitOnP (fun c => c == '/') = [back] :=
      splitOnP_single _ back (fun c hc => by
        simp only [beq_eq_false_iff_ne, ne_eq]
        intro e; subst e; exact h hc)
    simp [List.splitOn, List.splitOnP_cons, hb]
  | cons c cs ih =>
    intro back h
    obtain ⟨pieces, hne, hp⟩ := ih back h
    rw [List.splitOn] at hp
    rw [List.cons_append, List.splitOn, List.splitOnP_cons, hp]
    by_cases hc : (c == '/') = true
    · exact ⟨[] :: pieces, by simp, by simp [hc]⟩
    · rw [if_neg hc]
      cases pieces with
      | nil => exact absurd rfl hne
      | cons p ps => exact ⟨(c :: p) :: ps, by simp, by simp⟩

theorem f_out_name_eq :
    (∀ front back : List Char, '/' ∉ back → f_out_name (front ++ '/' :: back) = back) ∧
    (∀ p : List Char, '/' ∉ p → f_out_name p = p.drop 1) := by
  refine ⟨fun front back h => ?_, fun p h => ?_⟩
  · simp [f_out_name, last_slash, last_slash_from_split front back 0 0 h]
  · rw [f_out_name, last_slash, last_slash_from_none p 0 0 h]

/-- What `sanitize_file` computes as output path. For a path whose last `'/'` has
19 characters or more before it and at most 79 after it, when the byte after the
characters copied to `f_out_name` is a NUL: the folder name, `'/'` and the base
name. For a path whose last `'/'` has fewer than 19 characters before it, and for a
path without `'/'`: `sprintf` writes past the end of `f_out_path`; the characters
copied to `f_out_name` are then the base name, and the path without its first
character. -/
theorem output_path_eq :
    (∀ front back : List Char, '/' ∉ back →
      base_name (front ++ '/' :: back) = back ∧
      f_out_name (front ++ '/' :: back) = back ∧
      (19 ≤ front.length → back.length ≤ 79 →
        output_path (front ++ '/' :: back) []
          = .returns ("DAT_files_sanitized/".toList ++ back)) ∧
      (front.length < 19 → ∀ junk, output_path (front ++ '/' :: back) junk = .undefined)) ∧
    (∀ p : List Char, '/' ∉ p →
      base_name p = p ∧ f_out_name p = p.drop 1 ∧
      ∀ junk, output_path p junk = .undefined) := by
  have hfolder : f_out_folder.length = 19 := rfl
  refine ⟨fun front back h => ⟨?_, f_out_name_eq.1 front back h, ?_, ?_⟩,
    fun p h => ⟨?_, f_out_name_eq.2 p h, ?_⟩⟩
  · obtain ⟨pieces, _, hp⟩ := splitOn_last front back h
    simp [base_name, hp]
  · intro h1 h2
    have hn := f_out_name_eq.1 front back h
    have hlen : (formatted_path (front ++ '/' :: back) []).length = 20 + back.length := by
      simp only [formatted_path, hn, List.length_append, List.length_cons, hfolder,
        List.length_nil]
      omega
    have hp : formatted_path (front ++ '/' :: back) [] = "DAT_files_sanitized/".toList ++ back := by
      simp only [formatted_path, hn, List.append_nil]
      rfl
    rw [output_path, hlen, hn, hp]
    simp only [List.length_append, List.length_cons, List.length_nil]
    rw [if_neg (by omega), if_neg (by omega), if_neg (by omega)]
  · intro h1 junk
    have hn := f_out_name_eq.1 front back h
    have hlen : (formatted_path (front ++ '/' :: back) junk).length
        = 20 + back.length + junk.length := by
      simp only [formatted_path, hn, List.length_append, List.length_cons, hfolder]
      omega
    rw [output_path, hlen, hn]
    simp only [List.length_append, List.length_cons]
    split
    · rfl
    · rw [if_pos (by omega)]
  · have hb : p.splitOnP (fun c => c == '/') = [p] :=
      splitOnP_single _ p (fun c hc => by
        simp only [beq_eq_false_iff_ne, ne_eq]
        intro e; subst e; exact h hc)
    simp [base_name, List.splitOn, hb]
  · intro junk
    have hn := f_out_name_eq.2 p h
    have hlen : (formatted_path p junk).length = 20 + (p.length - 1) + junk.length := by
      simp only [formatted_path, hn, List.length_append, List.length_cons, hfolder,
        List.length_drop]
      omega
    rw [output_path, hlen, hn]
    simp only [List.length_append, List.length_drop]
    split
    · rfl
    · rw [if_pos (by omega)]

/-- C3: for the path `naca.dat`, which has no `'/'`, the characters copied to
`f_out_name` are `aca.dat`: the first character of the base name `naca.dat` is
lost. The characters that `sprintf` then writes are `DAT_files_sanitized/aca.dat`
followed by the bytes found after the unterminated `f_out_name`, 27 characters or
more into the 9 bytes of `f_out_path`: the run is undefined, and no path is
computed that is the folder name followed by the base name. -/
theorem output_path_naca :
    f_out_name "naca.dat".toList = "aca.dat".toList ∧
    base_name "naca.dat".toList = "naca.dat".toList ∧
    (∀ junk : List Char, formatted_path "naca.dat".toList junk
      = "DAT_files_sanitized/aca.dat".toList ++ junk) ∧
    (∀ junk : List Char, output_path "naca.dat".toList junk = .undefined) ∧
    (∀ junk : List Char, output_path "naca.dat".toList junk
      ≠ .returns ("DAT_files_sanitized/".toList ++ base_name "naca.dat".toList)) := by
  have hu : ∀ junk : List Char, output_path "naca.dat".toList junk = .undefined :=
    (output_path_eq.2 "naca.dat".toList (by decide)).2.2
  refine ⟨by decide, by decide, fun junk => rfl, hu, fun junk => ?_⟩
  rw [hu junk]
  simp
/-! ## The arithmetic of `double` -/

theorem pow2_eq (e : ℤ) : pow2 e = (2 : ℚ) ^ e := by
  unfold pow2
  split
  · rename_i h
    conv_rhs => rw [← Int.toNat_of_nonneg h]
    rw [zpow_natCast]
    push_cast
    rfl
  · rename_i h
    have h2 : e = -((-e).toNat : ℤ) := by
      rw [Int.toNat_of_nonneg (by omega)]
      ring
    conv_rhs => rw [h2]
    rw [zpow_neg, zpow_natCast]
    push_cast
    rw [one_div]

theorem pow2_pos (e : ℤ) : 0 < pow2 e := by
  rw [pow2_eq]
  positivity

theorem bit_length_aux_zero (fuel : Nat) : bit_length_aux fuel 0 = 0 := by
  cases fuel <;> simp [bit_length_aux]

theorem bit_length_aux_bounds : ∀ (fuel n : Nat), n ≤ fuel →
    n < 2 ^ bit_length_aux fuel n ∧ (0 < n → 2 ^ bit_length_aux fuel n ≤ 2 * n)
  | 0, n, h => by
    have h0 : n = 0 := by omega
    subst h0
    simp [bit_length_aux]
  | fuel + 1, n, h => by
    rw [bit_length_aux]
    split
    · rename_i h0
      subst h0
      simp
    · rename_i h0
      have ih := bit_length_aux_bounds fuel (n / 2) (by omega)
      rw [pow_succ]
      by_cases h2 : n / 2 = 0
      · have h1 : n = 1 := by omega
        subst h1
        simp [bit_length_aux_zero]
      · have ih2 := ih.2 (by omega)
        have ih1 := ih.1
        generalize 2 ^ bit_length_aux fuel (n / 2) = k at ih1 ih2
        constructor
        · omega
        · intro _
          omega

/-- The number `n > 0` has `bit_length n` binary digits. -/
theorem bit_length_bounds (n : Nat) (h : 0 < n) :
    n < 2 ^ bit_length n ∧ 2 ^ bit_length n ≤ 2 * n :=
  ⟨(bit_length_aux_bounds n n le_rfl).1, (bit_length_aux_bounds n n le_rfl).2 h⟩

/-- The power of two with the binary exponent of `q > 0` is at most `q`. -/
theorem binary_exponent_le (q : ℚ) (h : 0 < q) : pow2 (binary_exponent q) ≤ q := by
  unfold binary_exponent
  split
  · assumption
  · have hn : 0 < q.num := Rat.num_pos.2 h
    have hN : 0 < q.num.natAbs := Int.natAbs_pos.2 hn.ne'
    have hD : 0 < q.den := q.den_pos
    obtain ⟨-, h1⟩ := bit_length_bounds _ hN
    obtain ⟨h2, -⟩ := bit_length_bounds _ hD
    have hq : q = (q.num.natAbs : ℚ) / (q.den : ℚ) := by
      rw [Nat.cast_natAbs, abs_of_pos hn, Rat.num_div_den]
    generalize bit_length q.num.natAbs = a at h1
    generalize bit_length q.den = b at h2
    generalize q.num.natAbs = N at h1 hN hq
    generalize q.den = D at h2 hD hq
    have h1q : (2 : ℚ) ^ a ≤ 2 * N := by exact_mod_cast h1
    have h2q : (D : ℚ) < 2 ^ b := by exact_mod_cast h2
    have hDq : (0 : ℚ) < D := by exact_mod_cast hD
    rw [pow2_eq, hq, le_div_iff₀ hDq]
    have e : (2 : ℚ) ^ ((a : ℤ) - (b : ℤ) - 1) = 2 ^ (a : ℤ) / (2 ^ (b : ℤ) * 2) := by
      rw [zpow_sub₀ (by norm_num), zpow_sub₀ (by norm_num), zpow_one, div_div]
    rw [e, zpow_natCast, zpow_natCast, div_mul_eq_mul_div, div_le_iff₀ (by positivity)]
    have hp : (0 : ℚ) < 2 ^ a := by positivity
    nlinarith

theorem round_half_even_near (m : ℚ) : |(round_half_even m : ℚ) - m| ≤ 1 / 2 := by
  have h1 := Int.floor_le m
  have h2 := Int.lt_floor_add_one m
  unfold round_half_even
  split
  · rw [abs_le]; constructor <;> linarith
  · split
    · push_cast; rw [abs_le]; constructor <;> linarith
    · split
      · rw [abs_le]; constructor <;> linarith
      · push_cast; rw [abs_le]; constructor <;> linarith

theorem round_half_even_nonneg (m : ℚ) (h : 0 ≤ m) : 0 ≤ round_half_even m := by
  have h1 : 0 ≤ ⌊m⌋ := Int.floor_nonneg.2 h
  unfold round_half_even
  split
  · exact h1
  · split
    · omega
    · split
      · exact h1
      · omega

theorem quantum_pos (q : ℚ) : 0 < quantum q :=
  pow2_pos _

/-- The quantum of `q ≠ 0` is at most `|q| / 2 ^ 52`, or is the least one. -/
theorem quantum_le (q : ℚ) (h : q ≠ 0) :
    quantum q ≤ |q| / 2 ^ 52 ∨ quantum q = 1 / 2 ^ 1074 := by
  have ha : 0 < |q| := abs_pos.2 h
  have hb := binary_exponent_le |q| ha
  unfold quantum
  rcases le_total (binary_exponent |q|) (-1022) with hc | hc
  · right
    rw [max_eq_right hc, pow2_eq]
    norm_num
  · left
    rw [max_eq_left hc, pow2_eq, zpow_sub₀ (by norm_num)]
    rw [pow2_eq] at hb
    have : (2 : ℚ) ^ (52 : ℤ) = 2 ^ 52 := by norm_num
    rw [this]
    exact div_le_div_of_nonneg_right hb (by positivity)

theorem nearest_magnitude_nonneg (q : ℚ) : 0 ≤ nearest_magnitude q := by
  unfold nearest_magnitude
  have h1 : 0 ≤ round_half_even (|q| / quantum q) :=
    round_half_even_nonneg _ (div_nonneg (abs_nonneg q) (quantum_pos q).le)
  exact mul_nonneg (by exact_mod_cast h1) (quantum_pos q).le

/-- The rounding error of a magnitude: half a quantum at most. -/
theorem nearest_magnitude_error (q : ℚ) (h : q ≠ 0) :
    |nearest_magnitude q - abs q| ≤ |q| / 2 ^ 53 + 1 / 2 ^ 1075 := by
  have hQ := quantum_pos q
  have h1 := round_half_even_near (|q| / quantum q)
  have h2 : nearest_magnitude q - |q|
      = ((round_half_even (|q| / quantum q) : ℚ) - |q| / quantum q) * quantum q := by
    unfold nearest_magnitude
    field_simp
  have h3 : |nearest_magnitude q - abs q| ≤ quantum q / 2 := by
    rw [h2, abs_mul, abs_of_pos hQ]
    calc |(round_half_even (|q| / quantum q) : ℚ) - |q| / quantum q| * quantum q
        ≤ 1 / 2 * quantum q := mul_le_mul_of_nonneg_right h1 hQ.le
      _ = quantum q / 2 := by ring
  have ha : 0 ≤ |q| := abs_nonneg q
  rcases quantum_le q h with h4 | h4
  · have : quantum q / 2 ≤ |q| / 2 ^ 53 := by
      calc quantum q / 2 ≤ |q| / 2 ^ 52 / 2 := by linarith
        _ = |q| / 2 ^ 53 := by ring
    have : (0 : ℚ) ≤ 1 / 2 ^ 1075 := by positivity
    linarith
  · have : quantum q / 2 = 1 / 2 ^ 1075 := by rw [h4]; norm_num
    have : (0 : ℚ) ≤ |q| / 2 ^ 53 := by positivity
    linarith

/-- The error of a rounding to `double` with a finite result. -/
theorem to_double_error (q v : ℚ) (h : to_double q = .finite v) :
    |v - q| ≤ |q| / 2 ^ 53 + 1 / 2 ^ 1075 := by
  unfold to_double at h
  split at h
  · rename_i h0
    simp only [Double.finite.injEq] at h
    subst h; subst h0
    norm_num
  · rename_i h0
    have he := nearest_magnitude_error q h0
    split at h
    · exact absurd h (by simp)
    · split at h
      · rename_i hneg
        simp only [Double.finite.injEq] at h
        subst h
        rw [abs_of_neg hneg] at he ⊢
        have : -nearest_magnitude q - q = -(nearest_magnitude q - -q) := by ring
        rw [this, abs_neg]
        exact he
      · rename_i hneg
        simp only [Double.finite.injEq] at h
        subst h
        rw [abs_of_nonneg (not_lt.1 hneg)] at he ⊢
        exact he

/-- The sign of a rounding to `double`. -/
theorem to_double_sign (q v : ℚ) (h : to_double q = .finite v) :
    (0 ≤ q → 0 ≤ v) ∧ (q ≤ 0 → v ≤ 0) := by
  have hn := nearest_magnitude_nonneg q
  unfold to_double at h
  split at h
  · simp only [Double.finite.injEq] at h
    subst h
    simp
  · rename_i h0
    split at h
    · exact absurd h (by simp)
    · split at h
      · rename_i hneg
        simp only [Double.finite.injEq] at h
        subst h
        exact ⟨fun h1 => absurd hneg (not_lt.2 h1), fun _ => by linarith⟩
      · rename_i hneg
        simp only [Double.finite.injEq] at h
        subst h
        exact ⟨fun _ => hn, fun h1 => absurd (le_antisymm h1 (not_lt.1 hneg)) h0⟩

/-- A finite `double` is less than `2 ^ 1024` in magnitude. -/
theorem to_double_lt (q v : ℚ) (h : to_double q = .finite v) : |v| < 2 ^ 1024 := by
  have hn := nearest_magnitude_nonneg q
  unfold to_double at h
  split at h
  · simp only [Double.finite.injEq] at h
    subst h
    norm_num
  · split at h
    · exact absurd h (by simp)
    · rename_i hlt
      rw [pow2_eq] at hlt
      have hlt2 : nearest_magnitude q < 2 ^ 1024 := by
        have := not_le.1 hlt
        norm_num at this ⊢
        exact this
      split at h
      · simp only [Double.finite.injEq] at h
        subst h
        rw [abs_neg, abs_of_nonneg hn]
        exact hlt2
      · simp only [Double.finite.injEq] at h
        subst h
        rw [abs_of_nonneg hn]
        exact hlt2

/-- A number of magnitude `2 ^ 1023` at most rounds to a finite `double`. -/
theorem to_double_finite (q : ℚ) (h : |q| ≤ 2 ^ 1023) : ∃ v, to_double q = .finite v := by
  unfold to_double
  split
  · exact ⟨0, rfl⟩
  · rename_i h0
    have he := nearest_magnitude_error q h0
    have hlt : ¬ pow2 1024 ≤ nearest_magnitude q := by
      rw [pow2_eq, not_le]
      have h1 := (abs_le.1 he).2
      have h2 : nearest_magnitude q ≤ |q| + |q| / 2 ^ 53 + 1 / 2 ^ 1075 := by linarith
      have h3 : |q| + |q| / 2 ^ 53 + 1 / 2 ^ 1075 < (2 : ℚ) ^ (1024 : ℤ) := by
        have : |q| / 2 ^ 53 ≤ 2 ^ 1023 / 2 ^ 53 := div_le_div_of_nonneg_right h (by positivity)
        have e : (2 : ℚ) ^ (1024 : ℤ) = 2 ^ 1024 := by norm_num
        rw [e]
        have : (2 : ℚ) ^ 1023 + 2 ^ 1023 / 2 ^ 53 + 1 / 2 ^ 1075 < 2 ^ 1024 := by norm_num
        linarith
      linarith
    rw [if_neg hlt]
    split
    · exact ⟨_, rfl⟩
    · exact ⟨_, rfl⟩

theorem pow2_le_pow2 (a b : ℤ) (h : a ≤ b) : pow2 a ≤ pow2 b := by
  rw [pow2_eq, pow2_eq]
  exact zpow_le_zpow_right₀ (by norm_num) h

theorem pow2_add (a b : ℤ) : pow2 (a + b) = pow2 a * pow2 b := by
  rw [pow2_eq, pow2_eq, pow2_eq, zpow_add₀ (by norm_num)]

/-- A number `q > 0` is below the power of two after the one of its binary
exponent. -/
theorem binary_exponent_lt (q : ℚ) (h : 0 < q) : q < pow2 (binary_exponent q + 1) := by
  unfold binary_exponent
  split
  · have hn : 0 < q.num := Rat.num_pos.2 h
    have hN : 0 < q.num.natAbs := Int.natAbs_pos.2 hn.ne'
    have hD : 0 < q.den := q.den_pos
    obtain ⟨h1, -⟩ := bit_length_bounds _ hN
    obtain ⟨-, h2⟩ := bit_length_bounds _ hD
    have hq : q = (q.num.natAbs : ℚ) / (q.den : ℚ) := by
      rw [Nat.cast_natAbs, abs_of_pos hn, Rat.num_div_den]
    generalize bit_length q.num.natAbs = a at h1
    generalize bit_length q.den = b at h2
    generalize q.num.natAbs = N at h1 hN hq
    generalize q.den = D at h2 hD hq
    have h1q : (N : ℚ) < 2 ^ a := by exact_mod_cast h1
    have h2q : (2 : ℚ) ^ b ≤ 2 * D := by exact_mod_cast h2
    have hDq : (0 : ℚ) < D := by exact_mod_cast hD
    rw [pow2_eq, hq, div_lt_iff₀ hDq]
    have e : (2 : ℚ) ^ ((a : ℤ) - (b : ℤ) + 1) = 2 ^ (a : ℤ) * 2 / 2 ^ (b : ℤ) := by
      rw [zpow_add₀ (by norm_num), zpow_sub₀ (by norm_num), zpow_one]
      ring
    rw [e, zpow_natCast, zpow_natCast, div_mul_eq_mul_div, lt_div_iff₀ (by positivity)]
    have hp : (0 : ℚ) < 2 ^ a := by positivity
    have hb : (0 : ℚ) < 2 ^ b := by positivity
    nlinarith
  · rename_i hc
    have : (bit_length q.num.natAbs : ℤ) - (bit_length q.den : ℤ) - 1 + 1
        = (bit_length q.num.natAbs : ℤ) - (bit_length q.den : ℤ) := by ring
    rw [this]
    exact not_le.1 hc

theorem binary_exponent_mono (a b : ℚ) (ha : 0 < a) (h : a ≤ b) :
    binary_exponent a ≤ binary_exponent b := by
  have h1 := binary_exponent_le a ha
  have h2 := binary_exponent_lt b (lt_of_lt_of_le ha h)
  have h3 : pow2 (binary_exponent a) < pow2 (binary_exponent b + 1) := by linarith
  rw [pow2_eq, pow2_eq] at h3
  have := (zpow_lt_zpow_iff_right₀ (by norm_num : (1 : ℚ) < 2)).1 h3
  omega

theorem round_half_even_mono (r s : ℚ) (h : r ≤ s) : round_half_even r ≤ round_half_even s := by
  rcases eq_or_lt_of_le h with h1 | h1
  · subst h1; exact le_rfl
  · have hr := (abs_le.1 (round_half_even_near r)).2
    have hs := (abs_le.1 (round_half_even_near s)).1
    have h2 : (round_half_even r : ℚ) < round_half_even s + 1 := by linarith
    have h3 : round_half_even r < round_half_even s + 1 := by exact_mod_cast h2
    omega

theorem round_half_even_intCast (n : ℤ) : round_half_even (n : ℚ) = n := by
  unfold round_half_even
  rw [Int.floor_intCast]
  simp

theorem nearest_magnitude_eq (q : ℚ) :
    nearest_magnitude q
      = (round_half_even (|q| / pow2 (max (binary_exponent |q|) (-1022) - 52)) : ℚ)
        * pow2 (max (binary_exponent |q|) (-1022) - 52) := rfl

/-- The rounding of magnitudes keeps their order. -/
theorem nearest_magnitude_mono (q1 q2 : ℚ) (h1 : q1 ≠ 0) (h : |q1| ≤ |q2|) :
    nearest_magnitude q1 ≤ nearest_magnitude q2 := by
  have ha : 0 < |q1| := abs_pos.2 h1
  have hb : 0 < |q2| := lt_of_lt_of_le ha h
  have he := binary_exponent_mono _ _ ha h
  rw [nearest_magnitude_eq, nearest_magnitude_eq]
  generalize hA : |q1| = a at *
  generalize hB : |q2| = b at *
  rcases eq_or_lt_of_le (max_le_max he (le_refl (-1022 : ℤ))) with hE | hE
  · rw [hE]
    have hQ := pow2_pos (max (binary_exponent b) (-1022) - 52)
    have := round_half_even_mono _ _ (div_le_div_of_nonneg_right h hQ.le)
    exact mul_le_mul_of_nonneg_right (by exact_mod_cast this) hQ.le
  · -- the exponents differ: a power of two lies between the two roundings
    have hEb : max (binary_exponent b) (-1022) = binary_exponent b := by
      apply max_eq_left
      have : (-1022 : ℤ) ≤ max (binary_exponent a) (-1022) := le_max_right _ _
      rcases le_total (binary_exponent b) (-1022) with hc | hc
      · rw [max_eq_right hc] at hE
        omega
      · exact hc
    set Ea := max (binary_exponent a) (-1022) with hEa
    have hQa := pow2_pos (Ea - 52)
    have hQb := pow2_pos (binary_exponent b - 52)
    have hlo : (round_half_even (a / pow2 (Ea - 52)) : ℚ) * pow2 (Ea - 52) ≤ pow2 (Ea + 1) := by
      have h2 : a < pow2 (Ea + 1) :=
        lt_of_lt_of_le (binary_exponent_lt a ha)
          (pow2_le_pow2 _ _ (by have := le_max_left (binary_exponent a) (-1022); omega))
      have h3 : pow2 (Ea + 1) = pow2 53 * pow2 (Ea - 52) := by
        rw [← pow2_add]; congr 1; ring
      have h4 : a / pow2 (Ea - 52) ≤ ((2 ^ 53 : ℤ) : ℚ) := by
        rw [div_le_iff₀ hQa]
        have : pow2 53 = ((2 ^ 53 : ℤ) : ℚ) := by rw [pow2_eq]; norm_num
        rw [← this, ← h3]
        exact h2.le
      have h5 := round_half_even_mono _ _ h4
      rw [round_half_even_intCast] at h5
      have h6 : (round_half_even (a / pow2 (Ea - 52)) : ℚ) ≤ pow2 53 := by
        have : pow2 53 = ((2 ^ 53 : ℤ) : ℚ) := by rw [pow2_eq]; norm_num
        rw [this]
        exact_mod_cast h5
      rw [h3]
      exact mul_le_mul_of_nonneg_right h6 hQa.le
    have hhi : pow2 (binary_exponent b)
        ≤ (round_half_even (b / pow2 (binary_exponent b - 52)) : ℚ)
          * pow2 (binary_exponent b - 52) := by
      have h2 := binary_exponent_le b hb
      have h3 : pow2 (binary_exponent b) = pow2 52 * pow2 (binary_exponent b - 52) := by
        rw [← pow2_add]; congr 1; ring
      have h4 : ((2 ^ 52 : ℤ) : ℚ) ≤ b / pow2 (binary_exponent b - 52) := by
        rw [le_div_iff₀ hQb]
        have : pow2 52 = ((2 ^ 52 : ℤ) : ℚ) := by rw [pow2_eq]; norm_num
        rw [← this, ← h3]
        exact h2
      have h5 := round_half_even_mono _ _ h4
      rw [round_half_even_intCast] at h5
      have h6 : pow2 52 ≤ (round_half_even (b / pow2 (binary_exponent b - 52)) : ℚ) := by
        have : pow2 52 = ((2 ^ 52 : ℤ) : ℚ) := by rw [pow2_eq]; norm_num
        rw [this]
        exact_mod_cast h5
      rw [h3]
      exact mul_le_mul_of_nonneg_right h6 hQb.le
    rw [hEb]
    rw [hEb] at hE
    exact le_trans hlo (le_trans (pow2_le_pow2 _ _ (by omega)) hhi)

/-- The cases of a rounding to `double`. -/
theorem to_double_cases (q : ℚ) :
    (q = 0 ∧ to_double q = .finite 0) ∨
    (0 < q ∧ nearest_magnitude q < pow2 1024 ∧ to_double q = .finite (nearest_magnitude q)) ∨
    (0 < q ∧ pow2 1024 ≤ nearest_magnitude q ∧ to_double q = .inf false) ∨
    (q < 0 ∧ nearest_magnitude q < pow2 1024 ∧ to_double q = .finite (-nearest_magnitude q)) ∨
    (q < 0 ∧ pow2 1024 ≤ nearest_magnitude q ∧ to_double q = .inf true) := by
  unfold to_double
  by_cases h0 : q = 0
  · left
    exact ⟨h0, by rw [if_pos h0]⟩
  · right
    rw [if_neg h0]
    by_cases hi : pow2 1024 ≤ nearest_magnitude q
    · rw [if_pos hi]
      by_cases hn : q < 0
      · right; right; right
        exact ⟨hn, hi, by simp [hn]⟩
      · right; left
        exact ⟨lt_of_le_of_ne (not_lt.1 hn) (Ne.symm h0), hi, by simp [hn]⟩
    · rw [if_neg hi]
      by_cases hn : q < 0
      · right; right; left
        exact ⟨hn, not_le.1 hi, by rw [if_pos hn]⟩
      · left
        exact ⟨lt_of_le_of_ne (not_lt.1 hn) (Ne.symm h0), not_le.1 hi, by rw [if_neg hn]⟩

/-- The rounding to `double` keeps the order: the `double` of the smaller number
is not greater than the `double` of the greater one. -/
theorem to_double_mono (q1 q2 : ℚ) (h : q1 ≤ q2) :
    Double.gt (to_double q1) (to_double q2) = false := by
  have n1 := nearest_magnitude_nonneg q1
  have n2 := nearest_magnitude_nonneg q2
  rcases to_double_cases q1 with ⟨a1, e1⟩ | ⟨a1, b1, e1⟩ | ⟨a1, b1, e1⟩ | ⟨a1, b1, e1⟩ |
      ⟨a1, b1, e1⟩ <;>
    rcases to_double_cases q2 with ⟨a2, e2⟩ | ⟨a2, b2, e2⟩ | ⟨a2, b2, e2⟩ | ⟨a2, b2, e2⟩ |
      ⟨a2, b2, e2⟩ <;>
    rw [e1, e2] <;> simp only [Double.gt, decide_eq_false_iff_not, not_lt, Bool.not_true,
      Bool.not_false, Bool.and_true, Bool.and_false, Bool.true_and, Bool.false_and] <;>
    first
    | rfl
    | linarith
    | exact False.elim (by linarith)
    | linarith [nearest_magnitude_mono q1 q2 (by intro e; rw [e] at a1; exact lt_irrefl _ a1)
        (by rw [abs_of_pos a1, abs_of_pos a2]; exact h)]
    | linarith [nearest_magnitude_mono q2 q1 (by intro e; rw [e] at a2; exact lt_irrefl _ a2)
        (by rw [abs_of_neg a1, abs_of_neg a2]; linarith)]

theorem to_double_ne_nan (q : ℚ) : to_double q ≠ .nan := by
  rcases to_double_cases q with ⟨-, e⟩ | ⟨-, -, e⟩ | ⟨-, -, e⟩ | ⟨-, -, e⟩ | ⟨-, -, e⟩ <;>
    rw [e] <;> simp

theorem Double.gt_antisymm (a b : Double) (ha : a ≠ .nan) (hb : b ≠ .nan)
    (h1 : Double.gt a b = false) (h2 : Double.gt b a = false) : a = b := by
  cases a with
  | nan => exact absurd rfl ha
  | finite x =>
    cases b with
    | nan => exact absurd rfl hb
    | finite y =>
      simp only [Double.gt, decide_eq_false_iff_not, not_lt] at h1 h2
      rw [le_antisymm h1 h2]
    | inf t => cases t <;> simp [Double.gt] at h1 h2
  | inf s =>
    cases b with
    | nan => exact absurd rfl hb
    | finite y => cases s <;> simp [Double.gt] at h1 h2
    | inf t => cases s <;> cases t <;> simp [Double.gt] at h1 h2 ⊢

/-- The comparison of line 201 on the `double`s and the comparison on the numbers
read lead to the same `double` in `greatest_x`: the `double` of the greatest number
read. -/
theorem greatest_double_eq : ∀ (xs : List ℚ) (g : ℚ),
    greatest_double (to_double g) xs
      = to_double (xs.foldl (fun g x => if x > g then x else g) g)
  | [], g => rfl
  | x :: xs, g => by
    rw [greatest_double, List.foldl_cons, List.foldl_cons]
    have step : (if Double.gt (to_double x) (to_double g) then to_double x else to_double g)
        = to_double (if x > g then x else g) := by
      by_cases hx : x > g
      · rw [if_pos hx]
        by_cases hd : Double.gt (to_double x) (to_double g) = true
        · rw [if_pos hd]
        · rw [if_neg hd]
          exact Double.gt_antisymm _ _ (to_double_ne_nan g) (to_double_ne_nan x)
            (to_double_mono g x hx.le) (by simpa using hd)
      · rw [if_neg hx]
        have := to_double_mono x g (not_lt.1 hx)
        rw [this]
        simp
    rw [step]
    exact greatest_double_eq xs _

/-- The conversion of an `int` to `double` is exact: a natural number below
`2 ^ 53` is a `double`. -/
theorem to_double_natCast (n : Nat) (h : n < 2 ^ 53) : to_double (n : ℚ) = .finite n := by
  rcases Nat.eq_zero_or_pos n with h0 | h0
  · subst h0
    simp [to_double]
  · have hq : (0 : ℚ) < n := by exact_mod_cast h0
    have hlo := binary_exponent_le (n : ℚ) hq
    have hhi := binary_exponent_lt (n : ℚ) hq
    have h1 : (1 : ℚ) ≤ n := by exact_mod_cast h0
    have h53 : (n : ℚ) < 2 ^ (53 : ℤ) := by
      have : (n : ℚ) < ((2 ^ 53 : ℕ) : ℚ) := by exact_mod_cast h
      norm_num at this ⊢
      exact this
    rw [pow2_eq] at hlo hhi
    have he0 : 0 ≤ binary_exponent (n : ℚ) := by
      have h2 : (2 : ℚ) ^ (0 : ℤ) < 2 ^ (binary_exponent (n : ℚ) + 1) := by
        rw [zpow_zero]; linarith
      have := (zpow_lt_zpow_iff_right₀ (by norm_num : (1 : ℚ) < 2)).1 h2
      omega
    have he52 : binary_exponent (n : ℚ) ≤ 52 := by
      have h2 : (2 : ℚ) ^ binary_exponent (n : ℚ) < 2 ^ (53 : ℤ) := lt_of_le_of_lt hlo h53
      have := (zpow_lt_zpow_iff_right₀ (by norm_num : (1 : ℚ) < 2)).1 h2
      omega
    have hnm : nearest_magnitude (n : ℚ) = n := by
      rw [nearest_magnitude_eq, abs_of_pos hq, max_eq_left (by omega)]
      generalize binary_exponent (n : ℚ) = e at he0 he52
      obtain ⟨k, hk⟩ : ∃ k : ℕ, (52 - e) = k := ⟨(52 - e).toNat, by omega⟩
      have hpk : pow2 (e - 52) * 2 ^ k = 1 := by
        have : (2 : ℚ) ^ k = pow2 (52 - e) := by rw [pow2_eq, hk, zpow_natCast]
        rw [this, ← pow2_add, pow2_eq]
        have : e - 52 + (52 - e) = 0 := by ring
        rw [this, zpow_zero]
      have hdiv : (n : ℚ) / pow2 (e - 52) = ((n * 2 ^ k : ℤ) : ℚ) := by
        rw [div_eq_iff (pow2_pos _).ne']
        push_cast
        rw [mul_assoc, mul_comm ((2 : ℚ) ^ k), hpk, mul_one]
      rw [hdiv, round_half_even_intCast]
      push_cast
      rw [mul_assoc, mul_comm ((2 : ℚ) ^ k), hpk, mul_one]
    rcases to_double_cases (n : ℚ) with ⟨a, -⟩ | ⟨-, -, e⟩ | ⟨-, b, -⟩ | ⟨a, -, -⟩ | ⟨a, -, -⟩
    · exact absurd a hq.ne'
    · rw [e, hnm]
    · rw [hnm, pow2_eq] at b
      have : (2 : ℚ) ^ (53 : ℤ) ≤ 2 ^ (1024 : ℤ) := by norm_num
      exact absurd b (not_le.2 (by linarith))
    · exact absurd a (not_lt.2 hq.le)
    · exact absurd a (not_lt.2 hq.le)

/-! ## Scaling and rounding -/

/-- The function `round` gives an integer at distance at most one half. -/
theorem c_round_near (v : ℚ) : |(c_round v : ℚ) - v| ≤ 1 / 2 := by
  unfold c_round
  split
  · have h1 := Int.floor_le (v + 1 / 2)
    have h2 := Int.lt_floor_add_one (v + 1 / 2)
    rw [abs_le]; constructor <;> linarith
  · have h1 := Int.floor_le (-v + 1 / 2)
    have h2 := Int.lt_floor_add_one (-v + 1 / 2)
    push_cast
    rw [abs_le]; constructor <;> linarith

/-- In a halfway case `round` takes the integer away from zero. -/
theorem c_round_tie (v : ℚ) (h : |(c_round v : ℚ) - v| = 1 / 2) : |v| < |(c_round v : ℚ)| := by
  unfold c_round at h ⊢
  split at h
  · rename_i hv
    rw [if_pos hv]
    have h1 := Int.floor_le (v + 1 / 2)
    have h2 := Int.lt_floor_add_one (v + 1 / 2)
    have h3 : (⌊v + 1 / 2⌋ : ℚ) - v = 1 / 2 := by
      rcases abs_eq (by norm_num : (0 : ℚ) ≤ 1 / 2) |>.1 h with h4 | h4
      · exact h4
      · linarith
    rw [abs_of_nonneg hv, abs_of_nonneg (by linarith)]
    linarith
  · rename_i hv
    rw [if_neg hv]
    push_neg at hv
    have h1 := Int.floor_le (-v + 1 / 2)
    have h2 := Int.lt_floor_add_one (-v + 1 / 2)
    push_cast at h ⊢
    have h3 : -(⌊-v + 1 / 2⌋ : ℚ) - v = -(1 / 2) := by
      rcases abs_eq (by norm_num : (0 : ℚ) ≤ 1 / 2) |>.1 h with h4 | h4
      · linarith
      · exact h4
    rw [abs_of_neg hv, abs_of_nonpos (by linarith)]
    linarith

theorem c_round_natCast (n : Nat) : c_round (n : ℚ) = n := by
  have h0 : (0 : ℚ) ≤ n := Nat.cast_nonneg n
  rw [c_round, if_pos h0, Int.floor_eq_iff]
  push_cast
  constructor <;> linarith

theorem c_round_nonneg (v : ℚ) (h : 0 ≤ v) : 0 ≤ c_round v := by
  rw [c_round, if_pos h]
  exact Int.floor_nonneg.2 (by linarith)

theorem c_round_le_natCast (v : ℚ) (n : Nat) (h0 : 0 ≤ v) (h : v ≤ n) : c_round v ≤ n := by
  rw [c_round, if_pos h0]
  have h1 : ⌊v + 1 / 2⌋ < (n : ℤ) + 1 := by
    rw [Int.floor_lt]; push_cast; linarith
  omega

theorem c_round_eq_of_near (v : ℚ) (n : ℤ) (h : |v - n| < 1 / 2) : c_round v = n := by
  obtain ⟨h1, h2⟩ := abs_lt.1 h
  unfold c_round
  split
  · rw [Int.floor_eq_iff]
    constructor <;> linarith
  · have : ⌊-v + 1 / 2⌋ = -n := by
      rw [Int.floor_eq_iff]
      push_cast
      constructor <;> linarith
    rw [this, neg_neg]

theorem c_round_le_of_lt (v : ℚ) (n : ℤ) (h0 : 0 ≤ v) (h : v < n + 1 / 2) : c_round v ≤ n := by
  rw [c_round, if_pos h0]
  have h1 : ⌊v + 1 / 2⌋ < n + 1 := by
    rw [Int.floor_lt]; push_cast; linarith
  omega

/-- The value of `greatest_x` after the reading loop has run on the pairs `ps`. -/
theorem track_greatest_x : ∀ (ps : List (ℚ × ℚ)) (g : ℚ), ps ≠ [] →
    ps.foldl (fun g p => if p.1 > g then p.1 else g) g = max g (max_x ps)
  | [], _, h => absurd rfl h
  | [p], g, _ => by
    simp only [List.foldl, max_x, max_def]
    by_cases h : g ≤ p.1 <;> by_cases h2 : p.1 > g <;> simp [h, h2]
    · linarith [le_antisymm h (not_lt.1 h2)]
    · linarith
  | p :: q :: ps, g, _ => by
    rw [List.foldl_cons, track_greatest_x (q :: ps) _ (by simp), max_x]
    have : (if p.1 > g then p.1 else g) = max g p.1 := by
      simp only [max_def]
      by_cases h : g ≤ p.1 <;> by_cases h2 : p.1 > g <;> simp [h, h2]
      · linarith [le_antisymm h (not_lt.1 h2)]
      · linarith
    rw [this, max_assoc]

theorem load_pairs_eq : ∀ (ps : List (ℚ × ℚ)) (st : LoadState) (dx dy : List (Option ℚ)),
    st.line = dx.length → dx.length = dy.length →
    st.x_coords = dx ++ List.replicate ps.length none →
    st.y_coords = dy ++ List.replicate ps.length none →
    ∃ st1, load_pairs ps st = .returns st1 ∧
      st1.greatest_x = ps.foldl (fun g p => if p.1 > g then p.1 else g) st.greatest_x ∧
      st1.x_coords = dx ++ ps.map (fun p => some p.1) ∧
      st1.y_coords = dy ++ ps.map (fun p => some p.2)
  | [], st, dx, dy, _, _, hx, hy => ⟨st, rfl, rfl, by simpa using hx, by simpa using hy⟩
  | (x, y) :: ps, st, dx, dy, hl, hxy, hx, hy => by
    have hlt : st.line < st.x_coords.length := by
      rw [hx, hl]; simp
    simp only [load_pairs, store_pair, hlt, if_true, Outcome.bind]
    obtain ⟨st1, h1, h2, h3, h4⟩ := load_pairs_eq ps
      { st with
        x_coord := some x, y_coord := some y
        greatest_x := if x > st.greatest_x then x else st.greatest_x
        x_coords := st.x_coords.set st.line (some x)
        y_coords := st.y_coords.set st.line (some y)
        line := st.line + 1 } (dx ++ [some x]) (dy ++ [some y])
      (by simp [hl]) (by simp [hxy])
      (by simp [hx, hl, List.replicate_succ])
      (by simp [hy, hl, hxy, List.replicate_succ])
    exact ⟨st1, h1, by simpa using h2, by simpa using h3, by simpa using h4⟩

/-- The `double` in `greatest_x` after the loop bodies have run on the pairs `ps`.
Line 201 compares `double`s where the embedding compares the numbers read; both
lead to the same `double`, since rounding keeps the order. -/
theorem greatest_x_double (ps : List (ℚ × ℚ)) :
    ∃ st1, load_pairs ps (LoadState.init [] ps.length) = .returns st1 ∧
      to_double st1.greatest_x = greatest_double (.finite 0) (ps.map fun p => p.1) := by
  obtain ⟨st1, h1, h2, -, -⟩ := load_pairs_eq ps (LoadState.init [] ps.length) [] []
    rfl rfl (by simp [LoadState.init]) (by simp [LoadState.init])
  refine ⟨st1, h1, ?_⟩
  have h0 : to_double 0 = .finite 0 := by simp [to_double]
  rw [h2, ← h0, greatest_double_eq, List.foldl_map]
  rfl

theorem to_int_returns (d : Double) (n : ℤ) (h : to_int d = .returns n) :
    n = c_round d.value := by
  cases d with
  | finite v =>
    simp only [to_int] at h
    split at h
    · simp only [Outcome.returns.injEq] at h
      exact h.symm
    · exact absurd h (by simp)
  | inf s => exact absurd h (by simp [to_int])
  | nan => exact absurd h (by simp [to_int])

/-- The scaling of a written cell returns exactly when the conversion to `int` is
defined, and then it returns the rounding of the scaled `double`. -/
theorem scale_cell_returns (factor : Double) (v : ℚ) (n : ℤ) :
    scale_cell factor (some v) = .returns n ↔
      fits_int factor v ∧ n = grid_coordinate factor v := by
  constructor
  · intro h
    have hn : n = grid_coordinate factor v := to_int_returns _ n h
    subst hn
    exact ⟨h, rfl⟩
  · rintro ⟨h, rfl⟩
    exact h

theorem scale_loop_iff (factor : Double) : ∀ (ps : List (ℚ × ℚ)) (out : List (ℤ × ℤ)),
    scale_loop factor (ps.map fun p => some p.1) (ps.map fun p => some p.2) = .returns out ↔
      (∀ p ∈ ps, fits_int factor p.1 ∧ fits_int factor p.2) ∧
      out = ps.map fun p => (grid_coordinate factor p.1, grid_coordinate factor p.2)
  | [], out => by
    simp only [List.map_nil, scale_loop, Outcome.returns.injEq, List.not_mem_nil,
      false_implies, implies_true, true_and]
    exact eq_comm
  | p :: ps, out => by
    simp only [List.map_cons, scale_loop, List.mem_cons, forall_eq_or_imp]
    cases hx : scale_cell factor (some p.1) with
    | returns ox =>
      obtain ⟨hfx, rfl⟩ := (scale_cell_returns factor p.1 ox).1 hx
      cases hy : scale_cell factor (some p.2) with
      | returns oy =>
        obtain ⟨hfy, rfl⟩ := (scale_cell_returns factor p.2 oy).1 hy
        cases hl : scale_loop factor (ps.map fun p => some p.1) (ps.map fun p => some p.2) with
        | returns o =>
          obtain ⟨hall, rfl⟩ := (scale_loop_iff factor ps o).1 hl
          simp only [Outcome.bind, Outcome.returns.injEq]
          exact ⟨fun h => ⟨⟨⟨hfx, hfy⟩, hall⟩, h.symm⟩, fun h => h.2.symm⟩
        | undefined =>
          simp only [Outcome.bind]
          refine ⟨fun h => absurd h (by simp), fun h => ?_⟩
          have := (scale_loop_iff factor ps _).2 ⟨h.1.2, rfl⟩
          rw [hl] at this
          exact absurd this (by simp)
        | timeout =>
          simp only [Outcome.bind]
          refine ⟨fun h => absurd h (by simp), fun h => ?_⟩
          have := (scale_loop_iff factor ps _).2 ⟨h.1.2, rfl⟩
          rw [hl] at this
          exact absurd this (by simp)
        | unmodelled =>
          simp only [Outcome.bind]
          refine ⟨fun h => absurd h (by simp), fun h => ?_⟩
          have := (scale_loop_iff factor ps _).2 ⟨h.1.2, rfl⟩
          rw [hl] at this
          exact absurd this (by simp)
      | undefined =>
        simp only [Outcome.bind]
        refine ⟨fun h => absurd h (by simp), fun h => ?_⟩
        have := (scale_cell_returns factor p.2 _).2 ⟨h.1.1.2, rfl⟩
        rw [hy] at this
        exact absurd this (by simp)
      | timeout =>
        simp only [Outcome.bind]
        refine ⟨fun h => absurd h (by simp), fun h => ?_⟩
        have := (scale_cell_returns factor p.2 _).2 ⟨h.1.1.2, rfl⟩
        rw [hy] at this
        exact absurd this (by simp)
      | unmodelled =>
        simp only [Outcome.bind]
        refine ⟨fun h => absurd h (by simp), fun h => ?_⟩
        have := (scale_cell_returns factor p.2 _).2 ⟨h.1.1.2, rfl⟩
        rw [hy] at this
        exact absurd this (by simp)
    | undefined =>
      simp only [Outcome.bind]
      refine ⟨fun h => absurd h (by simp), fun h => ?_⟩
      have := (scale_cell_returns factor p.1 _).2 ⟨h.1.1.1, rfl⟩
      rw [hx] at this
      exact absurd this (by simp)
    | timeout =>
      simp only [Outcome.bind]
      refine ⟨fun h => absurd h (by simp), fun h => ?_⟩
      have := (scale_cell_returns factor p.1 _).2 ⟨h.1.1.1, rfl⟩
      rw [hx] at this
      exact absurd this (by simp)
    | unmodelled =>
      simp only [Outcome.bind]
      refine ⟨fun h => absurd h (by simp), fun h => ?_⟩
      have := (scale_cell_returns factor p.1 _).2 ⟨h.1.1.1, rfl⟩
      rw [hx] at this
      exact absurd this (by simp)

/-- The grid points of a list of pairs with a positive greatest `x` are those of
the scaling loop with the factor `max_width / max_x`. -/
theorem grid_points_scale (max_width : Nat) (pairs : List (ℚ × ℚ)) (h : 0 < max_x pairs) :
    grid_points max_width pairs
      = scale_loop (scale_factor max_width (max_x pairs))
          (pairs.map fun p => some p.1) (pairs.map fun p => some p.2) := by
  have hne : pairs ≠ [] := by
    intro e; subst e; simp [max_x] at h
  obtain ⟨st1, h1, h2, h3, h4⟩ := load_pairs_eq pairs (LoadState.init [] pairs.length) [] []
    rfl rfl (by simp [LoadState.init]) (by simp [LoadState.init])
  have hg : st1.greatest_x = max_x pairs := by
    rw [h2, track_greatest_x pairs _ hne]
    exact max_eq_right h.le
  simp only [List.nil_append] at h3 h4
  simp only [grid_points, h1, Outcome.bind, scale_stage, hg, h3, h4]
  cases scale_loop (scale_factor max_width (max_x pairs))
    (pairs.map fun p => some p.1) (pairs.map fun p => some p.2) <;> rfl

/-- The grid points of a list of pairs with a positive greatest `x`: they are
computed exactly when every conversion to `int` is defined, and they are the
roundings of the scaled `double`s, in the order of the pairs. -/
theorem grid_points_iff (max_width : Nat) (pairs : List (ℚ × ℚ)) (h : 0 < max_x pairs)
    (out : List (ℤ × ℤ)) :
    grid_points max_width pairs = .returns out ↔
      (∀ p ∈ pairs, fits_int (scale_factor max_width (max_x pairs)) p.1 ∧
        fits_int (scale_factor max_width (max_x pairs)) p.2) ∧
      out = pairs.map fun p =>
        (grid_coordinate (scale_factor max_width (max_x pairs)) p.1,
         grid_coordinate (scale_factor max_width (max_x pairs)) p.2) := by
  rw [grid_points_scale max_width pairs h]
  exact scale_loop_iff _ pairs out

theorem read_loop_eq : ∀ (ps : List (ℚ × ℚ)) (st : LoadState) (dx dy : List (Option ℚ))
    (fuel : Nat), reads st.rest ps → ps.length < fuel →
    st.line = dx.length → dx.length = dy.length →
    st.x_coords = dx ++ List.replicate ps.length none →
    st.y_coords = dy ++ List.replicate ps.length none →
    ∃ st1, read_loop fuel st = .returns st1 ∧
      st1.greatest_x = ps.foldl (fun g p => if p.1 > g then p.1 else g) st.greatest_x ∧
      st1.x_coords = dx ++ ps.map (fun p => some p.1) ∧
      st1.y_coords = dy ++ ps.map (fun p => some p.2)
  | [], st, dx, dy, fuel, hr, hf, _, _, hx, hy => by
    obtain ⟨f, rfl⟩ : ∃ f, fuel = f + 1 := ⟨fuel - 1, by omega⟩
    simp only [reads] at hr
    exact ⟨st, by simp only [read_loop, fscanf_lf_lf, hr], rfl, by simpa using hx,
      by simpa using hy⟩
  | (x, y) :: ps, st, dx, dy, fuel, hr, hf, hl, hxy, hx, hy => by
    obtain ⟨f, rfl⟩ : ∃ f, fuel = f + 1 := ⟨fuel - 1, by omega⟩
    obtain ⟨r, r2, hs1, hs2, hrest⟩ := hr
    have hlt : st.line < st.x_coords.length := by
      rw [hx, hl]; simp
    simp only [read_loop, fscanf_lf_lf, hs1, hs2, store_pair, hlt, if_true, Outcome.bind]
    obtain ⟨st1, h1, h2, h3, h4⟩ := read_loop_eq ps
      { st with
        rest := r2, x_coord := some x, y_coord := some y
        greatest_x := if x > st.greatest_x then x else st.greatest_x
        x_coords := st.x_coords.set st.line (some x)
        y_coords := st.y_coords.set st.line (some y)
        line := st.line + 1 } (dx ++ [some x]) (dy ++ [some y]) f hrest
      (by simp only [List.length_cons] at hf; omega)
      (by simp [hl]) (by simp [hxy])
      (by simp [hx, hl, List.replicate_succ])
      (by simp [hy, hl, hxy, List.replicate_succ])
    exact ⟨st1, h1, by simpa using h2, by simpa using h3, by simpa using h4⟩

/-- On a file of `pairs.length` lines that `fscanf` reads as the pairs `pairs`,
`points_array` returns 0, the count `pairs.length`, and the grid points that the
loop bodies compute from the pairs. -/
theorem points_array_reads (max_width fuel : Nat) (text : List Char) (pairs : List (ℚ × ℚ))
    (hr : reads text pairs) (hn : count_newlines text = pairs.length)
    (hf : pairs.length < fuel) :
    points_array fuel (some text) max_width
      = (grid_points max_width pairs).bind fun out =>
          .returns { ret := 0, out := out, length := pairs.length } := by
  obtain ⟨st1, h1, h2, h3, h4⟩ := read_loop_eq pairs (LoadState.init text pairs.length) [] []
    fuel hr hf rfl rfl (by simp [LoadState.init]) (by simp [LoadState.init])
  obtain ⟨st2, k1, k2, k3, k4⟩ := load_pairs_eq pairs (LoadState.init [] pairs.length) [] []
    rfl rfl (by simp [LoadState.init]) (by simp [LoadState.init])
  have hg : st1.greatest_x = st2.greatest_x := by rw [h2, k2]; rfl
  simp only [points_array, hn, h1, grid_points, k1, Outcome.bind, scale_stage, hg, h3, h4, k3, k4]
  cases scale_loop (scale_factor max_width st2.greatest_x)
      ([] ++ pairs.map fun p => some p.1) ([] ++ pairs.map fun p => some p.2) <;> rfl

/-- The function `points_array` on the sanitized stream of the example of the
specification, with the canvas width 10. -/
theorem points_array_example :
    points_array 4 (some "0.0 0.0\n1.0 0.5\n2.0 1.0\n".toList) 10
      = .returns { ret := 0, out := [(0, 0), (5, 3), (10, 5)], length := 3 } := by
  decide!

/-- The example stream of the specification is read as its three pairs. -/
theorem reads_example :
    reads "0.0 0.0\n1.0 0.5\n2.0 1.0\n".toList [(0, 0), (1, 1 / 2), (2, 1)] := by
  refine ⟨" 0.0\n1.0 0.5\n2.0 1.0\n".toList, "\n1.0 0.5\n2.0 1.0\n".toList, ?_, ?_,
    " 0.5\n2.0 1.0\n".toList, "\n2.0 1.0\n".toList, ?_, ?_,
    " 1.0\n".toList, "\n".toList, ?_, ?_, ?_⟩
  all_goals
    simp [reads, scan_lf, isspace, read_sign, unmodelled_start, read_exponent, digits_value,
      Char.isDigit] <;> norm_num

theorem scale_factor_parts (W : Nat) (m f : ℚ) (hW : W < 2 ^ 31) (hm : 0 < m)
    (hm2 : m ≤ 2 ^ 1023) (hf : scale_factor W m = .finite f) :
    ∃ g, to_double m = .finite g ∧ 0 < g ∧ to_double (W / g) = .finite f := by
  have hw : to_double (W : ℚ) = .finite W :=
    to_double_natCast W (lt_trans hW (by norm_num))
  obtain ⟨g, hg⟩ := to_double_finite m (by rw [abs_of_pos hm]; exact hm2)
  have hg0 : 0 ≤ g := (to_double_sign m g hg).1 hm.le
  rw [scale_factor, hw, hg, Double.div] at hf
  by_cases hz : g = 0
  · rw [if_pos hz] at hf
    split at hf <;> exact absurd hf (by simp)
  · rw [if_neg hz] at hf
    exact ⟨g, hg, lt_of_le_of_ne hg0 (Ne.symm hz), hf⟩

/-- A scaled value whose conversion to `int` is defined is a finite `double`, the
rounding of the product of two finite `double`s, and is less than `2 ^ 31 + 1` in
magnitude. -/
theorem fits_int_parts (f v : ℚ) (h : fits_int (.finite f) v) :
    ∃ vh s, to_double v = .finite vh ∧ to_double (vh * f) = .finite s ∧
      scaled (.finite f) v = .finite s ∧ |s| ≤ 2 ^ 31 + 1 / 2 := by
  obtain ⟨n, hn⟩ : ∃ n, to_int (Double.mul (to_double v) (.finite f)) = .returns n := ⟨_, h⟩
  have hsc : scaled (.finite f) v = Double.mul (to_double v) (.finite f) := rfl
  cases hv : to_double v with
  | finite vh =>
    rw [hv, Double.mul] at hn
    rw [hsc, hv, Double.mul]
    cases hs : to_double (vh * f) with
    | finite s =>
      rw [hs, to_int] at hn
      split at hn
      · rename_i hr
        refine ⟨vh, s, rfl, hs, rfl, ?_⟩
        have h1 := abs_le.1 (c_round_near s)
        have h2 : ((c_round s : ℤ) : ℚ) ≤ 2147483647 := by exact_mod_cast hr.2
        have h3 : (-2147483648 : ℚ) ≤ ((c_round s : ℤ) : ℚ) := by exact_mod_cast hr.1
        rw [abs_le]
        constructor <;> norm_num <;> linarith [h1.1, h1.2]
      · exact absurd hn (by simp)
    | inf b => rw [hs] at hn; exact absurd hn (by simp [to_int])
    | nan => rw [hs] at hn; exact absurd hn (by simp [to_int])
  | inf b =>
    rw [hv, Double.mul] at hn
    split at hn <;> exact absurd hn (by simp [to_int])
  | nan => exact absurd hv (to_double_ne_nan v)

/-- When the conversion of a scaled value to `int` is defined, the factor is
finite. -/
theorem fits_int_finite (factor : Double) (v : ℚ) (h : fits_int factor v) :
    ∃ f, factor = .finite f := by
  obtain ⟨n, hn⟩ : ∃ n, to_int (Double.mul (to_double v) factor) = .returns n := ⟨_, h⟩
  cases factor with
  | finite f => exact ⟨f, rfl⟩
  | inf s =>
    cases hv : to_double v with
    | finite a =>
      rw [hv, Double.mul] at hn
      split at hn <;> exact absurd hn (by simp [to_int])
    | inf b => rw [hv] at hn; exact absurd hn (by simp [to_int, Double.mul])
    | nan => rw [hv] at hn; exact absurd hn (by simp [to_int, Double.mul])
  | nan =>
    cases hv : to_double v <;> rw [hv] at hn <;> exact absurd hn (by simp [to_int, Double.mul])

/-- The accuracy of the scaling: for a canvas width below `2 ^ 31`, a greatest `x`
between `2 ^ (-1021)` and `2 ^ 1023`, a scaled value whose
conversion to `int` is defined is within `2 ^ (-18)` of the exact
`v * max_width / max_x`. -/
theorem scaled_accuracy (W : Nat) (m v : ℚ) (hW : W < 2 ^ 31) (hm : 1 / 2 ^ 1021 ≤ m)
    (hm2 : m ≤ 2 ^ 1023) (hfit : fits_int (scale_factor W m) v) :
    ∃ s, scaled (scale_factor W m) v = .finite s ∧ |s - v * W / m| ≤ 1 / 2 ^ 18 := by
  have hm0 : 0 < m := lt_of_lt_of_le (by positivity) hm
  obtain ⟨f, hf⟩ := fits_int_finite _ v hfit
  obtain ⟨g, hg, hg0, hwg⟩ := scale_factor_parts W m f hW hm0 hm2 hf
  rw [hf] at hfit ⊢
  obtain ⟨vh, s, hv, hs, hsc, hsle⟩ := fits_int_parts f v hfit
  refine ⟨s, hsc, ?_⟩
  have hW0 : (0 : ℚ) ≤ W := Nat.cast_nonneg W
  have hD0 : 0 ≤ (W : ℚ) / g := div_nonneg hW0 hg0.le
  have hf0 : 0 ≤ f := (to_double_sign _ f hwg).1 hD0
  have hfe := to_double_error _ f hwg
  rw [abs_of_nonneg hD0] at hfe
  have hflt := to_double_lt _ f hwg
  rw [abs_of_nonneg hf0] at hflt
  have hge := to_double_error m g hg
  rw [abs_of_pos hm0] at hge
  have hve := to_double_error v vh hv
  have hvlt := to_double_lt v vh hv
  have hse := to_double_error _ s hs
  rw [abs_mul, abs_of_nonneg hf0] at hse
  -- the atoms of the estimate
  have ha0 : 0 ≤ |v| := abs_nonneg v
  have hah0 : 0 ≤ |vh| := abs_nonneg vh
  have hP0 : 0 ≤ |vh| * f := mul_nonneg hah0 hf0
  have k1 : (1 : ℚ) / 2 ^ 1075 ≤ 1 / 2 := by norm_num
  -- the exact product of the two doubles
  have hP : |vh| * f ≤ 2 ^ 31 + 1 := by
    have h1 : |vh * f| - |s| ≤ |vh * f - s| := abs_sub_abs_le_abs_sub _ _
    rw [abs_sub_comm, abs_mul, abs_of_nonneg hf0] at h1
    have h3 : (2 : ℚ) ^ 31 + 1 / 2 + 1 / 2 ^ 1075 ≤ (2 ^ 31 + 1) - (2 ^ 31 + 1) / 2 ^ 53 := by
      norm_num
    linarith
  have hsP : |s - vh * f| ≤ 1 / 2 ^ 21 := by
    have h1 : |vh| * f / 2 ^ 53 ≤ (2 ^ 31 + 1) / 2 ^ 53 :=
      div_le_div_of_nonneg_right hP (by positivity)
    have h2 : ((2 : ℚ) ^ 31 + 1) / 2 ^ 53 + 1 / 2 ^ 1075 ≤ 1 / 2 ^ 21 := by norm_num
    linarith
  -- the number read against its double
  have hv2 : |v| - |v| / 2 ^ 53 ≤ |vh| + 1 / 2 ^ 1075 := by
    have h1 : |v| - |vh| ≤ |v - vh| := abs_sub_abs_le_abs_sub _ _
    rw [abs_sub_comm] at h1
    linarith
  have htf : f / 2 ^ 1075 ≤ 1 / 2 ^ 51 := by
    rw [div_le_iff₀ (by positivity)]
    have : (1 : ℚ) / 2 ^ 51 * 2 ^ 1075 = 2 ^ 1024 := by norm_num
    rw [this]
    exact hflt.le
  have hX : |v| * f ≤ 2 ^ 31 + 2 := by
    have h1 := mul_le_mul_of_nonneg_right hv2 hf0
    have e1 : (|v| - |v| / 2 ^ 53) * f = |v| * f - |v| * f / 2 ^ 53 := by ring
    have e2 : (|vh| + 1 / 2 ^ 1075) * f = |vh| * f + f / 2 ^ 1075 := by ring
    rw [e1, e2] at h1
    have h2 : (2 : ℚ) ^ 31 + 1 + 1 / 2 ^ 51 ≤ (2 ^ 31 + 2) - (2 ^ 31 + 2) / 2 ^ 53 := by
      norm_num
    linarith
  have hZ : |v| / 2 ^ 1075 ≤ 1 / 2 ^ 49 := by
    rw [div_le_iff₀ (by positivity)]
    have : (1 : ℚ) / 2 ^ 49 * 2 ^ 1075 = 2 ^ 1026 := by norm_num
    rw [this]
    have h2 : (2 : ℚ) ^ 1024 + 1 / 2 ^ 1075 ≤ 2 ^ 1026 - 2 ^ 1026 / 2 ^ 53 := by norm_num
    linarith
  have hD : (W : ℚ) / g - (W : ℚ) / g / 2 ^ 53 ≤ f + 1 / 2 ^ 1075 := by
    have h1 := (abs_le.1 hfe).1
    linarith
  have hY : |v| * ((W : ℚ) / g) ≤ 2 ^ 31 + 3 := by
    have h1 := mul_le_mul_of_nonneg_left hD ha0
    have e1 : |v| * ((W : ℚ) / g - (W : ℚ) / g / 2 ^ 53)
        = |v| * ((W : ℚ) / g) - |v| * ((W : ℚ) / g) / 2 ^ 53 := by ring
    have e2 : |v| * (f + 1 / 2 ^ 1075) = |v| * f + |v| / 2 ^ 1075 := by ring
    rw [e1, e2] at h1
    have h2 : (2 : ℚ) ^ 31 + 2 + 1 / 2 ^ 49 ≤ (2 ^ 31 + 3) - (2 ^ 31 + 3) / 2 ^ 53 := by
      norm_num
    linarith
  -- the three parts of the error of the exact product
  have p1 : |(vh - v) * f| ≤ 1 / 2 ^ 21 := by
    rw [abs_mul, abs_of_nonneg hf0]
    have h1 := mul_le_mul_of_nonneg_right hve hf0
    have e : (|v| / 2 ^ 53 + 1 / 2 ^ 1075) * f = |v| * f / 2 ^ 53 + f / 2 ^ 1075 := by ring
    rw [e] at h1
    have h2 : |v| * f / 2 ^ 53 ≤ (2 ^ 31 + 2) / 2 ^ 53 :=
      div_le_div_of_nonneg_right hX (by positivity)
    have h3 : ((2 : ℚ) ^ 31 + 2) / 2 ^ 53 + 1 / 2 ^ 51 ≤ 1 / 2 ^ 21 := by norm_num
    linarith
  have p2 : |v * (f - (W : ℚ) / g)| ≤ 1 / 2 ^ 21 := by
    rw [abs_mul]
    have h1 := mul_le_mul_of_nonneg_left hfe ha0
    have e : |v| * ((W : ℚ) / g / 2 ^ 53 + 1 / 2 ^ 1075)
        = |v| * ((W : ℚ) / g) / 2 ^ 53 + |v| / 2 ^ 1075 := by ring
    rw [e] at h1
    have h2 : |v| * ((W : ℚ) / g) / 2 ^ 53 ≤ (2 ^ 31 + 3) / 2 ^ 53 :=
      div_le_div_of_nonneg_right hY (by positivity)
    have h3 : ((2 : ℚ) ^ 31 + 3) / 2 ^ 53 + 1 / 2 ^ 49 ≤ 1 / 2 ^ 21 := by norm_num
    linarith
  have p3 : |v * ((W : ℚ) / g - W / m)| ≤ 1 / 2 ^ 20 := by
    have e : (W : ℚ) / g - W / m = (W : ℚ) / g * ((m - g) / m) := by
      field_simp
      ring
    rw [e, abs_mul, abs_mul, abs_of_nonneg hD0, abs_div, abs_of_pos hm0, ← mul_assoc]
    have h1 : |m - g| / m ≤ 2 / 2 ^ 53 := by
      rw [div_le_iff₀ hm0, abs_sub_comm]
      have h2 : (1 : ℚ) / 2 ^ 1075 ≤ m / 2 ^ 53 := by
        rw [le_div_iff₀ (by positivity)]
        have : (1 : ℚ) / 2 ^ 1075 * 2 ^ 53 ≤ 1 / 2 ^ 1021 := by norm_num
        linarith
      linarith
    have h2 := mul_le_mul_of_nonneg_left h1 (mul_nonneg ha0 hD0)
    have h3 : |v| * ((W : ℚ) / g) * (2 / 2 ^ 53) ≤ (2 ^ 31 + 3) * (2 / 2 ^ 53) :=
      mul_le_mul_of_nonneg_right hY (by positivity)
    have h4 : ((2 : ℚ) ^ 31 + 3) * (2 / 2 ^ 53) ≤ 1 / 2 ^ 20 := by norm_num
    linarith
  have split : s - v * W / m
      = (s - vh * f) + (vh - v) * f + v * (f - (W : ℚ) / g) + v * ((W : ℚ) / g - W / m) := by
    ring
  rw [split]
  have t1 := abs_add ((s - vh * f) + (vh - v) * f + v * (f - (W : ℚ) / g))
    (v * ((W : ℚ) / g - W / m))
  have t2 := abs_add ((s - vh * f) + (vh - v) * f) (v * (f - (W : ℚ) / g))
  have t3 := abs_add (s - vh * f) ((vh - v) * f)
  have k2 : (1 : ℚ) / 2 ^ 21 + 1 / 2 ^ 21 + 1 / 2 ^ 21 + 1 / 2 ^ 20 ≤ 1 / 2 ^ 18 := by
    norm_num
  linarith

/-- The file `9 0.2925` is read as the pair `(9, 0.2925)`. -/
theorem reads_inexact : reads "9 0.2925\n".toList [(9, 2925 / 10000)] := by
  refine ⟨" 0.2925\n".toList, "\n".toList, ?_, ?_, ?_⟩
  all_goals
    simp [reads, scan_lf, isspace, read_sign, unmodelled_start, read_exponent, digits_value,
      Char.isDigit] <;> norm_num

/-- C4 fails for the file `9 0.2925` and the width 200: the greatest `x` is
`9 > 0` and `0.2925 * 200 / 9` is `6.5`, which `round` takes to 7, but the `double`
nearest to `0.2925` times the `double` nearest to `200 / 9` is a `double` less than
`6.5`, and `points_array` returns the grid point `(200, 6)`. -/
theorem points_array_inexact :
    reads "9 0.2925\n".toList [(9, 2925 / 10000)] ∧
    0 < max_x [(9, 2925 / 10000)] ∧
    (2925 / 10000 : ℚ) * (200 : ℕ) / max_x [(9, 2925 / 10000)] = 13 / 2 ∧
    c_round ((2925 / 10000 : ℚ) * (200 : ℕ) / max_x [(9, 2925 / 10000)]) = 7 ∧
    (scaled (scale_factor 200 (max_x [(9, 2925 / 10000)])) (2925 / 10000)).value < 13 / 2 ∧
    grid_points 200 [(9, 2925 / 10000)] = .returns [(200, 6)] ∧
    points_array 2 (some "9 0.2925\n".toList) 200
      = .returns { ret := 0, out := [(200, 6)], length := 1 } :=
  ⟨reads_inexact, by decide!, by decide!, by decide!, by decide!, by decide!, by decide!⟩

/-- C4 (amended): for every list of pairs with greatest `x` value `max_x > 0` and
every canvas width `W`, `points_array` maps each pair `(x, y)`, in file order, to
`(round (x ⊗ (W ⊘ max_x)), round (y ⊗ (W ⊘ max_x)))`, where `x`, `y`, `W` and `max_x`
are taken as `double`s, `⊗` and `⊘` are the product and the quotient of `double`s,
each rounded to the nearest `double`, and `round` gives the nearest integer and, in
a halfway case, the one away from zero. The loop bodies of `points_array` return
these grid points exactly when every conversion to `int` is defined, and so does
`points_array` on every file of that many lines that is read as these pairs. For
`W < 2 ^ 31` and `2 ^ (-1021) ≤ max_x ≤ 2 ^ 1023` a scaled value that is converted
is within `2 ^ (-18)` of `v * W / max_x`, and the grid coordinate within
`1 / 2 + 2 ^ (-18)`. The pairs `(0,0), (1,0.5), (2,1)` with `W = 10` give
`(0,0), (5,3), (10,5)`. -/
theorem points_array_scaling (max_width : Nat) (pairs : List (ℚ × ℚ)) (h : 0 < max_x pairs) :
    (∀ out : List (ℤ × ℤ), grid_points max_width pairs = .returns out ↔
      (∀ p ∈ pairs, fits_int (scale_factor max_width (max_x pairs)) p.1 ∧
        fits_int (scale_factor max_width (max_x pairs)) p.2) ∧
      out = pairs.map fun p =>
        (grid_coordinate (scale_factor max_width (max_x pairs)) p.1,
         grid_coordinate (scale_factor max_width (max_x pairs)) p.2)) ∧
    (∀ v : ℚ, grid_coordinate (scale_factor max_width (max_x pairs)) v
      = c_round (Double.mul (to_double v)
          (Double.div (to_double max_width) (to_double (max_x pairs)))).value) ∧
    (∀ (text : List Char) (fuel : Nat), reads text pairs →
      count_newlines text = pairs.length → pairs.length < fuel →
      points_array fuel (some text) max_width
        = (grid_points max_width pairs).bind fun out =>
            .returns { ret := 0, out := out, length := pairs.length }) ∧
    (∀ v : ℚ, |(c_round v : ℚ) - v| ≤ 1 / 2 ∧
      (|(c_round v : ℚ) - v| = 1 / 2 → |v| < |(c_round v : ℚ)|)) ∧
    (max_width < 2 ^ 31 → 1 / 2 ^ 1021 ≤ max_x pairs → max_x pairs ≤ 2 ^ 1023 →
      ∀ v : ℚ, fits_int (scale_factor max_width (max_x pairs)) v →
        |(scaled (scale_factor max_width (max_x pairs)) v).value
            - v * max_width / max_x pairs| ≤ 1 / 2 ^ 18 ∧
        |(grid_coordinate (scale_factor max_width (max_x pairs)) v : ℚ)
            - v * max_width / max_x pairs| ≤ 1 / 2 + 1 / 2 ^ 18) ∧
    grid_points 10 [(0, 0), (1, 1 / 2), (2, 1)] = .returns [(0, 0), (5, 3), (10, 5)] ∧
    points_array 4 (some "0.0 0.0\n1.0 0.5\n2.0 1.0\n".toList) 10
      = .returns { ret := 0, out := [(0, 0), (5, 3), (10, 5)], length := 3 } := by
  refine ⟨grid_points_iff max_width pairs h, fun _ => rfl,
    fun text fuel hr hn hf => points_array_reads max_width fuel text pairs hr hn hf,
    fun v => ⟨c_round_near v, c_round_tie v⟩, ?_, by decide!, points_array_example⟩
  intro hw h1 h2 v hfit
  obtain ⟨s, hs, he⟩ := scaled_accuracy max_width (max_x pairs) v hw h1 h2 hfit
  have hg : grid_coordinate (scale_factor max_width (max_x pairs)) v = c_round s := by
    rw [grid_coordinate, hs]
    rfl
  rw [hs, hg]
  refine ⟨he, ?_⟩
  have h3 := c_round_near s
  have h4 := abs_add ((c_round s : ℚ) - s) (s - v * max_width / max_x pairs)
  have e : (c_round s : ℚ) - v * max_width / max_x pairs
      = ((c_round s : ℚ) - s) + (s - v * max_width / max_x pairs) := by ring
  rw [e]
  linarith

/-- The amended C4 at the pairs of the example, whose greatest `x` is 2, and at the
example stream. -/
theorem points_array_scaling_witness :
    0 < max_x [(0, 0), (1, 1 / 2), (2, 1)] ∧
    (grid_points 10 [(0, 0), (1, 1 / 2), (2, 1)] = .returns [(0, 0), (5, 3), (10, 5)] ↔
      (∀ p ∈ [((0 : ℚ), (0 : ℚ)), (1, 1 / 2), (2, 1)],
        fits_int (scale_factor 10 (max_x [(0, 0), (1, 1 / 2), (2, 1)])) p.1 ∧
        fits_int (scale_factor 10 (max_x [(0, 0), (1, 1 / 2), (2, 1)])) p.2) ∧
      [((0 : ℤ), (0 : ℤ)), (5, 3), (10, 5)]
        = [((0 : ℚ), (0 : ℚ)), (1, 1 / 2), (2, 1)].map fun p =>
          (grid_coordinate (scale_factor 10 (max_x [(0, 0), (1, 1 / 2), (2, 1)])) p.1,
           grid_coordinate (scale_factor 10 (max_x [(0, 0), (1, 1 / 2), (2, 1)])) p.2)) :=
  ⟨by decide!,
   (points_array_scaling 10 [(0, 0), (1, 1 / 2), (2, 1)] (by decide!)).1 [(0, 0), (5, 3), (10, 5)]⟩

theorem le_max_x : ∀ (ps : List (ℚ × ℚ)), ∀ p ∈ ps, p.1 ≤ max_x ps
  | [], _, h => by simp at h
  | [q], p, h => by simp at h; subst h; simp [max_x]
  | q :: r :: ps, p, h => by
    rw [max_x]
    rcases List.mem_cons.1 h with h1 | h1
    · subst h1; exact le_max_left _ _
    · exact le_trans (le_max_x (r :: ps) p h1) (le_max_right _ _)

theorem max_x_mem : ∀ (ps : List (ℚ × ℚ)), ps ≠ [] → ∃ p ∈ ps, p.1 = max_x ps
  | [], h => absurd rfl h
  | [q], _ => ⟨q, by simp, by simp [max_x]⟩
  | q :: r :: ps, _ => by
    obtain ⟨p, hp, he⟩ := max_x_mem (r :: ps) (by simp)
    rw [max_x]
    rcases le_total q.1 (max_x (r :: ps)) with hle | hle
    · exact ⟨p, List.mem_cons_of_mem _ hp, by rw [max_eq_right hle]; exact he⟩
    · exact ⟨q, List.mem_cons_self _ _, by rw [max_eq_left hle]⟩

/-- The factor is finite for a canvas width below `2 ^ 31` and a greatest `x`
between `2 ^ (-990)` and `2 ^ 1023`. -/
theorem scale_factor_finite (W : Nat) (m : ℚ) (hW : W < 2 ^ 31) (hm : 1 / 2 ^ 990 ≤ m)
    (hm2 : m ≤ 2 ^ 1023) : ∃ f, scale_factor W m = .finite f := by
  have hm0 : 0 < m := lt_of_lt_of_le (by positivity) hm
  have hw : to_double (W : ℚ) = .finite W :=
    to_double_natCast W (lt_trans hW (by norm_num))
  obtain ⟨g, hg⟩ := to_double_finite m (by rw [abs_of_pos hm0]; exact hm2)
  have hge := abs_le.1 (to_double_error m g hg)
  rw [abs_of_pos hm0] at hge
  have hg1 : 1 / 2 ^ 991 ≤ g := by
    have h1 : (1 : ℚ) / 2 ^ 1075 ≤ 1 / 2 ^ 990 / 4 := by norm_num
    have h2 : (1 : ℚ) / 2 ^ 991 = 1 / 2 ^ 990 / 2 := by norm_num
    have h3 : m / 2 ^ 53 ≤ m / 4 := by
      have : (0 : ℚ) ≤ m := hm0.le
      have e1 : m / 2 ^ 53 = m * (1 / 2 ^ 53) := by ring
      have e2 : m / 4 = m * (1 / 4) := by ring
      rw [e1, e2]
      exact mul_le_mul_of_nonneg_left (by norm_num) this
    linarith [hge.1]
  have hg0 : 0 < g := lt_of_lt_of_le (by positivity) hg1
  have hWq : (W : ℚ) ≤ 2 ^ 31 := by exact_mod_cast hW.le
  have hW0 : (0 : ℚ) ≤ W := Nat.cast_nonneg W
  have hq : |(W : ℚ) / g| ≤ 2 ^ 1023 := by
    rw [abs_of_nonneg (div_nonneg hW0 hg0.le), div_le_iff₀ hg0]
    have h1 : (2 : ℚ) ^ 1023 * (1 / 2 ^ 991) ≤ 2 ^ 1023 * g :=
      mul_le_mul_of_nonneg_left hg1 (by positivity)
    have h2 : (2 : ℚ) ^ 31 ≤ 2 ^ 1023 * (1 / 2 ^ 991) := by norm_num
    linarith
  obtain ⟨f, hf⟩ := to_double_finite _ hq
  refine ⟨f, ?_⟩
  rw [scale_factor, hw, hg, Double.div, if_neg hg0.ne', hf]

/-- The product of the greatest `x` and the factor, in exact arithmetic, is within
`1 / 2 ^ 20` of the width; the other bounds serve the columns of the smaller `x`. -/
theorem scale_factor_bounds (W : Nat) (m f g : ℚ) (hW : W < 2 ^ 31) (hm : 0 < m)
    (hg : to_double m = .finite g) (hg0 : 0 < g) (hf : to_double (W / g) = .finite f) :
    0 ≤ f ∧ |g * f - W| ≤ 1 / 2 ^ 20 ∧ f / 2 ^ 1075 ≤ 1 / 2 ^ 51 ∧
      m - m / 2 ^ 53 ≤ g + 1 / 2 ^ 1075 := by
  have hWq : (W : ℚ) ≤ 2 ^ 31 := by exact_mod_cast hW.le
  have hW0 : (0 : ℚ) ≤ W := Nat.cast_nonneg W
  have hge := abs_le.1 (to_double_error m g hg)
  rw [abs_of_pos hm] at hge
  have hD0 : 0 ≤ (W : ℚ) / g := div_nonneg hW0 hg0.le
  have hf0 : 0 ≤ f := (to_double_sign _ f hf).1 hD0
  have hfe := abs_le.1 (to_double_error _ f hf)
  rw [abs_of_nonneg hD0] at hfe
  have hflt := to_double_lt _ f hf
  rw [abs_of_nonneg hf0] at hflt
  have hglt := to_double_lt _ g hg
  rw [abs_of_pos hg0] at hglt
  have hgD : g * ((W : ℚ) / g) = W := mul_div_cancel₀ (W : ℚ) hg0.ne'
  have h1 : g * f ≤ W + (W : ℚ) / 2 ^ 53 + g / 2 ^ 1075 := by
    have := mul_le_mul_of_nonneg_left (by linarith [hfe.2] :
      f ≤ (W : ℚ) / g + (W : ℚ) / g / 2 ^ 53 + 1 / 2 ^ 1075) hg0.le
    have e : g * ((W : ℚ) / g + (W : ℚ) / g / 2 ^ 53 + 1 / 2 ^ 1075)
        = g * ((W : ℚ) / g) + g * ((W : ℚ) / g) / 2 ^ 53 + g / 2 ^ 1075 := by ring
    rw [e, hgD] at this
    exact this
  have h2 : W - (W : ℚ) / 2 ^ 53 - g / 2 ^ 1075 ≤ g * f := by
    have := mul_le_mul_of_nonneg_left (by linarith [hfe.1] :
      (W : ℚ) / g - (W : ℚ) / g / 2 ^ 53 - 1 / 2 ^ 1075 ≤ f) hg0.le
    have e : g * ((W : ℚ) / g - (W : ℚ) / g / 2 ^ 53 - 1 / 2 ^ 1075)
        = g * ((W : ℚ) / g) - g * ((W : ℚ) / g) / 2 ^ 53 - g / 2 ^ 1075 := by ring
    rw [e, hgD] at this
    exact this
  have h3 : g / 2 ^ 1075 ≤ 1 / 2 ^ 51 := by
    rw [div_le_iff₀ (by positivity)]
    have : (1 : ℚ) / 2 ^ 51 * 2 ^ 1075 = 2 ^ 1024 := by norm_num
    rw [this]
    exact hglt.le
  have h4 : f / 2 ^ 1075 ≤ 1 / 2 ^ 51 := by
    rw [div_le_iff₀ (by positivity)]
    have : (1 : ℚ) / 2 ^ 51 * 2 ^ 1075 = 2 ^ 1024 := by norm_num
    rw [this]
    exact hflt.le
  refine ⟨hf0, ?_, h4, by linarith [hge.1]⟩
  rw [abs_le]
  have k1 : (W : ℚ) / 2 ^ 53 ≤ 1 / 2 ^ 22 := by
    rw [div_le_iff₀ (by positivity)]
    have : (1 : ℚ) / 2 ^ 22 * 2 ^ 53 = 2 ^ 31 := by norm_num
    rw [this]
    exact hWq
  have k4 : (1 : ℚ) / 2 ^ 22 + 1 / 2 ^ 51 ≤ 1 / 2 ^ 20 := by norm_num
  constructor <;> linarith

/-- The column of an `x` between 0 and the greatest `x`, when the factor is finite:
the conversion to `int` is defined, the column lies in `[0, max_width]`, and it
is `max_width` when `x` is the greatest `x`. -/
theorem scale_cell_column (W : Nat) (m x : ℚ) (hW : W < 2 ^ 31) (hm : 0 < m)
    (hm2 : m ≤ 2 ^ 1023) (hf : ∃ f, scale_factor W m = .finite f) (h0 : 0 ≤ x) (hx : x ≤ m) :
    ∃ col, scale_cell (scale_factor W m) (some x) = .returns col ∧ 0 ≤ col ∧ col ≤ W ∧
      (x = m → col = W) := by
  obtain ⟨f, hf⟩ := hf
  obtain ⟨g, hg, hg0, hwg⟩ := scale_factor_parts W m f hW hm hm2 hf
  obtain ⟨hf0, hA, hT, hmg⟩ := scale_factor_bounds W m f g hW hm hg hg0 hwg
  have hWq : (W : ℚ) ≤ 2 ^ 31 - 1 := by
    have : W + 1 ≤ 2 ^ 31 := hW
    have : ((W + 1 : ℕ) : ℚ) ≤ 2 ^ 31 := by exact_mod_cast this
    push_cast at this
    linarith
  have hW0 : (0 : ℚ) ≤ W := Nat.cast_nonneg W
  obtain ⟨hA1, hA2⟩ := abs_le.1 hA
  obtain ⟨xh, hxh⟩ := to_double_finite x (by rw [abs_of_nonneg h0]; linarith)
  have hxh0 : 0 ≤ xh := (to_double_sign x xh hxh).1 h0
  have hxe := abs_le.1 (to_double_error x xh hxh)
  rw [abs_of_nonneg h0] at hxe
  have hC0 : 0 ≤ xh * f := mul_nonneg hxh0 hf0
  -- the exact product of the cell and the factor
  have hB : m * f - m * f / 2 ^ 53 ≤ g * f + f / 2 ^ 1075 := by
    have := mul_le_mul_of_nonneg_right hmg hf0
    have e1 : (m - m / 2 ^ 53) * f = m * f - m * f / 2 ^ 53 := by ring
    have e2 : (g + 1 / 2 ^ 1075) * f = g * f + f / 2 ^ 1075 := by ring
    rw [e1, e2] at this
    exact this
  have hC : xh * f ≤ m * f + m * f / 2 ^ 53 + f / 2 ^ 1075 := by
    have h1 : xh ≤ m + m / 2 ^ 53 + 1 / 2 ^ 1075 := by
      have : x / 2 ^ 53 ≤ m / 2 ^ 53 := div_le_div_of_nonneg_right hx (by positivity)
      linarith [hxe.2]
    have := mul_le_mul_of_nonneg_right h1 hf0
    have e1 : (m + m / 2 ^ 53 + 1 / 2 ^ 1075) * f = m * f + m * f / 2 ^ 53 + f / 2 ^ 1075 := by
      ring
    rw [e1] at this
    exact this
  have k1 : (1 : ℚ) / 2 ^ 20 ≤ 1 := by norm_num
  have k2 : (1 : ℚ) / 2 ^ 51 ≤ 1 := by norm_num
  have hBle : m * f ≤ 2 ^ 32 := by
    have h1 : m * f - m * f / 2 ^ 53 ≤ 2 ^ 31 + 1 := by linarith
    have e : m * f - m * f / 2 ^ 53 = m * f * (1 - 1 / 2 ^ 53) := by ring
    rw [e] at h1
    have h2 : (1 : ℚ) / 2 ≤ 1 - 1 / 2 ^ 53 := by norm_num
    have h3 : 0 ≤ m * f := mul_nonneg hm.le hf0
    have h4 : m * f * (1 / 2) ≤ m * f * (1 - 1 / 2 ^ 53) := mul_le_mul_of_nonneg_left h2 h3
    have h5 : (2 : ℚ) * (2 ^ 31 + 1) ≤ 2 ^ 32 + 2 := by norm_num
    nlinarith
  have k3 : m * f / 2 ^ 53 ≤ 1 / 2 ^ 21 := by
    rw [div_le_iff₀ (by positivity)]
    have : (1 : ℚ) / 2 ^ 21 * 2 ^ 53 = 2 ^ 32 := by norm_num
    rw [this]
    exact hBle
  have k4 : (1 : ℚ) / 2 ^ 20 + 1 / 2 ^ 51 + 1 / 2 ^ 21 + 1 / 2 ^ 21 + 1 / 2 ^ 51 ≤ 1 / 2 ^ 18 := by
    norm_num
  have hCle : xh * f ≤ W + 1 / 2 ^ 18 := by linarith
  have k5 : (1 : ℚ) / 2 ^ 18 ≤ 1 := by norm_num
  have k6 : (2 : ℚ) ^ 31 ≤ 2 ^ 1023 := by norm_num
  have k7 : (2 : ℚ) ^ 31 ≤ 2 ^ 32 := by norm_num
  obtain ⟨s, hs⟩ := to_double_finite (xh * f) (by rw [abs_of_nonneg hC0]; linarith)
  have hs0 : 0 ≤ s := (to_double_sign _ s hs).1 hC0
  have hse := abs_le.1 (to_double_error _ s hs)
  rw [abs_of_nonneg hC0] at hse
  have k8 : xh * f / 2 ^ 53 ≤ 1 / 2 ^ 21 := by
    rw [div_le_iff₀ (by positivity)]
    have : (1 : ℚ) / 2 ^ 21 * 2 ^ 53 = 2 ^ 32 := by norm_num
    rw [this]
    linarith
  have k9 : (1 : ℚ) / 2 ^ 18 + 1 / 2 ^ 21 + 1 / 2 ^ 1075 < 1 / 2 := by norm_num
  have hsW : s < ((W : ℤ) : ℚ) + 1 / 2 := by
    push_cast
    linarith [hse.2]
  have hcol0 : 0 ≤ c_round s := c_round_nonneg s hs0
  have hcolW : c_round s ≤ (W : ℤ) := c_round_le_of_lt s W hs0 hsW
  have hWi : (W : ℤ) < 2 ^ 31 := by exact_mod_cast hW
  refine ⟨c_round s, ?_, hcol0, hcolW, ?_⟩
  · have hr : -2147483648 ≤ c_round s ∧ c_round s ≤ 2147483647 := by
      constructor <;> omega
    simp only [scale_cell, scaled, hf, hxh, Double.mul, hs, to_int, if_pos hr]
  · intro he
    subst he
    have hxg : xh = g := by
      rw [hg] at hxh
      simpa using hxh.symm
    subst hxg
    apply c_round_eq_of_near
    push_cast
    rw [abs_lt]
    have k10 : (1 : ℚ) / 2 ^ 21 + 1 / 2 ^ 1075 + 1 / 2 ^ 20 < 1 / 2 := by norm_num
    constructor
    · linarith [hse.1]
    · linarith [hse.2]

/-- C5 fails for the single pair `(1e-307, 0)` and the width 200: the greatest `x`
is positive, but the quotient `200 / 1e-307` is above every finite `double`, so the
factor is `+inf`, the scaled `x` handed to `round` is `+inf` and not 200, and its
conversion to `int` is undefined. -/
theorem max_x_column_overflow :
    0 < max_x [(1 / 10 ^ 307, 0)] ∧
    scale_factor 200 (max_x [(1 / 10 ^ 307, 0)]) = .inf false ∧
    scaled (scale_factor 200 (max_x [(1 / 10 ^ 307, 0)])) (1 / 10 ^ 307) = .inf false ∧
    scale_cell (scale_factor 200 (max_x [(1 / 10 ^ 307, 0)])) (some (1 / 10 ^ 307))
      = .undefined ∧
    grid_points 200 [(1 / 10 ^ 307, 0)] = .undefined ∧
    points_array 2 (some "1e-307 0\n".toList) 200 = .undefined :=
  ⟨by decide!, by decide!, by decide!, by decide!, by decide!, by decide!⟩

/-- C5 (amended): for every list of pairs whose greatest `x` value `max_x` is
positive and at most `2 ^ 1023`, and every canvas width below `2 ^ 31` for which
the quotient `canvas_width / max_x` of `double`s is finite, the scaling step maps
every pair with `0 ≤ x` (all pairs have `x ≤ max_x`) to a column in
`[0, canvas_width]`, the conversion to `int` being defined, and every pair with
`x = max_x` to the column `canvas_width` exactly; some pair has `x = max_x`; so it
is in the grid points that the loop bodies of `points_array` return, which
`points_array` returns for a file of that many lines read as these pairs, and they
are returned when all `x` are at least 0 and the conversions of the scaled `y` are
defined; the single pair `(5, 3)` with the width 10 gives the grid point
`(10, 6)`. -/
theorem max_x_column (max_width : Nat) (pairs : List (ℚ × ℚ)) (h : 0 < max_x pairs)
    (hw : max_width < 2 ^ 31) (hx : max_x pairs ≤ 2 ^ 1023)
    (hf : ∃ f, scale_factor max_width (max_x pairs) = .finite f) :
    (∀ p ∈ pairs, 0 ≤ p.1 →
      ∃ col : ℤ, scale_cell (scale_factor max_width (max_x pairs)) (some p.1) = .returns col ∧
        0 ≤ col ∧ col ≤ max_width ∧ (p.1 = max_x pairs → col = max_width)) ∧
    (∀ pts : List (ℤ × ℤ), grid_points max_width pairs = .returns pts →
      pts.length = pairs.length ∧
      ∀ (i : Nat) (p : ℚ × ℚ) (q : ℤ × ℤ), pairs[i]? = some p → pts[i]? = some q →
        (p.1 = max_x pairs → q.1 = max_width) ∧
        (0 ≤ p.1 → 0 ≤ q.1 ∧ q.1 ≤ max_width)) ∧
    ((∀ p ∈ pairs, 0 ≤ p.1 ∧ fits_int (scale_factor max_width (max_x pairs)) p.2) →
      ∃ pts, grid_points max_width pairs = .returns pts) ∧
    (∀ (text : List Char) (fuel : Nat), reads text pairs →
      count_newlines text = pairs.length → pairs.length < fuel →
      points_array fuel (some text) max_width
        = (grid_points max_width pairs).bind fun out =>
            .returns { ret := 0, out := out, length := pairs.length }) ∧
    (∀ p ∈ pairs, p.1 ≤ max_x pairs) ∧
    (∃ p ∈ pairs, p.1 = max_x pairs) ∧
    grid_points 10 [(5, 3)] = .returns [(10, 6)] := by
  have hne : pairs ≠ [] := by
    intro e; subst e; simp [max_x] at h
  have hcol : ∀ p ∈ pairs, 0 ≤ p.1 →
      ∃ col : ℤ, scale_cell (scale_factor max_width (max_x pairs)) (some p.1) = .returns col ∧
        0 ≤ col ∧ col ≤ max_width ∧ (p.1 = max_x pairs → col = max_width) :=
    fun p hp h0 => scale_cell_column max_width (max_x pairs) p.1 hw h hx hf h0
      (le_max_x pairs p hp)
  refine ⟨hcol, ?_, ?_, fun text fuel hr hn hf => points_array_reads max_width fuel text pairs
    hr hn hf, le_max_x pairs, max_x_mem pairs hne, by decide!⟩
  · intro pts hpts
    obtain ⟨-, rfl⟩ := (grid_points_iff max_width pairs h pts).1 hpts
    refine ⟨by simp, fun i p q hp hq => ?_⟩
    rw [List.getElem?_map, hp] at hq
    simp only [Option.map_some', Option.some.injEq] at hq
    subst hq
    have hmem : p ∈ pairs := List.getElem?_mem hp
    have hcolumn : ∀ h0 : 0 ≤ p.1,
        0 ≤ grid_coordinate (scale_factor max_width (max_x pairs)) p.1 ∧
        grid_coordinate (scale_factor max_width (max_x pairs)) p.1 ≤ max_width ∧
        (p.1 = max_x pairs →
          grid_coordinate (scale_factor max_width (max_x pairs)) p.1 = max_width) := by
      intro h0
      obtain ⟨col, hc, h1, h2, h3⟩ := hcol p hmem h0
      obtain ⟨-, rfl⟩ := (scale_cell_returns _ _ _).1 hc
      exact ⟨h1, h2, h3⟩
    exact ⟨fun he => (hcolumn (by rw [he]; exact h.le)).2.2 he,
      fun h0 => ⟨(hcolumn h0).1, (hcolumn h0).2.1⟩⟩
  · intro hall
    refine ⟨_, (grid_points_iff max_width pairs h _).2 ⟨fun p hp => ⟨?_, (hall p hp).2⟩, rfl⟩⟩
    obtain ⟨col, hc, -⟩ := hcol p hp (hall p hp).1
    exact ((scale_cell_returns _ _ _).1 hc).1

/-- The amended C5 at the single pair `(5, 3)` with the canvas width 10, where the
factor is 2. -/
theorem max_x_column_witness :
    0 < max_x [(5, 3)] ∧ 10 < 2 ^ 31 ∧ max_x [(5, 3)] ≤ 2 ^ 1023 ∧
    scale_factor 10 (max_x [(5, 3)]) = .finite 2 ∧
    ∀ p ∈ [((5 : ℚ), (3 : ℚ))], 0 ≤ p.1 →
      ∃ col : ℤ, scale_cell (scale_factor (10 : ℕ) (max_x [(5, 3)])) (some p.1) = .returns col ∧
        0 ≤ col ∧ col ≤ (10 : ℕ) ∧ (p.1 = max_x [(5, 3)] → col = (10 : ℕ)) :=
  ⟨by decide!, by decide, by decide!, by decide!,
   (max_x_column 10 [(5, 3)] (by decide!) (by decide) (by decide!) ⟨2, by decide!⟩).1⟩
/-! ## The canvas -/

theorem square_blank (max_width : Nat) : square (blank_canvas max_width) max_width := by
  constructor
  · simp [blank_canvas]
  · intro col hcol
    simp only [blank_canvas] at hcol
    rw [List.eq_of_mem_replicate hcol]
    simp

theorem cell_blank (max_width c r : Nat) :
    cell (blank_canvas max_width) c r = if c < max_width ∧ r < max_width then some ' ' else none := by
  unfold cell blank_canvas
  by_cases hc : c < max_width
  · by_cases hr : r < max_width
    · simp [List.getElem?_replicate, hc, hr]
    · simp [List.getElem?_replicate, hc, hr]
  · simp [List.getElem?_replicate, hc]

theorem cell_isSome (graph : Canvas) (max_width c r : Nat) (hsq : square graph max_width)
    (hc : c < max_width) (hr : r < max_width) : ∃ ch, cell graph c r = some ch := by
  have hc1 : c < graph.length := by rw [hsq.1]; exact hc
  have hr1 : r < graph[c].length := by
    rw [hsq.2 _ (List.getElem_mem hc1)]; exact hr
  exact ⟨graph[c][r], by simp [cell, List.getElem?_eq_getElem hc1, List.getElem?_eq_getElem hr1]⟩

/-- The canvas after the store `graph[c][r] = '*'`. -/
theorem cell_set (graph : Canvas) (max_width c r : Nat) (hsq : square graph max_width)
    (hc : c < max_width) (hr : r < max_width) (c1 r1 : Nat) :
    cell (graph.set c ((graph.getD c []).set r '*')) c1 r1
      = if c1 = c ∧ r1 = r then some '*' else cell graph c1 r1 := by
  have hc1 : c < graph.length := by rw [hsq.1]; exact hc
  have hr1 : r < graph[c].length := by
    rw [hsq.2 _ (List.getElem_mem hc1)]; exact hr
  have hget : graph.getD c [] = graph[c] := by
    simp [List.getD, List.getElem?_eq_getElem hc1]
  unfold cell
  rw [hget]
  by_cases h1 : c1 = c
  · subst h1
    by_cases h2 : r1 = r
    · subst h2
      simp [List.getElem?_set, hc1, hr1]
    · have h2' : ¬ r = r1 := fun e => h2 e.symm
      simp [List.getElem?_set, hc1, h2, h2', List.getElem?_eq_getElem hc1]
  · have h1' : ¬ c = c1 := fun e => h1 e.symm
    simp [List.getElem?_set, h1, h1']

theorem square_set (graph : Canvas) (max_width c r : Nat) (hsq : square graph max_width)
    (hc : c < max_width) : square (graph.set c ((graph.getD c []).set r '*')) max_width := by
  have hc1 : c < graph.length := by rw [hsq.1]; exact hc
  constructor
  · simp [hsq.1]
  · intro col hcol
    rcases List.mem_or_eq_of_mem_set hcol with h | h
    · exact hsq.2 col h
    · subst h
      have : graph.getD c [] = graph[c] := by
        simp [List.getD, List.getElem?_eq_getElem hc1]
      rw [List.length_set, this]
      exact hsq.2 _ (List.getElem_mem hc1)

/-- Two square canvases with the same cells are the same canvas. -/
theorem canvas_ext (g1 g2 : Canvas) (max_width : Nat) (h1 : square g1 max_width)
    (h2 : square g2 max_width)
    (h : ∀ c r : Nat, c < max_width → r < max_width → cell g1 c r = cell g2 c r) : g1 = g2 := by
  apply List.ext_getElem (by rw [h1.1, h2.1])
  intro c hc1 hc2
  have hl1 : g1[c].length = max_width := h1.2 _ (List.getElem_mem hc1)
  have hl2 : g2[c].length = max_width := h2.2 _ (List.getElem_mem hc2)
  apply List.ext_getElem (by rw [hl1, hl2])
  intro r hr1 hr2
  have := h c r (by rw [← h1.1]; exact hc1) (by rw [← hl1]; exact hr1)
  simpa [cell, List.getElem?_eq_getElem hc1, List.getElem?_eq_getElem hc2,
    List.getElem?_eq_getElem hr1, List.getElem?_eq_getElem hr2] using this

theorem foldr_max_comm (a b : ℤ) : ∀ (l : List ℤ),
    l.foldr max (max a b) = max b (l.foldr max a)
  | [] => by simp [max_comm]
  | x :: l => by
    simp only [List.foldr_cons, foldr_max_comm a b l]
    exact max_left_comm _ _ _

/-- The value of `greatest_y` after the plotting loop. -/
theorem track_greatest_y : ∀ (pts : List (ℤ × ℤ)) (gy : ℤ),
    pts.foldl (fun gy p => if p.2 > gy then p.2 else gy) gy = (pts.map fun p => p.2).foldr max gy
  | [], _ => rfl
  | p :: ps, gy => by
    have : (if p.2 > gy then p.2 else gy) = max gy p.2 := by
      simp only [max_def]
      by_cases h : gy ≤ p.2 <;> by_cases h2 : p.2 > gy <;> simp [h, h2] <;> omega
    rw [List.foldl_cons, track_greatest_y ps, this, List.map_cons, List.foldr_cons,
      foldr_max_comm]

theorem rasterize_loop_eq (max_width : Nat) : ∀ (pts : List (ℤ × ℤ)) (graph : Canvas) (gy : ℤ),
    square graph max_width → (∀ p ∈ pts, in_canvas max_width p) →
    ∃ g1, rasterize_loop max_width pts graph gy
        = .returns (g1, pts.foldl (fun gy p => if p.2 > gy then p.2 else gy) gy) ∧
      square g1 max_width ∧
      ∀ c r : Nat, cell g1 c r = if ((c : ℤ), (r : ℤ)) ∈ pts then some '*' else cell graph c r
  | [], graph, gy, hsq, _ => ⟨graph, rfl, hsq, by simp⟩
  | p :: ps, graph, gy, hsq, hin => by
    have hp : in_canvas max_width p := hin p (List.mem_cons_self _ _)
    have hc : p.1.toNat < max_width := by
      have := hp.1; have := hp.2.1; omega
    have hr : p.2.toNat < max_width := by
      have := hp.2.2.1; have := hp.2.2.2; omega
    obtain ⟨g1, h1, h2, h3⟩ := rasterize_loop_eq max_width ps
      (graph.set p.1.toNat ((graph.getD p.1.toNat []).set p.2.toNat '*'))
      (if p.2 > gy then p.2 else gy) (square_set graph max_width _ _ hsq hc)
      (fun q hq => hin q (List.mem_cons_of_mem _ hq))
    refine ⟨g1, ?_, h2, ?_⟩
    · simp only [rasterize_loop, plot, hp, if_true, Outcome.bind, h1, List.foldl_cons]
    · intro c r
      rw [h3 c r, cell_set graph max_width _ _ hsq hc hr]
      have hiff : ((c : ℤ), (r : ℤ)) = p ↔ c = p.1.toNat ∧ r = p.2.toNat := by
        have := hp.1; have := hp.2.2.1
        constructor
        · intro e; rw [← e]; simp
        · intro e; ext <;> simp <;> omega
      by_cases hm : ((c : ℤ), (r : ℤ)) ∈ ps
      · simp [hm]
      · by_cases he : ((c : ℤ), (r : ℤ)) = p
        · have hmem : ((c : ℤ), (r : ℤ)) ∈ p :: ps := by
            rw [he]; exact List.mem_cons_self _ _
          rw [if_neg hm, if_pos (hiff.1 he), if_pos hmem]
        · have hn : ¬ (c = p.1.toNat ∧ r = p.2.toNat) := fun e => he (hiff.2 e)
          have hmem : ¬ ((c : ℤ), (r : ℤ)) ∈ p :: ps := by
            intro hx
            rcases List.mem_cons.1 hx with h5 | h5
            · exact he h5
            · exact hm h5
          rw [if_neg hm, if_neg hn, if_neg hmem]

theorem rasterize_eq (max_width : Nat) (pts : List (ℤ × ℤ))
    (h : ∀ p ∈ pts, in_canvas max_width p) :
    ∃ g, rasterize max_width pts = .returns (g, max_row pts) ∧ square g max_width ∧
      ∀ c r : Nat, c < max_width → r < max_width →
        cell g c r = some (if ((c : ℤ), (r : ℤ)) ∈ pts then '*' else ' ') := by
  obtain ⟨g, h1, h2, h3⟩ := rasterize_loop_eq max_width pts (blank_canvas max_width) 0
    (square_blank max_width) h
  refine ⟨g, ?_, h2, ?_⟩
  · rw [rasterize, h1, track_greatest_y, max_row]
  · intro c r hc hr
    rw [h3 c r, cell_blank]
    by_cases hm : ((c : ℤ), (r : ℤ)) ∈ pts <;> simp [hm, hc, hr]

theorem max_row_le_iff (m : ℤ) : ∀ (pts : List (ℤ × ℤ)),
    max_row pts ≤ m ↔ 0 ≤ m ∧ ∀ p ∈ pts, p.2 ≤ m
  | [] => by simp [max_row]
  | p :: ps => by
    have ih := max_row_le_iff m ps
    simp only [max_row, List.map_cons, List.foldr_cons, max_le_iff, List.mem_cons,
      forall_eq_or_imp] at ih ⊢
    rw [ih]
    tauto

theorem max_row_congr (pts1 pts2 : List (ℤ × ℤ)) (h : ∀ p, p ∈ pts1 ↔ p ∈ pts2) :
    max_row pts1 = max_row pts2 := by
  apply le_antisymm
  · rw [max_row_le_iff]
    have := (max_row_le_iff (max_row pts2) pts2).1 le_rfl
    exact ⟨this.1, fun p hp => this.2 p ((h p).1 hp)⟩
  · rw [max_row_le_iff]
    have := (max_row_le_iff (max_row pts1) pts1).1 le_rfl
    exact ⟨this.1, fun p hp => this.2 p ((h p).2 hp)⟩


theorem max_row_attained : ∀ (pts : List (ℤ × ℤ)),
    max_row pts = 0 ∨ ∃ p ∈ pts, p.2 = max_row pts
  | [] => Or.inl rfl
  | p :: ps => by
    have hcons : max_row (p :: ps) = max p.2 (max_row ps) := rfl
    rw [hcons]
    rcases le_total p.2 (max_row ps) with hle | hle
    · rw [max_eq_right hle]
      rcases max_row_attained ps with h | ⟨q, hq, he⟩
      · exact Or.inl h
      · exact Or.inr ⟨q, List.mem_cons_of_mem _ hq, he⟩
    · rw [max_eq_left hle]
      exact Or.inr ⟨p, List.mem_cons_self _ _, rfl⟩

/-- C8: for every sequence of grid points inside the canvas, the plotting loop of
`main` ends with a canvas whose cell `graph[c][r]` is `'*'` exactly when `(c, r)`
occurs in the sequence and `' '` exactly when it does not, and with `greatest_y`
the greatest of `0` and the rows of the sequence. -/
theorem rasterize_cells (max_width : Nat) (pts : List (ℤ × ℤ))
    (h : ∀ p ∈ pts, in_canvas max_width p) :
    ∃ g gy, rasterize max_width pts = .returns (g, gy) ∧ square g max_width ∧
      (∀ c r : Nat, c < max_width → r < max_width →
        (cell g c r = some '*' ↔ ((c : ℤ), (r : ℤ)) ∈ pts) ∧
        (cell g c r = some ' ' ↔ ((c : ℤ), (r : ℤ)) ∉ pts)) ∧
      gy = (pts.map fun p => p.2).foldr max 0 ∧
      0 ≤ gy ∧ (∀ p ∈ pts, p.2 ≤ gy) ∧ (gy = 0 ∨ ∃ p ∈ pts, p.2 = gy) := by
  obtain ⟨g, h1, h2, h3⟩ := rasterize_eq max_width pts h
  have hle := (max_row_le_iff (max_row pts) pts).1 le_rfl
  refine ⟨g, max_row pts, h1, h2, ?_, rfl, hle.1, hle.2, max_row_attained pts⟩
  intro c r hc hr
  rw [h3 c r hc hr]
  by_cases hm : ((c : ℤ), (r : ℤ)) ∈ pts <;> simp [hm]

/-- The claim C8 for the points `(1,2), (0,0)` on a canvas of width 3. -/
theorem rasterize_cells_witness :
    (∀ p ∈ [((1 : ℤ), (2 : ℤ)), (0, 0)], in_canvas 3 p) ∧
    ∃ g gy, rasterize 3 [(1, 2), (0, 0)] = .returns (g, gy) ∧ square g 3 ∧
      (∀ c r : Nat, c < 3 → r < 3 →
        (cell g c r = some '*' ↔ ((c : ℤ), (r : ℤ)) ∈ [((1 : ℤ), (2 : ℤ)), (0, 0)]) ∧
        (cell g c r = some ' ' ↔ ((c : ℤ), (r : ℤ)) ∉ [((1 : ℤ), (2 : ℤ)), (0, 0)])) ∧
      gy = ([((1 : ℤ), (2 : ℤ)), (0, 0)].map fun p => p.2).foldr max 0 ∧
      0 ≤ gy ∧ (∀ p ∈ [((1 : ℤ), (2 : ℤ)), (0, 0)], p.2 ≤ gy) ∧
      (gy = 0 ∨ ∃ p ∈ [((1 : ℤ), (2 : ℤ)), (0, 0)], p.2 = gy) :=
  ⟨by decide, rasterize_cells 3 [(1, 2), (0, 0)] (by decide)⟩

/-- C9: the canvas and `greatest_y` left by the plotting loop depend only on the
set of the grid points (all inside the canvas): two sequences with the same
elements give the same canvas and the same `greatest_y`; in particular plotting
once more a point that is already in the sequence changes nothing. -/
theorem rasterize_set (max_width : Nat) (pts1 pts2 : List (ℤ × ℤ))
    (h1 : ∀ p ∈ pts1, in_canvas max_width p) (h2 : ∀ p ∈ pts2, in_canvas max_width p)
    (hs : ∀ p, p ∈ pts1 ↔ p ∈ pts2) :
    (∃ g gy, rasterize max_width pts1 = .returns (g, gy) ∧
      rasterize max_width pts2 = .returns (g, gy)) ∧
    (∀ q ∈ pts1, rasterize max_width (pts1 ++ [q]) = rasterize max_width pts1) := by
  have key : ∀ (l1 l2 : List (ℤ × ℤ)), (∀ p ∈ l1, in_canvas max_width p) →
      (∀ p ∈ l2, in_canvas max_width p) → (∀ p, p ∈ l1 ↔ p ∈ l2) →
      ∃ g gy, rasterize max_width l1 = .returns (g, gy) ∧
        rasterize max_width l2 = .returns (g, gy) := by
    intro l1 l2 hl1 hl2 hl
    obtain ⟨g1, e1, s1, c1⟩ := rasterize_eq max_width l1 hl1
    obtain ⟨g2, e2, s2, c2⟩ := rasterize_eq max_width l2 hl2
    have hg : g1 = g2 := by
      apply canvas_ext g1 g2 max_width s1 s2
      intro c r hc hr
      rw [c1 c r hc hr, c2 c r hc hr]
      by_cases hm : ((c : ℤ), (r : ℤ)) ∈ l1
      · rw [if_pos hm, if_pos ((hl _).1 hm)]
      · rw [if_neg hm, if_neg (fun hx => hm ((hl _).2 hx))]
    exact ⟨g1, max_row l1, e1, by rw [e2, ← hg, max_row_congr l1 l2 hl]⟩
  refine ⟨key pts1 pts2 h1 h2 hs, fun q hq => ?_⟩
  obtain ⟨g, gy, e1, e2⟩ := key (pts1 ++ [q]) pts1
    (fun p hp => by
      rcases List.mem_append.1 hp with h | h
      · exact h1 p h
      · rw [List.mem_singleton.1 h]; exact h1 q hq)
    h1
    (fun p => by
      constructor
      · intro hp
        rcases List.mem_append.1 hp with h | h
        · exact h
        · rw [List.mem_singleton.1 h]; exact hq
      · intro hp
        exact List.mem_append_left _ hp)
  rw [e1, e2]

/-- The claim C9 for the sequences `(1,2), (0,0)` and `(0,0), (1,2), (0,0)` on a
canvas of width 3. -/
theorem rasterize_set_witness :
    (∀ p ∈ [((1 : ℤ), (2 : ℤ)), (0, 0)], in_canvas 3 p) ∧
    (∀ p ∈ [((0 : ℤ), (0 : ℤ)), (1, 2), (0, 0)], in_canvas 3 p) ∧
    (∀ p, p ∈ [((1 : ℤ), (2 : ℤ)), (0, 0)] ↔ p ∈ [((0 : ℤ), (0 : ℤ)), (1, 2), (0, 0)]) ∧
    (∃ g gy, rasterize 3 [(1, 2), (0, 0)] = .returns (g, gy) ∧
      rasterize 3 [(0, 0), (1, 2), (0, 0)] = .returns (g, gy)) :=
  ⟨by decide, by decide, by intro p; simp [or_comm],
    (rasterize_set 3 [(1, 2), (0, 0)] [(0, 0), (1, 2), (0, 0)] (by decide) (by decide)
      (by intro p; simp [or_comm])).1⟩

/-! ## Printing -/

theorem read_cells_eq (graph : Canvas) (max_width i : Nat) (hsq : square graph max_width)
    (hi : i < max_width) : ∀ (js : List Nat), (∀ j ∈ js, j < max_width) →
    read_cells graph i js = .returns (js.map fun j => (cell graph j i).getD ' ')
  | [], _ => rfl
  | j :: js, h => by
    obtain ⟨ch, hch⟩ := cell_isSome graph max_width j i hsq (h j (List.mem_cons_self _ _)) hi
    simp only [read_cells, hch, Outcome.bind, List.map_cons, Option.getD_some,
      read_cells_eq graph max_width i hsq hi js (fun k hk => h k (List.mem_cons_of_mem _ hk))]

theorem render_rows_eq (graph : Canvas) (max_width : Nat) (hsq : square graph max_width) :
    ∀ (n : Nat), n ≤ max_width →
    render_rows graph max_width n = .returns ((List.range n).reverse.map fun i =>
      (List.range max_width).map fun j => (cell graph j i).getD ' ')
  | 0, _ => rfl
  | n + 1, h => by
    have hrow : render_row graph max_width n = .returns
        ((List.range max_width).map fun j => (cell graph j n).getD ' ') :=
      read_cells_eq graph max_width n hsq (by omega) _ (fun j hj => List.mem_range.1 hj)
    simp only [render_rows, hrow, Outcome.bind, render_rows_eq graph max_width hsq n (by omega),
      List.range_succ, List.reverse_append, List.reverse_cons, List.reverse_nil,
      List.nil_append, List.singleton_append, List.map_cons]

/-- C10: for every canvas of `canvas_width` columns of `canvas_width` cells and
every `greatest_y` with `greatest_y + 2 < canvas_width`, the printing loop of `main`
prints `greatest_y + 3` row lines of `canvas_width` characters each; the line number
`k` (from 0) is the row `greatest_y + 2 - k`, and its character number `j` is
`graph[j][greatest_y + 2 - k]`; the text printed is these lines, a newline after
each, and two more newlines. -/
theorem render_lines (graph : Canvas) (max_width greatest_y : Nat)
    (hsq : square graph max_width) (h : greatest_y + 2 < max_width) :
    ∃ ls, render graph max_width greatest_y = .returns ls ∧
      ls.length = greatest_y + 3 ∧
      (∀ l ∈ ls, l.length = max_width) ∧
      (∀ k j : Nat, k < greatest_y + 3 → j < max_width →
        ∃ ch, cell graph j (greatest_y + 2 - k) = some ch ∧
          (ls[k]?.bind fun l => l[j]?) = some ch) ∧
      print_lines ls = ((List.range (greatest_y + 3)).map fun k =>
        ((List.range max_width).map fun j =>
          (cell graph j (greatest_y + 2 - k)).getD ' ') ++ ['\n']).flatten ++ ['\n', '\n'] := by
  have hn : ((greatest_y : ℤ) + 3).toNat = greatest_y + 3 := by omega
  have hr := render_rows_eq graph max_width hsq (greatest_y + 3) (by omega)
  have hrev : (List.range (greatest_y + 3)).reverse
      = (List.range (greatest_y + 3)).map fun k => greatest_y + 2 - k := by
    apply List.ext_getElem (by simp)
    intro k hk1 hk2
    simp only [List.length_reverse, List.length_range] at hk1
    simp only [List.getElem_reverse, List.getElem_range, List.length_range, List.getElem_map]
    omega
  refine ⟨_, by rw [render, hn, hr], by simp, ?_, ?_, ?_⟩
  · intro l hl
    simp only [List.mem_map] at hl
    obtain ⟨i, _, rfl⟩ := hl
    simp
  · intro k j hk hj
    obtain ⟨ch, hch⟩ := cell_isSome graph max_width j (greatest_y + 2 - k) hsq hj (by omega)
    refine ⟨ch, hch, ?_⟩
    rw [hrev]
    simp [List.getElem?_map, List.getElem?_range, hk, hj, hch]
  · rw [print_lines, hrev]
    simp [List.map_map, Function.comp_def]

/-- The claim C10 for a canvas of width 3 with markers at `(0,0)` and `(1,1)`, and
`greatest_y = 0`. -/
theorem render_lines_witness :
    square [['*', ' ', ' '], [' ', '*', ' '], [' ', ' ', ' ']] 3 ∧ 0 + 2 < 3 ∧
    ∃ ls, render [['*', ' ', ' '], [' ', '*', ' '], [' ', ' ', ' ']] 3 (0 : ℕ) = .returns ls ∧
      ls.length = 0 + 3 ∧
      (∀ l ∈ ls, l.length = 3) ∧
      (∀ k j : Nat, k < 0 + 3 → j < 3 →
        ∃ ch, cell [['*', ' ', ' '], [' ', '*', ' '], [' ', ' ', ' ']] j (0 + 2 - k) = some ch ∧
          (ls[k]?.bind fun l => l[j]?) = some ch) ∧
      print_lines ls = ((List.range (0 + 3)).map fun k =>
        ((List.range 3).map fun j =>
          (cell [['*', ' ', ' '], [' ', '*', ' '], [' ', ' ', ' ']] j (0 + 2 - k)).getD ' ')
            ++ ['\n']).flatten ++ ['\n', '\n'] :=
  ⟨⟨rfl, by decide⟩, by decide,
    render_lines [['*', ' ', ' '], [' ', '*', ' '], [' ', ' ', ' ']] 3 0 ⟨rfl, by decide⟩
      (by decide)⟩

/-! ## A file without numeric tokens -/

theorem points_array_empty (fuel max_width : Nat) :
    points_array (fuel + 1) (some []) max_width = .returns { ret := 0, out := [], length := 0 } :=
  rfl

theorem render_blank (max_width : Nat) (h : 3 ≤ max_width) :
    render (blank_canvas max_width) max_width 0
      = .returns (List.replicate 3 (List.replicate max_width ' ')) := by
  have hr := render_rows_eq (blank_canvas max_width) max_width (square_blank max_width) 3 h
  have hrow : ∀ i, i < 3 → ((List.range max_width).map fun j =>
      (cell (blank_canvas max_width) j i).getD ' ') = List.replicate max_width ' ' := by
    intro i hi
    apply List.ext_getElem (by simp)
    intro j hj1 hj2
    simp only [List.length_map, List.length_range] at hj1
    have hi' : i < max_width := by omega
    simp [cell_blank, hj1, hi']
  have h3 : ((0 : ℤ) + 3).toNat = 3 := rfl
  rw [render, h3, hr]
  simp [List.range_succ, List.replicate_succ, hrow]

/-- The run of `main` on a file that is not empty and has no token starting with
a digit. -/
theorem main_no_tokens (max_width fuel : Nat) (input : List Char) (hne : input ≠ [])
    (hk : kept_tokens input = []) (hw : 3 ≤ max_width) :
    main_with max_width (fuel + 1) 2 (some input) true
      = .returns ⟨0, print_lines (List.replicate 3 (List.replicate max_width ' '))⟩ := by
  have hs : sanitize input = some [] := by
    rw [sanitize_eq, hk]; rfl
  have hras : rasterize max_width [] = .returns (blank_canvas max_width, 0) := rfl
  simp [main_with, is_file, sanitize_file, hs, hne, Outcome.bind, points_array_empty, hras,
    render_blank max_width hw]

/-- The claim C7 fails on the file `NACA`: no token is kept, the sanitized stream
is empty, `points_array` returns 0 with no grid point, and `main` prints three
blank rows and ends with status 0. -/
theorem main_no_numeric_token :
    sanitize "NACA\n".toList = some [] ∧
    points_array 1 (some []) 200 = .returns { ret := 0, out := [], length := 0 } ∧
    main 1 2 (some "NACA\n".toList) true
      = .returns ⟨0, print_lines (List.replicate 3 (List.replicate 200 ' '))⟩ :=
  ⟨by decide, rfl, main_no_tokens 200 0 "NACA\n".toList (by decide) (by decide) (by decide)⟩

/-- C7 (amended): when the input file is not empty and has no token starting with
a digit, the sanitized stream is empty, `points_array` reads no pair and returns 0
with `*length = 0` and no grid point, and `main` (for a canvas width of at least 3,
such as its 200) prints three rows of `canvas_width` spaces and the closing
newlines, and ends with status 0. -/
theorem no_tokens_run (max_width fuel : Nat) (input : List Char) (hne : input ≠ [])
    (hk : kept_tokens input = []) (hf : 0 < fuel) (hw : 3 ≤ max_width) :
    sanitize input = some [] ∧
    points_array fuel (some []) max_width = .returns { ret := 0, out := [], length := 0 } ∧
    main_with max_width fuel 2 (some input) true
      = .returns ⟨0, print_lines (List.replicate 3 (List.replicate max_width ' '))⟩ ∧
    main fuel 2 (some input) true
      = .returns ⟨0, print_lines (List.replicate 3 (List.replicate 200 ' '))⟩ := by
  obtain ⟨f, rfl⟩ : ∃ f, fuel = f + 1 := ⟨fuel - 1, by omega⟩
  refine ⟨?_, rfl, main_no_tokens max_width f input hne hk hw,
    main_no_tokens 200 f input hne hk (by decide)⟩
  rw [sanitize_eq, hk]; rfl

/-- The amended C7 for the file `NACA airfoil` and the width 200. -/
theorem no_tokens_run_witness :
    "NACA airfoil\n".toList ≠ [] ∧ kept_tokens "NACA airfoil\n".toList = [] ∧
    main 1 2 (some "NACA airfoil\n".toList) true
      = .returns ⟨0, print_lines (List.replicate 3 (List.replicate 200 ' '))⟩ :=
  ⟨by decide, by decide,
    (no_tokens_run 200 1 "NACA airfoil\n".toList (by decide) (by decide) (by decide)
      (by decide)).2.2.2⟩

/-! ## The greatest `x` on the edge of the canvas -/

/-- A run of `main` in which the plotting loop stores outside the canvas. -/
theorem main_undefined (max_width fuel n : Nat) (input stream : List Char)
    (pts : List (ℤ × ℤ)) (hne : input ≠ []) (hs : sanitize input = some stream)
    (hp : points_array fuel (some stream) max_width
      = .returns { ret := 0, out := pts, length := n })
    (hr : rasterize max_width (pts.take n) = .undefined) :
    main_with max_width fuel 2 (some input) true = .undefined := by
  simp [main_with, is_file, sanitize_file, hne, hs, hp, Outcome.bind, hr]

set_option maxRecDepth 4000 in
/-- C6: for the file `5.0 3.0` the program computes the grid point `(200, 120)`,
whose column is the canvas width 200: it is not inside the canvas, and the store
`graph[200][120]` of the plotting loop is outside the array. -/
theorem column_outside_canvas :
    sanitize "5.0 3.0".toList = some "5.0 3.0\n".toList ∧
    points_array 2 (some "5.0 3.0\n".toList) 200
      = .returns { ret := 0, out := [(200, 120)], length := 1 } ∧
    ¬ in_canvas 200 (200, 120) ∧
    main 2 2 (some "5.0 3.0".toList) true = .undefined := by
  have hs : sanitize "5.0 3.0".toList = some "5.0 3.0\n".toList := by decide
  have hp : points_array 2 (some "5.0 3.0\n".toList) 200
      = .returns { ret := 0, out := [(200, 120)], length := 1 } := by
    decide!
  have hin : ¬ in_canvas 200 (200, 120) := by decide
  have hr : rasterize 200 ([((200 : ℤ), (120 : ℤ))].take 1) = .undefined := by
    have hpl : plot 200 (blank_canvas 200) (200, 120) = .undefined := by
      rw [plot, if_neg hin]
    simp only [List.take, rasterize, rasterize_loop, hpl, Outcome.bind]
  exact ⟨hs, hp, hin, main_undefined 200 2 1 _ _ _ (by decide) hs hp hr⟩

/-! ## Reading the sanitized stream -/

theorem isspace_cases (d : Char) (h : isspace d = true) :
    d = ' ' ∨ d = '\t' ∨ d = '\n' ∨ d = '\x0b' ∨ d = '\x0c' ∨ d = '\r' := by
  simpa [isspace, or_assoc] using h

theorem takeWhile_append_stop (p : Char → Bool) (d : Char) (hd : p d = false) :
    ∀ (a r : List Char), (a ++ d :: r).takeWhile p = a.takeWhile p
  | [], r => by simp [List.takeWhile_cons, hd]
  | c :: a, r => by
    by_cases hc : p c = true
    · simp [List.takeWhile_cons, hc, takeWhile_append_stop p d hd a r]
    · simp [List.takeWhile_cons, hc]

theorem dropWhile_append_stop (p : Char → Bool) (d : Char) (hd : p d = false) :
    ∀ (a r : List Char), (a ++ d :: r).dropWhile p = a.dropWhile p ++ d :: r
  | [], r => by simp [List.dropWhile_cons, hd]
  | c :: a, r => by
    by_cases hc : p c = true
    · simp [List.dropWhile_cons, hc, dropWhile_append_stop p d hd a r]
    · simp [List.dropWhile_cons, hc]

theorem read_sign_other (c : Char) (l : List Char) (h1 : c ≠ '-') (h2 : c ≠ '+') :
    read_sign (c :: l) = (false, c :: l) := by
  unfold read_sign
  split
  · rename_i heq; simp at heq; exact absurd heq.1 h1
  · rename_i heq; simp at heq; exact absurd heq.1 h2
  · rfl

theorem read_sign_append (d : Char) (hd : isspace d = true) (a r : List Char) :
    read_sign (a ++ d :: r) = ((read_sign a).1, (read_sign a).2 ++ d :: r) := by
  cases a with
  | nil =>
    rcases isspace_cases d hd with h | h | h | h | h | h <;> subst h <;> rfl
  | cons c a =>
    by_cases h1 : c = '-'
    · subst h1; rfl
    · by_cases h2 : c = '+'
      · subst h2; rfl
      · rw [List.cons_append, read_sign_other c _ h1 h2, read_sign_other c _ h1 h2]
        rfl


theorem unmodelled_start_append (d : Char) (hd : isspace d = true) (a r : List Char) :
    unmodelled_start (a ++ d :: r) = unmodelled_start a := by
  match a with
  | [] =>
    rcases isspace_cases d hd with h | h | h | h | h | h <;> subst h <;> rfl
  | [c] =>
    rcases isspace_cases d hd with h | h | h | h | h | h <;> subst h <;>
      (simp only [List.cons_append, List.nil_append]; unfold unmodelled_start; split <;> simp_all)
  | c :: c2 :: a =>
    simp only [List.cons_append]
    unfold unmodelled_start
    split <;> simp_all

theorem isDigit_of_isspace (d : Char) (hd : isspace d = true) : Char.isDigit d = false := by
  rcases isspace_cases d hd with h | h | h | h | h | h <;> subst h <;> rfl

theorem read_exponent_append (d : Char) (hd : isspace d = true) (a r : List Char) :
    read_exponent (a ++ d :: r)
      = (read_exponent a).map fun er => (er.1, er.2 ++ d :: r) := by
  have hdig := isDigit_of_isspace d hd
  cases a with
  | nil =>
    rcases isspace_cases d hd with h | h | h | h | h | h <;> subst h <;> rfl
  | cons c a =>
    rw [List.cons_append]
    unfold read_exponent
    by_cases hc : c = 'e' ∨ c = 'E'
    · simp only [hc, if_true, read_sign_append d hd, takeWhile_append_stop _ d hdig,
        dropWhile_append_stop _ d hdig]
      by_cases hds : ((read_sign a).2.takeWhile Char.isDigit).isEmpty = true
      · simp [hds]
      · simp [hds]
    · simp [hc]

theorem dropWhile_append_of_ne_nil (p : Char → Bool) :
    ∀ (a b : List Char), a.dropWhile p ≠ [] → (a ++ b).dropWhile p = a.dropWhile p ++ b
  | [], _, h => absurd rfl h
  | c :: a, b, h => by
    by_cases hc : p c = true
    · simp only [List.cons_append, List.dropWhile_cons, hc, if_true] at h ⊢
      exact dropWhile_append_of_ne_nil p a b h
    · simp [List.dropWhile_cons, hc]

/-- Scanning a number in front of white space: the result is the one of scanning
the text before the white space, with the white space and what follows left
unread. -/
theorem scan_lf_append (d : Char) (hd : isspace d = true) (t r : List Char)
    (ht : t.dropWhile isspace ≠ []) :
    scan_lf (t ++ d :: r) = (scan_lf t).extend (d :: r) := by
  have hdig := isDigit_of_isspace d hd
  have h1 := dropWhile_append_of_ne_nil isspace t (d :: r) ht
  cases hu : t.dropWhile isspace with
  | nil => exact absurd hu ht
  | cons c cs =>
    rw [hu] at h1
    unfold scan_lf
    rw [h1, hu]
    simp only [List.cons_append]
    rw [← List.cons_append, read_sign_append d hd, unmodelled_start_append d hd]
    simp only [takeWhile_append_stop _ d hdig, dropWhile_append_stop _ d hdig]
    generalize (read_sign (c :: cs)).2 = s2
    generalize (read_sign (c :: cs)).1 = b
    generalize List.takeWhile Char.isDigit s2 = ip
    generalize List.dropWhile Char.isDigit s2 = s3
    by_cases hun : unmodelled_start s2 = true
    · simp [hun, Conversion.extend]
    · simp only [hun]
      rcases s3 with _ | ⟨c1, s3⟩
      · have hnil : ([] : List Char) ++ d :: r = d :: r := rfl
        rw [hnil]
        rcases isspace_cases d hd with h | h | h | h | h | h <;> subst h <;>
          (by_cases hip : ip.isEmpty = true <;>
            simp [hip, read_exponent, Conversion.extend])
      · by_cases hdot : c1 = '.'
        · subst hdot
          simp only [List.cons_append, takeWhile_append_stop _ d hdig,
            dropWhile_append_stop _ d hdig, read_exponent_append d hd]
          by_cases hemp : (ip.isEmpty && (List.takeWhile Char.isDigit s3).isEmpty) = true
          · simp [hemp, Conversion.extend]
          · simp only [hemp]
            cases read_exponent (List.dropWhile Char.isDigit s3) with
            | none => simp [Conversion.extend]
            | some er => simp [Conversion.extend]
        · rw [List.cons_append]
          delta scan_lf.match_1
          simp only [hdot, ↓reduceDIte]
          rw [← List.cons_append, read_exponent_append d hd]
          by_cases hip : ip = []
          · simp [hip, Conversion.extend]
          · cases read_exponent (c1 :: s3) with
            | none => simp [hip, Conversion.extend]
            | some er => simp [hip, Conversion.extend]

theorem scan_lf_skip (d : Char) (hd : isspace d = true) (s : List Char) :
    scan_lf (d :: s) = scan_lf s := by
  unfold scan_lf
  rw [List.dropWhile_cons, if_pos hd]

theorem reads_skip (d : Char) (hd : isspace d = true) (s : List Char) :
    ∀ (ps : List (ℚ × ℚ)), reads s ps → reads (d :: s) ps
  | [], h => by
    simp only [reads] at h ⊢
    rw [scan_lf_skip d hd, h]
  | (x, y) :: ps, h => by
    simp only [reads] at h ⊢
    rw [scan_lf_skip d hd]
    exact h

theorem token_value_scan (t : List Char) (v : ℚ) (h : token_value t = some v) :
    scan_lf t = .value v [] ∧ t.dropWhile isspace ≠ [] := by
  unfold token_value at h
  split at h
  · rename_i w heq
    simp only [Option.some.injEq] at h
    subst h
    refine ⟨heq, ?_⟩
    intro hnil
    unfold scan_lf at heq
    rw [hnil] at heq
    simp at heq
  · simp at h

/-- A token that is a decimal number, followed by white space, is read as its
value, and the white space is left unread. -/
theorem scan_lf_token (t : List Char) (v : ℚ) (h : token_value t = some v)
    (d : Char) (hd : isspace d = true) (r : List Char) :
    scan_lf (t ++ d :: r) = .value v (d :: r) := by
  obtain ⟨h1, h2⟩ := token_value_scan t v h
  rw [scan_lf_append d hd t r h2, h1]
  rfl

/-- The stream made of an even number of tokens that are decimal numbers is read
by `fscanf` as the pairs of their values. -/
theorem reads_repair : ∀ (toks : List (List Char)) (vals : List ℚ) (n : Nat),
    List.Forall₂ (fun t v => token_value t = some v) toks vals →
    toks.length % 2 = 0 → n % 2 = 0 → reads (repair_from n toks) (pair_up vals)
  | [], _, n, h, _, _ => by
    cases h
    simp only [repair_from_nil, pair_up, reads]
    rfl
  | [_], _, _, _, hl, _ => by simp at hl
  | a :: b :: rest, vals, n, h, hl, hn => by
    obtain ⟨va, vs1, ha, h2, rfl⟩ := List.forall₂_cons_left_iff.1 h
    obtain ⟨vb, vrest, hb, h3, rfl⟩ := List.forall₂_cons_left_iff.1 h2
    have hn1 : ¬ ((n + 1) % 2 = 0) := by omega
    have ih := reads_repair rest vrest (n + 1 + 1) h3
      (by simp only [List.length_cons] at hl; omega) (by omega)
    rw [repair_from_cons, repair_from_cons]
    simp only [separator, hn, hn1, if_true, if_false, pair_up, reads]
    refine ⟨_, _, scan_lf_token a va ha ' ' (by decide) _, ?_, reads_skip '\n' (by decide) _ _ ih⟩
    rw [scan_lf_skip ' ' (by decide)]
    exact scan_lf_token b vb hb '\n' (by decide) _

theorem count_newlines_foldl : ∀ (s : List Char) (k : Nat),
    s.foldl (fun lines_in_file c => if c = '\n' then lines_in_file + 1 else lines_in_file) k
      = k + count_newlines s
  | [], k => by simp [count_newlines]
  | c :: s, k => by
    unfold count_newlines
    rw [List.foldl_cons, List.foldl_cons, count_newlines_foldl s,
      count_newlines_foldl s (if c = '\n' then 0 + 1 else 0)]
    by_cases hc : c = '\n'
    · simp only [hc, if_true]; omega
    · simp only [hc, if_false]; omega

theorem count_newlines_cons (c : Char) (s : List Char) :
    count_newlines (c :: s) = (if c = '\n' then 1 else 0) + count_newlines s := by
  conv_lhs => rw [count_newlines, List.foldl_cons, count_newlines_foldl]

theorem count_newlines_append : ∀ (a b : List Char),
    count_newlines (a ++ b) = count_newlines a + count_newlines b
  | [], b => by simp [count_newlines]
  | c :: a, b => by
    rw [List.cons_append, count_newlines_cons, count_newlines_cons, count_newlines_append a b]
    omega

theorem count_newlines_none : ∀ (t : List Char), (∀ c ∈ t, c ≠ '\n') → count_newlines t = 0
  | [], _ => rfl
  | c :: t, h => by
    rw [count_newlines_cons, if_neg (h c (List.mem_cons_self _ _)),
      count_newlines_none t (fun x hx => h x (List.mem_cons_of_mem _ hx))]

theorem count_newlines_token (t : List Char) (h : KeptToken t) : count_newlines t = 0 := by
  apply count_newlines_none
  intro c hc e
  exact h.no_newline c hc (by simp [e])

/-- The stream of `N` kept tokens has `N / 2` newline characters. -/
theorem count_newlines_repair : ∀ (toks : List (List Char)) (n : Nat), n % 2 = 0 →
    (∀ t ∈ toks, KeptToken t) → count_newlines (repair_from n toks) = toks.length / 2
  | [], n, _, _ => by simp [repair_from_nil, count_newlines]
  | [a], n, hn, h => by
    rw [repair_from_cons, repair_from_nil, count_newlines_append,
      count_newlines_token a (h a (by simp))]
    simp [separator, hn, count_newlines]
  | a :: b :: rest, n, hn, h => by
    have hn1 : ¬ ((n + 1) % 2 = 0) := by omega
    rw [repair_from_cons, repair_from_cons, count_newlines_append, count_newlines_cons,
      count_newlines_append, count_newlines_cons,
      count_newlines_token a (h a (by simp)), count_newlines_token b (h b (by simp)),
      count_newlines_repair rest (n + 1 + 1) (by omega) (fun t ht => h t (by simp [ht]))]
    simp only [separator, hn, hn1, if_true, if_false, List.length_cons]
    have h1 : ¬ (' ' = '\n') := by decide
    simp only [h1, if_false, if_true]
    omega

theorem pair_up_length : ∀ (vals : List ℚ), (pair_up vals).length = vals.length / 2
  | [] => rfl
  | [_] => by simp [pair_up]
  | _ :: _ :: rest => by
    simp only [pair_up, List.length_cons, pair_up_length rest]
    omega

/-- The run of `points_array` on the stream of an even number of kept tokens that
are decimal numbers. -/
theorem points_array_even (max_width fuel : Nat) (s : List Char) (vals : List ℚ)
    (hv : List.Forall₂ (fun t v => token_value t = some v) (kept_tokens s) vals)
    (he : (kept_tokens s).length % 2 = 0) (hf : (kept_tokens s).length / 2 < fuel) :
    reads (repair (kept_tokens s)) (pair_up vals) ∧
    points_array fuel (some (repair (kept_tokens s))) max_width
      = (grid_points max_width (pair_up vals)).bind fun out =>
          .returns { ret := 0, out := out, length := (kept_tokens s).length / 2 } := by
  have hlen : (kept_tokens s).length = vals.length := hv.length_eq
  have hr : reads (repair (kept_tokens s)) (pair_up vals) :=
    reads_repair (kept_tokens s) vals 0 hv he (by decide)
  have hn : count_newlines (repair (kept_tokens s)) = (pair_up vals).length := by
    rw [repair, count_newlines_repair _ 0 (by decide) (kept_tokens_kept s), pair_up_length, hlen]
  refine ⟨hr, ?_⟩
  rw [points_array_reads max_width fuel _ _ hr hn
    (by rw [pair_up_length, ← hlen]; exact hf), pair_up_length, hlen]

theorem token_value_digit (c : Char) (v : ℚ) (h : scan_lf [c] = .value v []) :
    token_value [c] = some v := by
  simp [token_value, h]

/-- The count and the grid points for an input whose kept tokens are decimal
numbers, an even number `N` of them: the stream written by `sanitize_file` has
`N / 2` newline characters and is read as the `N / 2` pairs of the token values;
when the greatest `x` is positive and every conversion to `int` is defined,
`points_array` returns the count `N / 2` and the grid points of these pairs, in
file order. -/
theorem points_array_even_count (max_width fuel : Nat) (s : List Char) (vals : List ℚ)
    (hv : List.Forall₂ (fun t v => token_value t = some v) (kept_tokens s) vals)
    (he : (kept_tokens s).length % 2 = 0) (hf : (kept_tokens s).length / 2 < fuel)
    (hx : 0 < max_x (pair_up vals))
    (hfit : ∀ p ∈ pair_up vals,
      fits_int (scale_factor max_width (max_x (pair_up vals))) p.1 ∧
      fits_int (scale_factor max_width (max_x (pair_up vals))) p.2) :
    sanitize s = some (repair (kept_tokens s)) ∧
    count_newlines (repair (kept_tokens s)) = (kept_tokens s).length / 2 ∧
    reads (repair (kept_tokens s)) (pair_up vals) ∧
    (pair_up vals).length = (kept_tokens s).length / 2 ∧
    points_array fuel (some (repair (kept_tokens s))) max_width
      = .returns { ret := 0, length := (kept_tokens s).length / 2, out :=
          (pair_up vals).map fun p =>
            (grid_coordinate (scale_factor max_width (max_x (pair_up vals))) p.1,
             grid_coordinate (scale_factor max_width (max_x (pair_up vals))) p.2) } := by
  obtain ⟨hr, hp⟩ := points_array_even max_width fuel s vals hv he hf
  refine ⟨sanitize_eq s, ?_, hr, by rw [pair_up_length, hv.length_eq], ?_⟩
  · rw [repair, count_newlines_repair _ 0 (by decide) (kept_tokens_kept s)]
  · rw [hp, (grid_points_iff max_width _ hx _).2 ⟨hfit, rfl⟩]
    rfl

theorem token_values_789 :
    List.Forall₂ (fun t v => token_value t = some v) (kept_tokens "7 8 9".toList) [7, 8, 9] := by
  have hk : kept_tokens "7 8 9".toList = [['7'], ['8'], ['9']] := by decide
  rw [hk]
  refine .cons ?_ (.cons ?_ (.cons ?_ .nil)) <;>
    simp [token_value, scan_lf, isspace, read_sign, unmodelled_start, read_exponent,
      digits_value, Char.isDigit]

/-- C12: the input `7 8 9` has three kept tokens, all decimal numbers. The stream
`7 8`, newline, `9 ` has one newline, which is `3 / 2`, and one complete pair,
`(7, 8)`; but the second call of `fscanf` reads the token `9` alone and returns 1,
not `EOF`, so the loop body runs with `line = 1 = lines_in_file`: it takes the
dangling 9 as the greatest `x`, where the pair has 7, and stores outside the
arrays of one cell. The run of `points_array` is undefined, and no count and no
grid points are returned. For the input `7 8` the count is 1 and the grid point is
`(200, 229)`. -/
theorem points_array_odd_tokens :
    List.Forall₂ (fun t v => token_value t = some v) (kept_tokens "7 8 9".toList) [7, 8, 9] ∧
    sanitize "7 8 9".toList = some "7 8\n9 ".toList ∧
    count_newlines "7 8\n9 ".toList = 1 ∧
    (kept_tokens "7 8 9".toList).length / 2 = 1 ∧
    pair_up [7, 8, 9] = [(7, 8)] ∧
    (∃ st1 st2 st3,
      fscanf_lf_lf (LoadState.init "7 8\n9 ".toList 1) = .items 2 st1 ∧
      store_pair st1 = .returns st2 ∧
      fscanf_lf_lf st2 = .items 1 st3 ∧
      st3.line = 1 ∧ st3.x_coords.length = 1 ∧ st3.y_coords.length = 1 ∧
      st3.x_coord = some 9 ∧ st3.y_coord = some 8 ∧ st3.greatest_x = 7 ∧
      store_pair st3 = .undefined) ∧
    (∀ f : Nat, points_array (f + 2) (some "7 8\n9 ".toList) 200 = .undefined) ∧
    sanitize "7 8".toList = some "7 8\n".toList ∧
    points_array 2 (some "7 8\n".toList) 200
      = .returns { ret := 0, out := [(200, 229)], length := 1 } := by
  have hloop : ∀ f : Nat,
      read_loop (f + 2) (LoadState.init "7 8\n9 ".toList 1) = .undefined := by
    intro f
    simp [read_loop, LoadState.init, fscanf_lf_lf, store_pair, Outcome.bind, scan_lf, isspace,
      read_sign, unmodelled_start, read_exponent, digits_value, Char.isDigit]
  refine ⟨token_values_789, by decide, by decide, by decide, rfl, ?_, ?_, by decide,
    by decide!⟩
  · refine ⟨
      { rest := "\n9 ".toList, x_coord := some 7, y_coord := some 8, greatest_x := 0,
        line := 0, x_coords := [none], y_coords := [none] },
      { rest := "\n9 ".toList, x_coord := some 7, y_coord := some 8, greatest_x := 7,
        line := 1, x_coords := [some 7], y_coords := [some 8] },
      { rest := [], x_coord := some 9, y_coord := some 8, greatest_x := 7,
        line := 1, x_coords := [some 7], y_coords := [some 8] },
      ?_, ?_, ?_, rfl, rfl, rfl, rfl, rfl, rfl, ?_⟩
    · simp [LoadState.init, fscanf_lf_lf, scan_lf, isspace, read_sign, unmodelled_start,
        read_exponent, digits_value, Char.isDigit]
    · simp [store_pair]
    · simp [fscanf_lf_lf, scan_lf, isspace, read_sign, unmodelled_start,
        read_exponent, digits_value, Char.isDigit]
    · simp [store_pair]
  · intro f
    have hc : count_newlines "7 8\n9 ".toList = 1 := by decide
    rw [points_array, hc, hloop f]
    rfl
/-! ## A token that is not a number -/

theorem store_pair_rest (st st1 : LoadState) (h : store_pair st = .returns st1) :
    st1.rest = st.rest := by
  unfold store_pair at h
  split at h
  · simp at h
  · split at h
    · simp only [Outcome.returns.injEq] at h
      rw [← h]
    · simp at h

theorem bind_returns {α β : Type} (o : Outcome α) (f : α → Outcome β) (b : β)
    (h : o.bind f = .returns b) : ∃ a, o = .returns a ∧ f a = .returns b := by
  cases o with
  | returns a => exact ⟨a, rfl, h⟩
  | undefined => simp [Outcome.bind] at h
  | timeout => simp [Outcome.bind] at h
  | unmodelled => simp [Outcome.bind] at h

/-- When `fscanf` assigns nothing and leaves the text where it is, the reading loop
does not come to its end, however many iterations it is given. -/
theorem read_loop_never_returns (stuck : List Char)
    (hs : ∀ st : LoadState, st.rest = stuck → ∃ n, fscanf_lf_lf st = .items n st) :
    ∀ (fuel : Nat) (st st1 : LoadState), st.rest = stuck → read_loop fuel st ≠ .returns st1 := by
  intro fuel
  induction fuel with
  | zero => intro st st1 _ h; simp [read_loop] at h
  | succ fuel ih =>
    intro st st1 hr h
    obtain ⟨n, hn⟩ := hs st hr
    simp only [read_loop, hn] at h
    obtain ⟨st2, h2, h3⟩ := bind_returns _ _ _ h
    exact ih st2 st1 (by rw [store_pair_rest st st2 h2, hr]) h3

theorem fscanf_stuck_abc (st : LoadState) (h : st.rest = "abc 2\n".toList) :
    fscanf_lf_lf st = .items 0 st := by
  have hs : scan_lf st.rest = .no_match "abc 2\n".toList := by
    rw [h]; decide
  unfold fscanf_lf_lf
  rw [hs]
  simp only [← h]

/-- C11: for the input `1abc 2` the sanitized stream is `1abc 2`; the first call of
`fscanf` assigns one item and stops in front of `abc`, and every later call assigns
nothing, leaves the text where it is and does not return `EOF`: whatever the size of
the arrays and however many iterations are allowed, the reading loop has not come
to its end, and `points_array` does not return. -/
theorem read_loop_stuck :
    sanitize "1abc 2".toList = some "1abc 2\n".toList ∧
    (∃ st1, fscanf_lf_lf (LoadState.init "1abc 2\n".toList 1) = .items 1 st1 ∧
      st1.rest = "abc 2\n".toList) ∧
    (∀ st : LoadState, st.rest = "abc 2\n".toList → fscanf_lf_lf st = .items 0 st) ∧
    (∀ (lines_in_file fuel : Nat) (st : LoadState),
      read_loop fuel (LoadState.init "1abc 2\n".toList lines_in_file) ≠ .returns st) ∧
    (∀ (fuel : Nat) (p : Points),
      points_array fuel (some "1abc 2\n".toList) 200 ≠ .returns p) := by
  have hfirst : ∀ n, ∃ st1, fscanf_lf_lf (LoadState.init "1abc 2\n".toList n) = .items 1 st1 ∧
      st1.rest = "abc 2\n".toList := by
    intro n
    refine ⟨{ LoadState.init "1abc 2\n".toList n with
      rest := "abc 2\n".toList, x_coord := some 1 }, ?_, rfl⟩
    simp [LoadState.init, fscanf_lf_lf, scan_lf, isspace, read_sign, unmodelled_start,
      read_exponent, digits_value, Char.isDigit]
  have hloop : ∀ (n fuel : Nat) (st : LoadState),
      read_loop fuel (LoadState.init "1abc 2\n".toList n) ≠ .returns st := by
    intro n fuel st h
    cases fuel with
    | zero => simp [read_loop] at h
    | succ fuel =>
      obtain ⟨st1, h1, hr1⟩ := hfirst n
      simp only [read_loop, h1] at h
      obtain ⟨st2, h2, h3⟩ := bind_returns _ _ _ h
      exact read_loop_never_returns "abc 2\n".toList
        (fun s hs => ⟨0, fscanf_stuck_abc s hs⟩) fuel st2 st
        (by rw [store_pair_rest st1 st2 h2, hr1]) h3
  refine ⟨by decide, hfirst 1, fscanf_stuck_abc, hloop, ?_⟩
  intro fuel p h
  simp only [points_array] at h
  obtain ⟨st, h1, _⟩ := bind_returns _ _ _ h
  exact hloop _ fuel st h1

/-! ## The greatest `x` -/

theorem foldr_max_comm_rat (a b : ℚ) : ∀ (l : List ℚ),
    l.foldr max (max a b) = max b (l.foldr max a)
  | [] => by simp [max_comm]
  | x :: l => by
    simp only [List.foldr_cons, foldr_max_comm_rat a b l]
    exact max_left_comm _ _ _

/-- The value of `greatest_x` after the reading loop, as a maximum. -/
theorem track_greatest_x_max : ∀ (ps : List (ℚ × ℚ)) (g : ℚ),
    ps.foldl (fun g p => if p.1 > g then p.1 else g) g = (ps.map fun p => p.1).foldr max g
  | [], _ => rfl
  | p :: ps, g => by
    have : (if p.1 > g then p.1 else g) = max g p.1 := by
      simp only [max_def]
      by_cases h : g ≤ p.1 <;> by_cases h2 : p.1 > g <;> simp [h, h2]
      · linarith [le_antisymm h (not_lt.1 h2)]
      · linarith
    rw [List.foldl_cons, track_greatest_x_max ps, this, List.map_cons, List.foldr_cons,
      foldr_max_comm_rat]

theorem foldr_max_bounds : ∀ (l : List ℚ),
    0 ≤ l.foldr max 0 ∧ (∀ x ∈ l, x ≤ l.foldr max 0) ∧
      (l.foldr max 0 = 0 ∨ l.foldr max 0 ∈ l)
  | [] => by simp
  | x :: l => by
    obtain ⟨h0, hle, hat⟩ := foldr_max_bounds l
    simp only [List.foldr_cons]
    refine ⟨le_trans h0 (le_max_right _ _), ?_, ?_⟩
    · intro y hy
      rcases List.mem_cons.1 hy with h | h
      · rw [h]; exact le_max_left _ _
      · exact le_trans (hle y h) (le_max_right _ _)
    · rcases le_total x (l.foldr max 0) with h | h
      · rw [max_eq_right h]
        rcases hat with h1 | h1
        · exact Or.inl h1
        · exact Or.inr (List.mem_cons_of_mem _ h1)
      · rw [max_eq_left h]
        exact Or.inr (List.mem_cons_self _ _)

/-- C13: after the reading loop of `points_array` on a file read as the pairs
`pairs`, `greatest_x` is the greatest of `0` and the `x` values of the pairs, and
the arrays hold the pairs; when some `x` is positive, `greatest_x` is an `x` of
the list and is at least every `x` of the list; an input without numeric token
gives the empty stream, on which the loop stores no coordinate and leaves
`greatest_x = 0`. -/
theorem greatest_x_tracked (text : List Char) (pairs : List (ℚ × ℚ)) (fuel : Nat)
    (hr : reads text pairs) (hn : count_newlines text = pairs.length)
    (hf : pairs.length < fuel) :
    (∃ st, read_loop fuel (LoadState.init text (count_newlines text)) = .returns st ∧
      st.greatest_x = (pairs.map fun p => p.1).foldr max 0 ∧
      st.x_coords = pairs.map (fun p => some p.1) ∧
      st.y_coords = pairs.map (fun p => some p.2) ∧
      ((∃ p ∈ pairs, 0 < p.1) →
        (∃ p ∈ pairs, p.1 = st.greatest_x) ∧ ∀ p ∈ pairs, p.1 ≤ st.greatest_x)) ∧
    (∀ s : List Char, kept_tokens s = [] →
      sanitize s = some [] ∧
      ∃ st, read_loop fuel (LoadState.init [] (count_newlines [])) = .returns st ∧
        st.greatest_x = 0 ∧ st.x_coords = [] ∧ st.y_coords = []) := by
  obtain ⟨f, rfl⟩ : ∃ f, fuel = f + 1 := ⟨fuel - 1, by omega⟩
  constructor
  · obtain ⟨st, h1, h2, h3, h4⟩ := read_loop_eq pairs (LoadState.init text pairs.length) [] []
      (f + 1) hr hf rfl rfl (by simp [LoadState.init]) (by simp [LoadState.init])
    have hg : st.greatest_x = (pairs.map fun p => p.1).foldr max 0 := by
      rw [h2, track_greatest_x_max]; rfl
    refine ⟨st, by rw [hn]; exact h1, hg, by simpa using h3, by simpa using h4, ?_⟩
    rintro ⟨p, hp, hpos⟩
    obtain ⟨_, hle, hat⟩ := foldr_max_bounds (pairs.map fun p => p.1)
    rw [← hg] at hle hat
    have hmem : p.1 ∈ pairs.map (fun p => p.1) := List.mem_map_of_mem _ hp
    refine ⟨?_, fun q hq => hle q.1 (List.mem_map_of_mem _ hq)⟩
    rcases hat with h0 | hm
    · have := hle p.1 hmem
      rw [h0] at this
      exact absurd hpos (not_lt.2 this)
    · obtain ⟨q, hq, he⟩ := List.mem_map.1 hm
      exact ⟨q, hq, he⟩
  · intro s hk
    refine ⟨by rw [sanitize_eq, hk]; rfl, LoadState.init [] 0, rfl, rfl, rfl, rfl⟩

/-- The claim C13 for the example stream of the specification. -/
theorem greatest_x_tracked_witness :
    reads "0.0 0.0\n1.0 0.5\n2.0 1.0\n".toList [(0, 0), (1, 1 / 2), (2, 1)] ∧
    count_newlines "0.0 0.0\n1.0 0.5\n2.0 1.0\n".toList
      = [((0 : ℚ), (0 : ℚ)), (1, 1 / 2), (2, 1)].length ∧
    ∃ st, read_loop 4 (LoadState.init "0.0 0.0\n1.0 0.5\n2.0 1.0\n".toList
        (count_newlines "0.0 0.0\n1.0 0.5\n2.0 1.0\n".toList)) = .returns st ∧
      st.greatest_x = ([((0 : ℚ), (0 : ℚ)), (1, 1 / 2), (2, 1)].map fun p => p.1).foldr max 0 ∧
      st.x_coords = [((0 : ℚ), (0 : ℚ)), (1, 1 / 2), (2, 1)].map (fun p => some p.1) ∧
      st.y_coords = [((0 : ℚ), (0 : ℚ)), (1, 1 / 2), (2, 1)].map (fun p => some p.2) ∧
      ((∃ p ∈ [((0 : ℚ), (0 : ℚ)), (1, 1 / 2), (2, 1)], 0 < p.1) →
        (∃ p ∈ [((0 : ℚ), (0 : ℚ)), (1, 1 / 2), (2, 1)], p.1 = st.greatest_x) ∧
        ∀ p ∈ [((0 : ℚ), (0 : ℚ)), (1, 1 / 2), (2, 1)], p.1 ≤ st.greatest_x) :=
  ⟨reads_example, by decide,
    (greatest_x_tracked "0.0 0.0\n1.0 0.5\n2.0 1.0\n".toList [(0, 0), (1, 1 / 2), (2, 1)] 4
      reads_example (by decide) (by decide)).1⟩

/-! ## The margin above the plot -/

/-- C14: for every non-empty sequence of grid points inside the canvas with
`greatest_y + 2 < canvas_width`, the first two lines printed (the rows
`greatest_y + 2` and `greatest_y + 1`) hold blanks only, some point has its row
equal to `greatest_y`, and the third line printed (the row `greatest_y`) holds at
least one `'*'`. -/
theorem render_margin (max_width : Nat) (pts : List (ℤ × ℤ)) (hne : pts ≠ [])
    (hin : ∀ p ∈ pts, in_canvas max_width p) (h : max_row pts + 2 < max_width) :
    ∃ g gy ls, rasterize max_width pts = .returns (g, gy) ∧
      gy = (pts.map fun p => p.2).foldr max 0 ∧
      render g max_width gy = .returns ls ∧
      ls[0]? = some (List.replicate max_width ' ') ∧
      ls[1]? = some (List.replicate max_width ' ') ∧
      (∃ p ∈ pts, p.2 = gy) ∧
      ∃ l, ls[2]? = some l ∧ '*' ∈ l := by
  obtain ⟨g, h1, hsq, hcell⟩ := rasterize_eq max_width pts hin
  have hle := (max_row_le_iff (max_row pts) pts).1 le_rfl
  obtain ⟨n, hn⟩ : ∃ n : Nat, max_row pts = n := ⟨(max_row pts).toNat, by
    have := hle.1; omega⟩
  have hnw : n + 2 < max_width := by omega
  have htop : ∃ p ∈ pts, p.2 = max_row pts := by
    rcases max_row_attained pts with h0 | hp
    · cases pts with
      | nil => exact absurd rfl hne
      | cons p ps =>
        have hp1 := hle.2 p (List.mem_cons_self _ _)
        have hp2 := (hin p (List.mem_cons_self _ _)).2.2.1
        exact ⟨p, List.mem_cons_self _ _, by omega⟩
    · exact hp
  have hr := render_rows_eq g max_width hsq (n + 3) (by omega)
  have hblank : ∀ i : Nat, n < i → i < max_width →
      ((List.range max_width).map fun j => (cell g j i).getD ' ')
        = List.replicate max_width ' ' := by
    intro i hi hiw
    apply List.ext_getElem (by simp)
    intro j hj1 hj2
    simp only [List.length_map, List.length_range] at hj1
    have hnot : ¬ ((j : ℤ), (i : ℤ)) ∈ pts := by
      intro hm
      have := hle.2 _ hm
      simp only at this
      omega
    simp [hcell j i hj1 hiw, hnot]
  have hrender : render g max_width (max_row pts) = .returns
      ((List.range (n + 3)).reverse.map fun i =>
        (List.range max_width).map fun j => (cell g j i).getD ' ') := by
    rw [render, hn]
    have : ((n : ℤ) + 3).toNat = n + 3 := by omega
    rw [this, hr]
  have hrev : (List.range (n + 3)).reverse = (n + 2) :: (n + 1) :: n :: (List.range n).reverse := by
    simp [List.range_succ]
  refine ⟨g, max_row pts, _, h1, rfl, hrender, ?_, ?_, htop, ?_⟩
  · rw [hrev]
    simp [hblank (n + 2) (by omega) (by omega)]
  · rw [hrev]
    simp [hblank (n + 1) (by omega) (by omega)]
  · obtain ⟨p, hp, hrow⟩ := htop
    have hpin := hin p hp
    have hc : p.1.toNat < max_width := by
      have := hpin.1; have := hpin.2.1; omega
    have hpeq : (((p.1.toNat : ℕ) : ℤ), ((n : ℕ) : ℤ)) = p := by
      have := hpin.1
      ext
      · simp; omega
      · simp; omega
    refine ⟨(List.range max_width).map fun j => (cell g j n).getD ' ', by rw [hrev]; simp, ?_⟩
    rw [List.mem_map]
    refine ⟨p.1.toNat, List.mem_range.2 hc, ?_⟩
    rw [hcell p.1.toNat n hc (by omega), hpeq]
    simp [hp]

/-- The claim C14 for the points `(1,2), (0,0)` on a canvas of width 5. -/
theorem render_margin_witness :
    [((1 : ℤ), (2 : ℤ)), (0, 0)] ≠ [] ∧
    (∀ p ∈ [((1 : ℤ), (2 : ℤ)), (0, 0)], in_canvas 5 p) ∧
    max_row [(1, 2), (0, 0)] + 2 < (5 : ℕ) ∧
    ∃ g gy ls, rasterize 5 [(1, 2), (0, 0)] = .returns (g, gy) ∧
      gy = ([((1 : ℤ), (2 : ℤ)), (0, 0)].map fun p => p.2).foldr max 0 ∧
      render g 5 gy = .returns ls ∧
      ls[0]? = some (List.replicate 5 ' ') ∧
      ls[1]? = some (List.replicate 5 ' ') ∧
      (∃ p ∈ [((1 : ℤ), (2 : ℤ)), (0, 0)], p.2 = gy) ∧
      ∃ l, ls[2]? = some l ∧ '*' ∈ l :=
  ⟨by decide, by decide, by decide,
    render_margin 5 [(1, 2), (0, 0)] (by decide) (by decide) (by decide)⟩

/-! ## The test of the input file -/

/-- C15: `is_file` returns 0 when `stat` fails, that is when the file is not found,
and 1 when the file is found, the other way round from its comment; `main` relies
on these values and reports a file that is not found. -/
theorem is_file_values :
    is_file none = 0 ∧
    (∀ content : List Char, is_file (some content) = 1) ∧
    (∀ (fuel : Nat) (out_ok : Bool),
      main fuel 2 none out_ok = .returns ⟨1, "File does not exist.\n".toList⟩) := by
  refine ⟨rfl, fun _ => rfl, fun fuel out_ok => ?_⟩
  simp [main, main_with, is_file]

/-! ## Sanitizing twice -/

theorem is_delim_separator (i : Nat) : is_delim (separator i) = true := by
  unfold separator
  split <;> decide

/-- The tokens of a re-paired stream are the tokens it was made of. -/
theorem split_tokens_repair : ∀ (toks : List (List Char)) (n : Nat),
    (∀ t ∈ toks, KeptToken t) → split_tokens (repair_from n toks) = toks ++ [[]]
  | [], n, _ => by simp [repair_from_nil, split_tokens]
  | t :: ts, n, h => by
    have ht : KeptToken t := h t (List.mem_cons_self _ _)
    rw [repair_from_cons, split_tokens,
      List.splitOnP_first is_delim t (fun c hc => by simp [ht.2 c hc]) (separator n)
        (is_delim_separator n)]
    have ih := split_tokens_repair ts (n + 1) (fun x hx => h x (List.mem_cons_of_mem _ hx))
    rw [split_tokens] at ih
    rw [ih]
    rfl

theorem filter_kept : ∀ (toks : List (List Char)), (∀ t ∈ toks, KeptToken t) →
    toks.filter starts_with_digit = toks
  | [], _ => rfl
  | t :: ts, h => by
    rw [List.filter_cons, if_pos (h t (List.mem_cons_self _ _)).1,
      filter_kept ts (fun x hx => h x (List.mem_cons_of_mem _ hx))]

/-- C16: sanitizing is idempotent on its output: for every input text the
tokenize-filter-repair step of `sanitize_file`, applied to the stream it wrote,
writes that same stream again; the tokens of the stream are the kept tokens of the
input, each starting with a digit. -/
theorem sanitize_idempotent (s : List Char) :
    ∃ out, sanitize s = some out ∧ sanitize out = some out ∧
      kept_tokens out = kept_tokens s ∧
      (split_tokens out).filter (fun t => !t.isEmpty) = kept_tokens s ∧
      ∀ t ∈ kept_tokens s, starts_with_digit t = true := by
  have hk := kept_tokens_kept s
  have hsplit := split_tokens_repair (kept_tokens s) 0 hk
  have hkept : kept_tokens (repair (kept_tokens s)) = kept_tokens s := by
    rw [kept_tokens, repair, hsplit, List.filter_append, filter_kept _ hk]
    simp [starts_with_digit]
  refine ⟨repair (kept_tokens s), sanitize_eq s, ?_, hkept, ?_, fun t ht => (hk t ht).1⟩
  · rw [sanitize_eq, hkept]
  · rw [repair, hsplit, List.filter_append]
    have : (kept_tokens s).filter (fun t => !t.isEmpty) = kept_tokens s := by
      rw [List.filter_eq_self]
      intro t ht
      have := (hk t ht).ne_nil
      cases t with
      | nil => exact absurd rfl this
      | cons _ _ => rfl
    rw [this]
    simp

/-! ## An odd number of tokens -/

/-- C17: for the input `1 2 3` the stream `1 2`, newline, `3 ` has one newline, so
the arrays have one cell; the second call of `fscanf` reads the token `3` alone and
returns 1, not `EOF`, so the body runs with `line = 1 = lines_in_file`: the stores
`x_coords[1]` and `y_coords[1]` are outside the arrays, and the `y` stored is the
`2` of the iteration before. -/
theorem read_loop_store_outside :
    sanitize "1 2 3".toList = some "1 2\n3 ".toList ∧
    count_newlines "1 2\n3 ".toList = 1 ∧
    (∃ st1 st2 st3,
      fscanf_lf_lf (LoadState.init "1 2\n3 ".toList 1) = .items 2 st1 ∧
      store_pair st1 = .returns st2 ∧
      fscanf_lf_lf st2 = .items 1 st3 ∧
      st3.line = 1 ∧ st3.x_coords.length = 1 ∧ st3.y_coords.length = 1 ∧
      st3.x_coord = some 3 ∧ st3.y_coord = some 2 ∧
      store_pair st3 = .undefined) ∧
    (∀ f : Nat, read_loop (f + 2) (LoadState.init "1 2\n3 ".toList 1) = .undefined) ∧
    (∀ f : Nat, points_array (f + 2) (some "1 2\n3 ".toList) 200 = .undefined) := by
  have hloop : ∀ f : Nat,
      read_loop (f + 2) (LoadState.init "1 2\n3 ".toList 1) = .undefined := by
    intro f
    simp [read_loop, LoadState.init, fscanf_lf_lf, store_pair, Outcome.bind, scan_lf, isspace,
      read_sign, unmodelled_start, read_exponent, digits_value, Char.isDigit]
  refine ⟨by decide, by decide, ?_, hloop, ?_⟩
  · refine ⟨
      { rest := "\n3 ".toList, x_coord := some 1, y_coord := some 2, greatest_x := 0,
        line := 0, x_coords := [none], y_coords := [none] },
      { rest := "\n3 ".toList, x_coord := some 1, y_coord := some 2, greatest_x := 1,
        line := 1, x_coords := [some 1], y_coords := [some 2] },
      { rest := [], x_coord := some 3, y_coord := some 2, greatest_x := 1,
        line := 1, x_coords := [some 1], y_coords := [some 2] },
      ?_, ?_, ?_, rfl, rfl, rfl, rfl, rfl, ?_⟩
    · simp [LoadState.init, fscanf_lf_lf, scan_lf, isspace, read_sign, unmodelled_start,
        read_exponent, digits_value, Char.isDigit]
    · simp [store_pair]
    · simp [fscanf_lf_lf, scan_lf, isspace, read_sign, unmodelled_start,
        read_exponent, digits_value, Char.isDigit]
    · simp [store_pair]
  · intro f
    have hc : count_newlines "1 2\n3 ".toList = 1 := by decide
    rw [points_array, hc, hloop f]
    rfl

end Airfoil
